import Mathlib

/-!
# libryujit: the setjmp/longjmp based exception engine

A shallow embedding of `src/coreclr/jit/libryujit/errorhandling.cpp`
(`try_finally`, `try_catch`, `exc_throw`) together with the small amount of
client code (blocks, cleanups, handlers) the engine calls back into.

Conventions of the embedding.

* `std::vector::push_back` is `stk ++ [r]`, `back()` is the last element and
  `pop_back()` is `List.dropLast`; the top of the handler stack is the LAST
  element of the list.
* A non-local jump is an outcome: `Outcome.jumped buf val s` is a `LONGJMP`
  to the buffer `buf` in flight.  The frame of `try_catch` owning `buf`
  turns it back into a return of `SETJMP` with value `val`.
* `ryujit_host_panic` never returns: `Outcome.panicked msg s`.
* Calls into client code may not terminate, so every function takes fuel;
  `none` means the fuel ran out.
* `trace` and `nextBuf` are ghost fields: `trace` records the calls the engine
  makes, `nextBuf` supplies the address of the next `exc_jmp_buf` local.
-/

namespace Ryujit

/-- Client code: what a block, a cleanup closure or a catch handler does.
`tryFinally` and `tryCatch` are calls of the engine's entry points, `throw`
is a call of `exc_throw`, `emit` is an observable action of the client.
`tryFinallyEmpty` is `try_finally` called with an unbound (empty)
`std::function` as its cleanup; a catch handler is a function pointer, named
by its index into the handler table. -/
inductive Code where
  | skip : Code
  | emit (tag : Nat) : Code
  | seq (first second : Code) : Code
  | tryFinally (block : Code) (finally_handler : Code) : Code
  | tryFinallyEmpty (block : Code) : Code
  | tryCatch (capture : Nat) (block : Code) (handler : Nat) : Code
  | throw (val : Int) : Code
  deriving DecidableEq, Repr

/-- The handler table: `env h v cap` is the body of the function `h` points
to, called as `h(v, cap)`. -/
abbrev Env := Nat → Int → Nat → Code

/-- The catch record `exc_catch_handler_t{&jump, handler, capture}`. -/
structure exc_catch_handler_t where
  buf : Nat
  body : Nat
  captures : Nat
  deriving DecidableEq, Repr

/-- The type `exc_handler_t`: a record of the handler stack, tagged `Catch` or
`Finally` (`exc_handler_type_t`). -/
inductive exc_handler_t where
  | Catch (catch_handler : exc_catch_handler_t) : exc_handler_t
  | Finally (finally_handler : Option Code) : exc_handler_t
  deriving DecidableEq, Repr

/-- What the engine is seen to do. -/
inductive Event where
  | emit (tag : Nat) : Event
  | callBlock : Event
  | callFinally (cleanup : Code) : Event
  | callHandler (body : Nat) (val : Int) (captures : Nat) : Event
  | longjmp (buf : Nat) (val : Int) : Event
  | panic (msg : String) : Event
  deriving DecidableEq, Repr

/-- The per-thread context returned by `ryujit_get_tls()`, with the two ghost
fields `trace` and `nextBuf`. -/
structure Tls where
  exc_stack : List exc_handler_t
  exc_val : Int
  exc_catch_handler : Option Nat
  exc_catch_captures : Nat
  trace : List Event
  nextBuf : Nat
  deriving DecidableEq, Repr

/-- How a call ends. -/
inductive Outcome where
  | normal (s : Tls) : Outcome
  | jumped (buf : Nat) (val : Int) (s : Tls) : Outcome
  | panicked (msg : String) (s : Tls) : Outcome
  | undefined (s : Tls) : Outcome
  deriving DecidableEq, Repr

/-- The context an outcome leaves behind. -/
def Outcome.tls : Outcome → Tls
  | .normal s => s
  | .jumped _ _ s => s
  | .panicked _ s => s
  | .undefined s => s

/-- Ghost: record an event. -/
def Tls.log (s : Tls) (e : Event) : Tls :=
  { s with trace := s.trace ++ [e] }

/-- The call `exc_stack.push_back(r)`. -/
def Tls.push_back (s : Tls) (r : exc_handler_t) : Tls :=
  { s with exc_stack := s.exc_stack ++ [r] }

/-- The call `exc_stack.pop_back()`; the caller has checked that the stack is
not empty. -/
def Tls.pop_back (s : Tls) : Tls :=
  { s with exc_stack := s.exc_stack.dropLast }

/-- The fatal escape `ryujit_host_panic(msg)`: it does not return. -/
def ryujit_host_panic (msg : String) (s : Tls) : Outcome :=
  .panicked msg (s.log (.panic msg))

mutual

/-- Run client code. -/
def run : Nat → Env → Code → Tls → Option Outcome
  | 0, _, _, _ => none
  | _ + 1, _, .skip, s => some (.normal s)
  | _ + 1, _, .emit n, s => some (.normal (s.log (.emit n)))
  | fuel + 1, env, .seq a b, s =>
    match run fuel env a s with
    | some (.normal s1) => run fuel env b s1
    | o => o
  | fuel + 1, env, .tryFinally block fin, s => try_finally fuel env block (some fin) s
  | fuel + 1, env, .tryFinallyEmpty block, s => try_finally fuel env block none s
  | fuel + 1, env, .tryCatch cap block h, s => try_catch fuel env cap block h s
  | fuel + 1, env, .throw v, s => exc_throw fuel env v s
termination_by structural fuel => fuel

/-- The function `try_finally(block, finally_handler)`: push the record, call
the block, pop.  `pop_back` on an empty vector is undefined behaviour. -/
def try_finally : Nat → Env → Code → Option Code → Tls → Option Outcome
  | 0, _, _, _, _ => none
  | fuel + 1, env, block, fin, s =>
    match run fuel env block ((s.push_back (.Finally fin)).log .callBlock) with
    | some (.normal s1) =>
      if s1.exc_stack = [] then some (.undefined s1) else some (.normal s1.pop_back)
    | o => o
termination_by structural fuel => fuel

/-- The function `try_catch(capture, block, handler)`: the local `exc_jmp_buf jump` gets a
fresh address, then the body runs with `SETJMP(jump)` returning 0. -/
def try_catch : Nat → Env → Nat → Code → Nat → Tls → Option Outcome
  | 0, _, _, _, _, _ => none
  | fuel + 1, env, cap, block, h, s =>
    try_catch_after fuel env 0 s.nextBuf cap block h { s with nextBuf := s.nextBuf + 1 }
termination_by structural fuel => fuel

/-- The body of `try_catch(capture, block, handler)` from the point where
`SETJMP(jump)` returns `r`: `r = 0` on the first return, the value given to
`LONGJMP` on a resumed one.  `jump` is the address of the local buffer. -/
def try_catch_after : Nat → Env → Int → Nat → Nat → Code → Nat → Tls → Option Outcome
  | 0, _, _, _, _, _, _, _ => none
  | fuel + 1, env, r, jump, cap, block, h, s =>
    if r > 0 then
      match s.exc_catch_handler with
      | none => some (.undefined s)
      | some f =>
        match run fuel env (env f s.exc_val s.exc_catch_captures)
            (s.log (.callHandler f s.exc_val s.exc_catch_captures)) with
        | some (.jumped b val s1) =>
          if b = jump then try_catch_after fuel env val jump cap block h s1
          else some (.jumped b val s1)
        | o => o
    else
      match run fuel env block
          ((s.push_back (.Catch { buf := jump, body := h, captures := cap })).log .callBlock) with
      | some (.normal s1) =>
        if s1.exc_stack = [] then some (.undefined s1) else some (.normal s1.pop_back)
      | some (.jumped b val s1) =>
        if b = jump then try_catch_after fuel env val jump cap block h s1
        else some (.jumped b val s1)
      | o => o
termination_by structural fuel => fuel

/-- The function `exc_throw(val)`: store the fault value, then unwind. -/
def exc_throw : Nat → Env → Int → Tls → Option Outcome
  | 0, _, _, _ => none
  | fuel + 1, env, val, s => exc_throw_loop fuel env { s with exc_val := val }
termination_by structural fuel => fuel

/-- The `while (!tls->exc_stack.empty())` loop of `exc_throw` and the panic
after it. -/
def exc_throw_loop : Nat → Env → Tls → Option Outcome
  | 0, _, _ => none
  | fuel + 1, env, s =>
    match s.exc_stack.getLast? with
    | none => some (ryujit_host_panic "unhandled exception" s)
    | some handler =>
      let s1 := s.pop_back
      match handler with
      | .Catch c =>
        some (.jumped c.buf 1
          ({ s1 with exc_catch_handler := some c.body,
                     exc_catch_captures := c.captures }.log (.longjmp c.buf 1)))
      | .Finally none =>
        some (ryujit_host_panic "'finally' block handler became empty" s1)
      | .Finally (some fin) =>
        match run fuel env fin (s1.log (.callFinally fin)) with
        | some (.normal s2) => exc_throw_loop fuel env s2
        | o => o
termination_by structural fuel => fuel

end

/-! ## Vocabulary of the statements -/

/-- A context with an empty handler stack and nothing recorded. -/
def Tls.init : Tls :=
  { exc_stack := [], exc_val := 0, exc_catch_handler := none,
    exc_catch_captures := 0, trace := [], nextBuf := 0 }

/-- A handler table for examples: every handler emits the fault value and
then the captured argument. -/
def env0 : Env := fun _ v cap => .seq (.emit v.toNat) (.emit cap)

/-- Client code that performs no protocol operation: no `try_finally`, no
`try_catch`, no `exc_throw`. -/
def Code.plain : Code → Bool
  | .skip => true
  | .emit _ => true
  | .seq a b => a.plain && b.plain
  | _ => false

/-- The events of code in which nothing is thrown: the client's own actions
and the block calls of the regions it enters. -/
def Code.events : Code → List Event
  | .emit t => [.emit t]
  | .seq a b => a.events ++ b.events
  | .tryFinally b _ => .callBlock :: b.events
  | .tryFinallyEmpty b => .callBlock :: b.events
  | .tryCatch _ b _ => .callBlock :: b.events
  | _ => []

/-- Fuel that is enough to run code in which nothing is thrown: one unit per
call on the longest chain of calls. -/
def Code.cost : Code → Nat
  | .seq a b => a.cost + b.cost + 1
  | .tryFinally b _ => b.cost + 2
  | .tryFinallyEmpty b => b.cost + 2
  | .tryCatch _ b _ => b.cost + 3
  | _ => 1

/-- A nesting of `try_finally` and `try_catch` regions in which nothing is
thrown, so that every block returns normally.  The cleanups and handlers
of the regions are arbitrary. -/
def Code.regions : Code → Bool
  | .skip => true
  | .emit _ => true
  | .seq a b => a.regions && b.regions
  | .tryFinally b _ => b.regions
  | .tryFinallyEmpty b => b.regions
  | .tryCatch _ b _ => b.regions
  | .throw _ => false

/-- The records `try_finally` leaves on the stack for the cleanups `cs`, given
innermost first: the innermost region pushed last, so its record is on top
(last in the list). -/
def finallyRecords (cs : List Code) : List exc_handler_t :=
  cs.reverse.map fun c => exc_handler_t.Finally (some c)

/-- The events of unwinding through the cleanups `cs` (innermost first), each
given with the events it produces itself: the unwinder calls the cleanup,
the cleanup runs. -/
def unwindTrace : List (Code × List Event) → List Event
  | [] => []
  | (c, t) :: rest => Event.callFinally c :: t ++ unwindTrace rest

/-- Nested `try_finally` regions around `body`, with the cleanups `cs` given
innermost first: `nest body [c1, c2]` is
`try_finally([&]{ try_finally(body, c1); }, c2)`. -/
def nest (body : Code) : List Code → Code
  | [] => body
  | c :: cs => nest (.tryFinally body c) cs

/-- The context in which the body of `nest body cs` starts when the nest is
entered in `s`: every region has pushed its record and called its block. -/
def Tls.within (s : Tls) (cs : List Code) : Tls :=
  { s with exc_stack := s.exc_stack ++ finallyRecords cs,
           trace := s.trace ++ List.replicate cs.length .callBlock }

/-- Whether the call returned to its caller. -/
def Outcome.isNormal : Outcome → Bool
  | .normal _ => true
  | _ => false

/-- Under the invariant `I` on the context, the closure `c` returns normally
to its caller, leaves the handler stack as it found it, produces just the
events `t`, and keeps `I`. -/
def Returns (env : Env) (I : Tls → Prop) (c : Code) (t : List Event) : Prop :=
  ∀ s, I s → ∃ fuel s', run fuel env c s = some (.normal s') ∧
    s'.exc_stack = s.exc_stack ∧ s'.trace = s.trace ++ t ∧ I s'

/-- An invariant on the context that the engine's own bookkeeping (stack and
trace updates) cannot break: it only looks at the other fields. -/
def Insensitive (I : Tls → Prop) : Prop :=
  ∀ s stk tr, I s → I { s with exc_stack := stk, trace := tr }

/-- Every jump buffer named by a catch record on the stack belongs to a
frame entered earlier: its address was handed out before `nextBuf`. -/
def Fresh (s : Tls) : Prop :=
  ∀ k, exc_handler_t.Catch k ∈ s.exc_stack → k.buf < s.nextBuf

/-- What a call may do to a handler stack `stk`: return with the stack as it
was; or leave by a jump with value 1 to a catch record of `stk`, with that
record and everything above it removed and the dispatch fields set; or end
in the fatal escape.  Undefined behaviour is excluded. -/
def Disciplined (stk : List exc_handler_t) (nb : Nat) : Outcome → Prop
  | .normal s' => s'.exc_stack = stk ∧ nb ≤ s'.nextBuf
  | .jumped b val s' => val = 1 ∧ nb ≤ s'.nextBuf ∧
      ∃ k rest, stk = s'.exc_stack ++ .Catch k :: rest ∧ k.buf = b ∧
        s'.exc_catch_handler = some k.body ∧ s'.exc_catch_captures = k.captures
  | .panicked _ _ => True
  | .undefined _ => False

/-- The stack discipline of all six functions at fuel `n`.  `exc_throw` and
its loop, in addition, never return to their caller. -/
def Discipline (n : Nat) : Prop :=
  (∀ env c s o, Fresh s → run n env c s = some o → Disciplined s.exc_stack s.nextBuf o) ∧
  (∀ env b f s o, Fresh s → try_finally n env b f s = some o →
      Disciplined s.exc_stack s.nextBuf o) ∧
  (∀ env cap b h s o, Fresh s → try_catch n env cap b h s = some o →
      Disciplined s.exc_stack s.nextBuf o) ∧
  (∀ env r j cap b h s o, (∀ k, exc_handler_t.Catch k ∈ s.exc_stack → k.buf < j) →
      j < s.nextBuf → (r = 0 ∨ (r = 1 ∧ s.exc_catch_handler ≠ none)) →
      try_catch_after n env r j cap b h s = some o → Disciplined s.exc_stack s.nextBuf o) ∧
  (∀ env v s o, Fresh s → exc_throw n env v s = some o →
      Disciplined s.exc_stack s.nextBuf o ∧ o.isNormal = false) ∧
  (∀ env s o, Fresh s → exc_throw_loop n env s = some o →
      Disciplined s.exc_stack s.nextBuf o ∧ o.isNormal = false)

/-- All six functions keep their result when given one more unit of fuel. -/
def FuelStep (n : Nat) : Prop :=
  (∀ env c s o, run n env c s = some o → run (n + 1) env c s = some o) ∧
  (∀ env b f s o, try_finally n env b f s = some o → try_finally (n + 1) env b f s = some o) ∧
  (∀ env cap b h s o, try_catch n env cap b h s = some o →
      try_catch (n + 1) env cap b h s = some o) ∧
  (∀ env r j cap b h s o, try_catch_after n env r j cap b h s = some o →
      try_catch_after (n + 1) env r j cap b h s = some o) ∧
  (∀ env v s o, exc_throw n env v s = some o → exc_throw (n + 1) env v s = some o) ∧
  (∀ env s o, exc_throw_loop n env s = some o → exc_throw_loop (n + 1) env s = some o)

/-- Every function extends the trace it is given: events are appended, never
removed or reordered. -/
def TraceGrows (n : Nat) : Prop :=
  (∀ env c s o, run n env c s = some o → s.trace <+: o.tls.trace) ∧
  (∀ env b f s o, try_finally n env b f s = some o → s.trace <+: o.tls.trace) ∧
  (∀ env cap b h s o, try_catch n env cap b h s = some o → s.trace <+: o.tls.trace) ∧
  (∀ env r j cap b h s o, try_catch_after n env r j cap b h s = some o →
      s.trace <+: o.tls.trace) ∧
  (∀ env v s o, exc_throw n env v s = some o → s.trace <+: o.tls.trace) ∧
  (∀ env s o, exc_throw_loop n env s = some o → s.trace <+: o.tls.trace)

/-! ## Example programs and contexts -/

/-- A nesting for C4: a `try_catch` inside a `try_finally` next to another
`try_finally`, entered on a stack that already holds two records. -/
def nesting4 : Code :=
  .seq (.tryFinally (.tryCatch 1 (.emit 1) 0) (.emit 2)) (.tryFinallyEmpty (.emit 3))

/-- The context `nesting4` is entered in. -/
def entry4 : Tls :=
  { Tls.init with exc_stack := [.Catch ⟨0, 1, 2⟩, .Finally (some (.emit 8))], nextBuf := 1 }

/-- The context in which the block of the C6 example returns: the record
pushed by `try_finally` is still on top. -/
def afterBlock6 : Tls :=
  { entry4 with exc_stack := entry4.exc_stack ++ [exc_handler_t.Finally (some (Code.emit 9))],
                trace := [Event.callBlock, Event.emit 1, Event.emit 2] }

/-- The block of the C9 example: a fault thrown inside a `try_finally`. -/
def block9 : Code := .tryFinally (.throw 7) (.emit 1)

/-- The context in which the jump of the C9 example lands. -/
def landed9 : Tls :=
  { exc_stack := entry4.exc_stack, exc_val := 7, exc_catch_handler := some 3,
    exc_catch_captures := 5,
    trace := [.callBlock, .callBlock, .callFinally (.emit 1), .emit 1, .longjmp 1 1],
    nextBuf := 2 }

/-- The context in which the `try_catch` of the C9 example returns. -/
def returned9 : Tls :=
  { landed9 with trace := landed9.trace ++ [.callHandler 3 7 5, .emit 7, .emit 5] }

/-! ## Rethrow from a handler -/

/-- The context in which the block of `try_catch(cap, block, h)` entered in `s`
starts: the buffer has its address, the catch record is pushed. -/
def Tls.entered (s : Tls) (cap h : Nat) : Tls :=
  (Tls.push_back { s with nextBuf := s.nextBuf + 1 }
    (.Catch { buf := s.nextBuf, body := h, captures := cap })).log .callBlock

/-- The closure `c` terminates and leaves the handler stack as it found it,
in whatever context it is called. -/
def Terminates (env : Env) (c : Code) : Prop :=
  ∀ s, ∃ fuel s', run fuel env c s = some (.normal s') ∧ s'.exc_stack = s.exc_stack

/-- How `exc_throw`, entered on the stack `stk`, may end: by a jump with value
1 to the topmost catch record of `stk` (no catch record above it), that
record and everything above it popped; or in the fatal escape, with the
unhandled-fault message on a stack emptied, or with the corrupted-finally
message at an unbound finally record. -/
def Ends (stk : List exc_handler_t) : Outcome → Prop
  | .jumped b val s' => val = 1 ∧ ∃ k above, stk = s'.exc_stack ++ .Catch k :: above ∧
      k.buf = b ∧ ∀ k', exc_handler_t.Catch k' ∉ above
  | .panicked msg s' =>
      (msg = "unhandled exception" ∧ s'.exc_stack = []) ∨
      (msg = "'finally' block handler became empty" ∧
        ∃ above, stk = s'.exc_stack ++ .Finally none :: above)
  | _ => False

/-- A stack for the C12 example: an unbound finally record at the bottom, a
catch record, two bound finally records on top. -/
def stack12 : List exc_handler_t :=
  [.Finally none, .Catch ⟨0, 1, 2⟩, .Finally (some (.emit 2)), .Finally (some (.emit 1))]

/-! ## The two returns of `SETJMP` in `try_catch` -/

/-- A context for the C19 examples: a fault value 7 and the dispatch fields
`(3, 5)` are stored, one buffer address has been handed out. -/
def entry19 : Tls :=
  { Tls.init with exc_val := 7, exc_catch_handler := some 3, exc_catch_captures := 5,
                  nextBuf := 1 }

/-- A block for the C20 examples: it throws 9 and catches it itself, so it
returns normally with the handler stack as it found it. -/
def block20 : Code := .tryCatch 0 (.throw 9) 1

/-- The context in which `block20`, run as the block of `try_catch(5, .., 3)`
entered in `Tls.init`, returns. -/
def afterBlock20 : Tls :=
  { exc_stack := [.Catch { buf := 0, body := 3, captures := 5 }], exc_val := 9,
    exc_catch_handler := some 1, exc_catch_captures := 0,
    trace := [.callBlock, .callBlock, .longjmp 1 1, .callHandler 1 9 0, .emit 9, .emit 0],
    nextBuf := 2 }

/-! ## The hand-written ARM64 save and resume routines

The machine state the two `__asm__` blocks touch.  Registers hold 64-bit
values; `mem a` is the 64-bit word stored at the byte address `a` (every
access of the two routines is to a word at `buf + 8 * i`); addresses wrap
at `2 ^ 64`.  The routines are entered with `buf` in `x0` and, for
`ryujit_longjmp`, `val` in `w1`, the low half of `x1`. -/

/-- The AArch64 state: general-purpose registers `x0`..`x30`, `sp`, the
program counter and memory. -/
structure Arm64 where
  x : Nat → Nat
  sp : Nat
  pc : Nat
  mem : Nat → Nat

/-- Write a 64-bit register. -/
def Arm64.setX (m : Arm64) (r v : Nat) : Arm64 :=
  { m with x := fun i => if i = r then v else m.x i }

/-- The instruction `str xt, [xn, #off]`. -/
def Arm64.str (m : Arm64) (t n off : Nat) : Arm64 :=
  { m with mem := fun a => if a = (m.x n + off) % 2 ^ 64 then m.x t else m.mem a }

/-- The instruction `stp xt1, xt2, [xn, #off]`: two consecutive words. -/
def Arm64.stp (m : Arm64) (t1 t2 n off : Nat) : Arm64 :=
  { m with mem := fun a =>
      if a = (m.x n + off + 8) % 2 ^ 64 then m.x t2
      else if a = (m.x n + off) % 2 ^ 64 then m.x t1
      else m.mem a }

/-- The instruction `ldr xt, [xn, #off]`. -/
def Arm64.ldr (m : Arm64) (t n off : Nat) : Arm64 :=
  m.setX t (m.mem ((m.x n + off) % 2 ^ 64))

/-- The instruction `ldp xt1, xt2, [xn, #off]`. -/
def Arm64.ldp (m : Arm64) (t1 t2 n off : Nat) : Arm64 :=
  (m.setX t1 (m.mem ((m.x n + off) % 2 ^ 64))).setX t2 (m.mem ((m.x n + off + 8) % 2 ^ 64))

/-- The body of `ryujit_setjmp(buf)`, instruction by instruction. -/
def ryujit_setjmp (m : Arm64) : Arm64 :=
  let m := m.setX 2 m.sp            -- mov x2, sp
  let m := m.str 2 0 0              -- str x2, [x0]
  let m := m.stp 19 20 0 8          -- stp x19, x20, [x0, #8]
  let m := m.stp 21 22 0 24         -- stp x21, x22, [x0, #24]
  let m := m.stp 23 24 0 40         -- stp x23, x24, [x0, #40]
  let m := m.stp 25 26 0 56         -- stp x25, x26, [x0, #56]
  let m := m.stp 27 28 0 72         -- stp x27, x28, [x0, #72]
  let m := m.stp 29 30 0 88         -- stp x29, x30, [x0, #88]
  let m := m.setX 0 0               -- mov w0, #0
  { m with pc := m.x 30 }           -- ret

/-- The body of `ryujit_longjmp(buf, val)`, instruction by instruction. -/
def ryujit_longjmp (m : Arm64) : Arm64 :=
  let m := if m.x 1 % 2 ^ 32 ≠ 0 then m   -- cbnz w1, 1f
           else m.setX 1 1                 -- mov w1, #1
  let m := m.ldp 29 30 0 88         -- ldp x29, x30, [x0, #88]
  let m := m.ldp 27 28 0 72         -- ldp x27, x28, [x0, #72]
  let m := m.ldp 25 26 0 56         -- ldp x25, x26, [x0, #56]
  let m := m.ldp 23 24 0 40         -- ldp x23, x24, [x0, #40]
  let m := m.ldp 21 22 0 24         -- ldp x21, x22, [x0, #24]
  let m := m.ldp 19 20 0 8          -- ldp x19, x20, [x0, #8]
  let m := m.ldr 2 0 0              -- ldr x2, [x0]
  let m := { m with sp := m.x 2 }   -- mov sp, x2
  let m := m.setX 0 (m.x 1)         -- mov x0, x1
  { m with pc := m.x 30 }           -- br x30

/-- The `int` a 32-bit register pattern stands for (two's complement). -/
def toInt32 (w : Nat) : Int :=
  if w % 2 ^ 32 < 2 ^ 31 then (w % 2 ^ 32 : Nat) else (w % 2 ^ 32 : Nat) - 2 ^ 32

/-- The value the resumed `ryujit_setjmp` call returns: the `int` in `w0`. -/
def Arm64.returned (m : Arm64) : Int := toInt32 (m.x 0)

/-- The address of the word `buf[i]`. -/
def bufWord (buf i : Nat) : Nat := (buf + 8 * i) % 2 ^ 64

/-- Repeated resumes from one buffer: before the `k`-th resume the code
`between k` runs, then `ryujit_longjmp`. -/
def resumeMany (between : Nat → Arm64 → Arm64) : Nat → Arm64 → Arm64
  | 0, m => m
  | k + 1, m => ryujit_longjmp (between k (resumeMany between k m))

/-- A machine state for the examples: register `i` holds `100 + i`, except
`x0`, which holds the buffer address 4096, and `x1`, which holds `v`. -/
def machine13 (v : Nat) : Arm64 :=
  { x := fun i => if i = 0 then 4096 else if i = 1 then v else 100 + i,
    sp := 65536, pc := 0, mem := fun _ => 0 }

/-! ## The assertion object `CHECK` (`check.cpp`)

A `LPCSTR` is a pointer to a string or `NULL`: `Option String`. -/

/-- The fields of a `CHECK` object that `Setup` writes. -/
structure CHECK where
  m_message : Option String
  m_condition : Option String
  m_file : Option String
  m_line : Int
  deriving DecidableEq, Repr

/-- The arguments of one call `Setup(message, condition, file, line)`. -/
structure SetupArgs where
  message : Option String
  condition : Option String
  file : Option String
  line : Int
  deriving DecidableEq, Repr

/-- The method `CHECK::Setup`: the four fields are written when `m_message` is
`NULL`, and left alone otherwise. -/
def CHECK.Setup (self : CHECK) (message condition file : Option String) (line : Int) : CHECK :=
  if self.m_message = none then
    { m_message := message, m_condition := condition, m_file := file, m_line := line }
  else self

/-- A sequence of `Setup` calls on one object, in order. -/
def CHECK.setups (self : CHECK) (calls : List SetupArgs) : CHECK :=
  calls.foldl (fun c a => c.Setup a.message a.condition a.file a.line) self

/-- What a call that does not return ends in: `ryujit_host_panic(msg)`. -/
inductive Escape where
  | panic (msg : Option String) : Escape
  deriving DecidableEq, Repr

/-- The method `CHECK::Trigger(reason)`: it calls `ryujit_host_panic(reason)`
and nothing else; the recorded fields are not read. -/
def CHECK.Trigger (_self : CHECK) (reason : Option String) : Escape :=
  .panic reason

/-- The fields of a call as a recorded object. -/
def SetupArgs.recorded (a : SetupArgs) : CHECK :=
  { m_message := a.message, m_condition := a.condition, m_file := a.file, m_line := a.line }

/-- A `CHECK` object on which nothing has been recorded. -/
def CHECK.unset : CHECK :=
  { m_message := none, m_condition := none, m_file := none, m_line := 0 }

/-! ## UTF-16 to UTF-8 conversion (`utf8.cpp`)

`GetBytes` is embedded as its control-flow graph: a location for every jump
target (the head of the slow loop, the labels `ProcessChar`, `EncodeChar`
and `LongCode`, the heads of the three inner loops, the code after the outer
loop) and one function per location that runs the code from there to the
next jump.  `pSrc`, `pStop` and `pTarget` are indices into the two buffers;
`int` variables are integers.  Ghost flags record a load or store outside
the buffers (`oob`) and an `assert` that evaluated to false (`asserted`); the
code goes on after either, as a release build does.  The build is
little-endian (`BIGENDIAN` is not set). -/

/-- The constant `MINIPAL_ERROR_INSUFFICIENT_BUFFER`, declared in
`minipal/utf8.h`; only its being nonzero matters. -/
def MINIPAL_ERROR_INSUFFICIENT_BUFFER : Int := 122

/-- The constant `HIGH_SURROGATE_START`. -/
def HIGH_SURROGATE_START : Int := 0xd800

/-- The constant `HIGH_SURROGATE_END`. -/
def HIGH_SURROGATE_END : Int := 0xdbff

/-- The constant `LOW_SURROGATE_START`. -/
def LOW_SURROGATE_START : Int := 0xdc00

/-- The constant `LOW_SURROGATE_END`. -/
def LOW_SURROGATE_END : Int := 0xdfff

/-- The constant `MAX_RECURSION`. -/
def MAX_RECURSION : Int := 250

/-- The constant `INT_MAX`. -/
def INT_MAX : Int := 2147483647

/-- Wrap an integer into the range of `int`. -/
def wrapInt (x : Int) : Int := (x + 2147483648) % 4294967296 - 2147483648

/-- The cast `(size_t)x`. -/
def sizeT (x : Int) : Nat := (x % 18446744073709551616).toNat

/-- The function `IsHighSurrogate`. -/
def IsHighSurrogate (c : Nat) : Bool := (c &&& 0xFC00) == 0xd800

/-- The function `IsLowSurrogate`. -/
def IsLowSurrogate (c : Nat) : Bool := (c &&& 0xFC00) == 0xdc00

/-- The function `InRange`. -/
def InRange (c b e : Int) : Bool := decide (b ≤ c) && decide (c ≤ e)

/-- The adjustment `0x10000 - LOW_SURROGATE_START - (HIGH_SURROGATE_START << 10)`
added when a surrogate pair is combined. -/
def pairOffset : Int := 0x10000 - LOW_SURROGATE_START - HIGH_SURROGATE_START * 1024

/-- The struct `EncoderBuffer`; a pointer into the source is the index of
the unit it points to, `none` is `NULL`. -/
structure EncoderBuffer where
  strDefault : List Nat
  strDefaultLength : Int
  charStart : Option Int
  charEnd : Int
  setEncoder : Bool
  bUsedEncoder : Bool
  bFallingBack : Bool
  iRecursionCount : Int
  fallbackCount : Int
  fallbackIndex : Int
  deriving DecidableEq, Repr

/-- Where `GetBytes` is: the jump targets of its control-flow graph.
`Done` is the code after the outer loop, `Return r` the return of `r`. -/
inductive Loc where
  | SlowLoop : Loc
  | ProcessChar : Loc
  | EncodeChar : Loc
  | AsciiLoop : Loc
  | FastLoop : Loc
  | FastLoop4 : Loc
  | LongCode : Loc
  | Done : Loc
  | Return (ret : Nat) : Loc
  deriving DecidableEq, Repr

/-- The arguments of `GetBytes` that do not change: the source units, the
size of the destination and the address of the first source unit. -/
structure GBArgs where
  chars : List Nat
  byteCount : Nat
  addr : Nat
  deriving DecidableEq, Repr

/-- The variables of `GetBytes`, the destination buffer and the encoder. -/
structure GBState where
  loc : Loc
  bytes : List Nat
  pSrc : Int
  pTarget : Nat
  pStop : Int
  ch : Int
  fallbackUsed : Bool
  encoder : EncoderBuffer
  errnoResult : Int
  oob : Bool
  asserted : Bool
  deriving DecidableEq, Repr

/-- The index `pEnd = chars + charCount`. -/
def GBArgs.pEnd (a : GBArgs) : Int := a.chars.length

/-- The unit `chars[i]`; 0 when `i` is outside the source. -/
def GBArgs.unit (a : GBArgs) (i : Int) : Nat :=
  if 0 ≤ i ∧ i < a.pEnd then a.chars.getD i.toNat 0 else 0

/-- Ghost: note a load of `chars[i]`. -/
def GBState.noteLoad (s : GBState) (a : GBArgs) (i : Int) : GBState :=
  if 0 ≤ i ∧ i < a.pEnd then s else { s with oob := true }

/-- Evaluate `assert(cond)`. -/
def GBState.assert (s : GBState) (cond : Bool) : GBState :=
  if cond then s else { s with asserted := true }

/-- The store `*(pTarget + k) = (unsigned char)b`. -/
def GBState.store (s : GBState) (a : GBArgs) (k : Nat) (b : Nat) : GBState :=
  if s.pTarget + k < a.byteCount then { s with bytes := s.bytes.set (s.pTarget + k) (b % 256) }
  else { s with oob := true }

/-- The macro `ENSURE_BUFFER_INC`. -/
def ENSURE_BUFFER_INC (a : GBArgs) (s : GBState) : GBState :=
  if s.pTarget + 1 > a.byteCount then
    { s with pTarget := s.pTarget + 1, errnoResult := MINIPAL_ERROR_INSUFFICIENT_BUFFER,
             loc := .Return 0 }
  else { s with pTarget := s.pTarget + 1 }

/-- Go on with `f` unless the function has returned. -/
def GBState.andThen (s : GBState) (f : GBState → GBState) : GBState :=
  match s.loc with
  | .Return _ => s
  | _ => f s

/-- The statements `*pTarget = (unsigned char)b; ENSURE_BUFFER_INC`. -/
def GBState.put (s : GBState) (a : GBArgs) (b : Nat) : GBState :=
  ENSURE_BUFFER_INC a (s.store a 0 b)

/-- The statements `ch = *pSrc; pSrc++;`. -/
def GBState.next (s : GBState) (a : GBArgs) : GBState :=
  { s.noteLoad a s.pSrc with ch := a.unit s.pSrc, pSrc := s.pSrc + 1 }

/-- The function `EncoderReplacementFallbackBuffer_InternalInitialize`. -/
def EncoderReplacementFallbackBuffer_InternalInitialize (self : EncoderBuffer)
    (charStart : Option Int) (charEnd : Int) (setEncoder : Bool) : EncoderBuffer :=
  { self with charStart := charStart, charEnd := charEnd, setEncoder := setEncoder,
              bUsedEncoder := false, bFallingBack := false, iRecursionCount := 0 }

/-- The function `EncoderReplacementFallbackBuffer_InternalGetNextChar`: the
unit returned and the state left. -/
def EncoderReplacementFallbackBuffer_InternalGetNextChar (s : GBState) : Nat × GBState :=
  let e := s.encoder
  let e := { e with fallbackCount := wrapInt (e.fallbackCount - 1),
                    fallbackIndex := wrapInt (e.fallbackIndex + 1) }
  if e.fallbackCount < 0 then (0, { s with encoder := e })
  else if e.fallbackCount = INT_MAX then (0, { s with encoder := { e with fallbackCount := -1 } })
  else
    let s := s.assert (decide (e.fallbackIndex < e.strDefaultLength) && decide (e.fallbackIndex ≥ 0))
    let s := if 0 ≤ e.fallbackIndex ∧ e.fallbackIndex < e.strDefault.length then s
             else { s with oob := true }
    let ch := e.strDefault.getD e.fallbackIndex.toNat 0
    let e := { e with bFallingBack := decide (ch ≠ 0) }
    let e := if ch = 0 then { e with iRecursionCount := 0 } else e
    (ch, { s with encoder := e })

/-- The function `EncoderReplacementFallbackBuffer_Fallback`. -/
def EncoderReplacementFallbackBuffer_Fallback (s : GBState) : Bool × GBState :=
  let s := s.assert (decide (s.encoder.fallbackCount < 1))
  let e : EncoderBuffer :=
    { s.encoder with fallbackCount := s.encoder.strDefaultLength / 2, fallbackIndex := -1 }
  (decide (e.fallbackCount ≠ 0), { s with encoder := e })

/-- The function `EncoderReplacementFallbackBuffer_Fallback_Unknown`. -/
def EncoderReplacementFallbackBuffer_Fallback_Unknown (s : GBState) : Bool × GBState :=
  let s := s.assert (decide (s.encoder.fallbackCount < 1))
  let e : EncoderBuffer :=
    { s.encoder with fallbackCount := s.encoder.strDefaultLength, fallbackIndex := -1 }
  (decide (e.fallbackCount ≠ 0), { s with encoder := e })

/-- The statement `assert(!self->bFallingBack || self->iRecursionCount++ <= MAX_RECURSION)`:
the count is compared and incremented only when `bFallingBack` is set. -/
def recursionAssert (s : GBState) : GBState :=
  if s.encoder.bFallingBack then
    let s1 := s.assert (decide (s.encoder.iRecursionCount ≤ MAX_RECURSION))
    { s1 with encoder := { s1.encoder with
        iRecursionCount := wrapInt (s1.encoder.iRecursionCount + 1) } }
  else s

/-- The function `EncoderReplacementFallbackBuffer_InternalFallback`, called
with `&pSrc` as `chars`. -/
def EncoderReplacementFallbackBuffer_InternalFallback (a : GBArgs) (s : GBState) (ch : Nat) :
    Bool × GBState :=
  let s := s.assert (decide (s.encoder.charStart ≠ none))
  let plain (s : GBState) : Bool × GBState :=
    let s := recursionAssert s
    let r := EncoderReplacementFallbackBuffer_Fallback s
    (r.1, { r.2 with encoder := { r.2.encoder with bFallingBack := r.1 } })
  if IsHighSurrogate ch then
    if s.pSrc ≥ s.encoder.charEnd then plain s
    else
      let cNext := a.unit s.pSrc
      let s := s.noteLoad a s.pSrc
      if IsLowSurrogate cNext then
        let s := recursionAssert s
        let s := { s with pSrc := s.pSrc + 1 }
        let r := EncoderReplacementFallbackBuffer_Fallback_Unknown s
        (r.1, { r.2 with encoder := { r.2.encoder with bFallingBack := r.1 } })
      else plain s
  else plain s

/-- The function `EncoderReplacementFallbackBuffer_MovePrevious`. -/
def EncoderReplacementFallbackBuffer_MovePrevious (s : GBState) : Bool × GBState :=
  if s.encoder.fallbackCount ≥ -1 ∧ s.encoder.fallbackIndex ≥ 0 then
    (true, { s with encoder := { s.encoder with
      fallbackIndex := wrapInt (s.encoder.fallbackIndex - 1),
      fallbackCount := wrapInt (s.encoder.fallbackCount + 1) } })
  else (false, s)

/-- The code after the fast loop, reached by `break` or when its condition
fails: `assert(pTarget <= pAllocatedBufferEnd); ch = 0;`, then the outer
loop goes round. -/
def GetBytes.afterFastLoop (a : GBArgs) (s : GBState) : GBState :=
  { s.assert (decide (s.pTarget ≤ a.byteCount)) with ch := 0, loc := .SlowLoop }

/-- The head of the outer loop, down to the label `ProcessChar`. -/
def GetBytes.SlowLoop (a : GBArgs) (s : GBState) : GBState :=
  if s.pSrc ≥ a.pEnd then
    if s.ch = 0 then
      let r := if s.fallbackUsed then EncoderReplacementFallbackBuffer_InternalGetNextChar s
               else (0, s)
      let s : GBState := { r.2 with ch := r.1 }
      if s.ch > 0 then { s with loc := .ProcessChar } else { s with loc := .Done }
    else if s.fallbackUsed && s.encoder.bFallingBack then
      let s := s.assert (decide (s.ch ≥ 0xD800) && decide (s.ch ≤ 0xDBFF))
      let cha := s.ch
      let r := EncoderReplacementFallbackBuffer_InternalGetNextChar s
      let s : GBState := { r.2 with ch := r.1 }
      if InRange s.ch LOW_SURROGATE_START LOW_SURROGATE_END then
        { s with ch := s.ch + cha * 1024 + pairOffset, loc := .EncodeChar }
      else if s.ch > 0 then { s with loc := .ProcessChar }
      else { s with loc := .Done }
    else if s.ch > 0 then { s with loc := .EncodeChar }
    else { s with loc := .Done }
  else if s.ch > 0 then
    let s := s.assert (decide (s.ch ≥ 0xD800) && decide (s.ch ≤ 0xDBFF))
    let cha : Int := a.unit s.pSrc
    let s := s.noteLoad a s.pSrc
    if InRange cha LOW_SURROGATE_START LOW_SURROGATE_END then
      { s with ch := cha + s.ch * 1024 + pairOffset, pSrc := s.pSrc + 1, loc := .EncodeChar }
    else { s with loc := .EncodeChar }
  else if s.fallbackUsed then
    let r := EncoderReplacementFallbackBuffer_InternalGetNextChar s
    let s : GBState := { r.2 with ch := r.1 }
    if s.ch > 0 then { s with loc := .ProcessChar }
    else { s.next a with loc := .ProcessChar }
  else { s.next a with loc := .ProcessChar }

/-- The label `ProcessChar`. -/
def GetBytes.ProcessChar (s : GBState) : GBState :=
  if InRange s.ch HIGH_SURROGATE_START HIGH_SURROGATE_END then { s with loc := .SlowLoop }
  else { s with loc := .EncodeChar }

/-- The end of the slow loop's body, after the bytes of a character have been
stored: more fallback units, or the choice between the short ASCII loop and
the fast loop. -/
def GetBytes.afterEncode (a : GBArgs) (s : GBState) : GBState :=
  let r := if s.fallbackUsed then
      let r := EncoderReplacementFallbackBuffer_InternalGetNextChar s
      (decide (r.1 ≠ 0), { r.2 with ch := r.1 })
    else (false, s)
  let s := r.2
  if r.1 then { s with loc := .ProcessChar }
  else
    let availableChars := sizeT (a.pEnd - s.pSrc)
    let availableBytes := sizeT ((a.byteCount : Int) - s.pTarget)
    if availableChars ≤ 13 then
      if availableBytes < availableChars then { s with ch := 0, loc := .SlowLoop }
      else { s with loc := .AsciiLoop }
    else
      let availableChars := if availableBytes < availableChars then availableBytes
                            else availableChars
      { s with pStop := s.pSrc + availableChars - 5, loc := .FastLoop }

/-- The stores of the slow loop for the character `ch`, up to and including
the last `ENSURE_BUFFER_INC`. -/
def GetBytes.encodeBytes (a : GBArgs) (s : GBState) : GBState :=
  let c := s.ch.toNat
  if s.ch ≤ 0x7F then s.put a c
  else
    let last (s : GBState) (chb : Nat) : GBState :=
      (s.put a chb).andThen fun s => s.put a (0x80 ||| (c &&& 0x3F))
    if s.ch ≤ 0x7FF then last s (0xC0 ||| (c >>> 6))
    else
      let mid (s : GBState) (chb : Nat) : GBState :=
        (s.put a chb).andThen fun s => last s (0x80 ||| ((c >>> 6) &&& 0x3F))
      if s.ch ≤ 0xFFFF then mid s (0xE0 ||| (c >>> 12))
      else (s.put a (0xF0 ||| (c >>> 18))).andThen fun s =>
        mid s (0x80 ||| ((c >>> 12) &&& 0x3F))

/-- The label `EncodeChar`, down to the end of the slow loop's body. -/
def GetBytes.EncodeChar (a : GBArgs) (s : GBState) : GBState :=
  if InRange s.ch HIGH_SURROGATE_START LOW_SURROGATE_END then
    let s := if s.fallbackUsed then s
      else { s with fallbackUsed := true,
                    encoder := EncoderReplacementFallbackBuffer_InternalInitialize s.encoder
                      (some 0) a.pEnd true }
    let s := (EncoderReplacementFallbackBuffer_InternalFallback a s (s.ch % 65536).toNat).2
    { s with ch := 0, loc := .SlowLoop }
  else
    let bytesNeeded : Int :=
      if s.ch > 0x7F then (if s.ch > 0x7FF then (if s.ch > 0xFFFF then 4 else 3) else 2) else 1
    if (s.pTarget : Int) > a.byteCount - bytesNeeded then
      let s := if s.fallbackUsed && s.encoder.bFallingBack then
          let s := (EncoderReplacementFallbackBuffer_MovePrevious s).2
          if s.ch > 0xFFFF then (EncoderReplacementFallbackBuffer_MovePrevious s).2 else s
        else
          let s := { s with pSrc := s.pSrc - 1 }
          if s.ch > 0xFFFF then { s with pSrc := s.pSrc - 1 } else s
      let s := s.assert (decide (s.pSrc ≥ 0) || decide (s.pTarget = 0))
      if s.pTarget = 0 then
        { s with errnoResult := MINIPAL_ERROR_INSUFFICIENT_BUFFER, loc := .Return 0 }
      else { s with ch := 0, loc := .Done }
    else (GetBytes.encodeBytes a s).andThen (GetBytes.afterEncode a)

/-- The short loop `while (pSrc < pLocalEnd)` over trailing ASCII units. -/
def GetBytes.AsciiLoop (a : GBArgs) (s : GBState) : GBState :=
  if s.pSrc < a.pEnd then
    let s := s.next a
    if s.ch > 0x7F then { s with loc := .ProcessChar }
    else (s.put a s.ch.toNat).andThen fun s => { s with loc := .AsciiLoop }
  else { s with ch := 0, loc := .Done }

/-- The head of the fast loop `while (pSrc < pStop)`, down to the loop that
takes four units at a time. -/
def GetBytes.FastLoop (a : GBArgs) (s : GBState) : GBState :=
  if s.pSrc < s.pStop then
    let s := s.next a
    if s.ch > 0x7F then { s with loc := .LongCode }
    else (s.put a s.ch.toNat).andThen fun s =>
      if sizeT (a.addr + 2 * s.pSrc) &&& 0x2 ≠ 0 then
        let s := s.next a
        if s.ch > 0x7F then { s with loc := .LongCode }
        else (s.put a s.ch.toNat).andThen fun s => { s with loc := .FastLoop4 }
      else { s with loc := .FastLoop4 }
  else GetBytes.afterFastLoop a s

/-- The 32-bit load `*(int*)(pSrc + k)`, as a bit pattern: two units, the
first in the low half. -/
def GBArgs.load32 (a : GBArgs) (i : Int) : Nat :=
  a.unit i + 65536 * a.unit (i + 1)

/-- The `int` a 32-bit pattern stands for. -/
def int32 (w : Nat) : Int :=
  if w % 4294967296 < 2147483648 then (w % 4294967296 : Nat)
  else (w % 4294967296 : Nat) - 4294967296

/-- The loop that takes four units at a time, with the label
`LongCodeWithMask`. -/
def GetBytes.FastLoop4 (a : GBArgs) (s : GBState) : GBState :=
  if s.pSrc < s.pStop then
    let w := a.load32 s.pSrc
    let wc := a.load32 (s.pSrc + 2)
    let s := (((s.noteLoad a s.pSrc).noteLoad a (s.pSrc + 1)).noteLoad a (s.pSrc + 2)).noteLoad a
      (s.pSrc + 3)
    let s := { s with ch := int32 w }
    if (w ||| wc) &&& 0xFF80FF80 ≠ 0 then
      -- LongCodeWithMask
      let s := { s with ch := (w % 65536 : Nat), pSrc := s.pSrc + 1 }
      if s.ch > 0x7F then { s with loc := .LongCode }
      else (s.put a s.ch.toNat).andThen fun s => { s with loc := .FastLoop }
    else if s.pTarget + 4 > a.byteCount then
      { s with errnoResult := MINIPAL_ERROR_INSUFFICIENT_BUFFER, loc := .Return 0 }
    else
      let s := s.store a 0 w
      let s := s.store a 1 (w >>> 16)
      let s := { s with pSrc := s.pSrc + 4 }
      let s := s.store a 2 wc
      let s := s.store a 3 (wc >>> 16)
      { s with pTarget := s.pTarget + 4, loc := .FastLoop4 }
  else { s with loc := .FastLoop }

/-- The label `LongCode` of the fast loop. -/
def GetBytes.LongCode (a : GBArgs) (s : GBState) : GBState :=
  let last (s : GBState) (c chd : Nat) : GBState :=
    (ENSURE_BUFFER_INC a { s.store a 0 chd with pStop := s.pStop - 1 }).andThen fun s =>
      (s.put a (0x80 ||| (c &&& 0x3F))).andThen fun s => { s with loc := .FastLoop }
  let mid (s : GBState) (c chd : Nat) : GBState :=
    (ENSURE_BUFFER_INC a { s.store a 0 chd with pStop := s.pStop - 1 }).andThen fun s =>
      last s c (0x80 ||| ((c >>> 6) &&& 0x3F))
  if s.ch ≤ 0x7FF then last s s.ch.toNat (0xC0 ||| (s.ch.toNat >>> 6))
  else if !InRange s.ch HIGH_SURROGATE_START LOW_SURROGATE_END then
    mid s s.ch.toNat (0xE0 ||| (s.ch.toNat >>> 12))
  else if s.ch > HIGH_SURROGATE_END then
    GetBytes.afterFastLoop a { s with pSrc := s.pSrc - 1 }
  else
    let chd : Int := a.unit s.pSrc
    let s := { s.noteLoad a s.pSrc with pSrc := s.pSrc + 1 }
    if !InRange chd LOW_SURROGATE_START LOW_SURROGATE_END then
      GetBytes.afterFastLoop a { s with pSrc := s.pSrc - 2 }
    else
      let s := { s with ch := chd + s.ch * 1024 + pairOffset }
      (s.put a (0xF0 ||| (s.ch.toNat >>> 18))).andThen fun s =>
        mid s s.ch.toNat (0x80 ||| ((s.ch.toNat >>> 12) &&& 0x3F))

/-- The code after the outer loop. -/
def GetBytes.Done (a : GBArgs) (s : GBState) : GBState :=
  if s.pSrc < a.pEnd then
    { s with errnoResult := MINIPAL_ERROR_INSUFFICIENT_BUFFER, loc := .Return 0 }
  else { s with loc := .Return s.pTarget }

/-- One move along the control-flow graph of `GetBytes`. -/
def GetBytes.step (a : GBArgs) (s : GBState) : GBState :=
  match s.loc with
  | .SlowLoop => GetBytes.SlowLoop a s
  | .ProcessChar => GetBytes.ProcessChar s
  | .EncodeChar => GetBytes.EncodeChar a s
  | .AsciiLoop => GetBytes.AsciiLoop a s
  | .FastLoop => GetBytes.FastLoop a s
  | .FastLoop4 => GetBytes.FastLoop4 a s
  | .LongCode => GetBytes.LongCode a s
  | .Done => GetBytes.Done a s
  | .Return _ => s

/-- Run `GetBytes` from `s` until it returns; `none` when the fuel runs out. -/
def GetBytes.run : Nat → GBArgs → GBState → Option GBState
  | 0, _, _ => none
  | fuel + 1, a, s =>
    match s.loc with
    | .Return _ => some s
    | _ => GetBytes.run fuel a (GetBytes.step a s)

/-- The encoder `minipal_convert_utf16_to_utf8` sets up: the replacement
character twice, nothing pending; the other fields are zero-initialised. -/
def initialEncoder : EncoderBuffer :=
  { strDefault := [0xFFFD, 0xFFFD, 0], strDefaultLength := 2, charStart := none, charEnd := 0,
    setEncoder := false, bUsedEncoder := false, bFallingBack := false, iRecursionCount := 0,
    fallbackCount := -1, fallbackIndex := -1 }

/-- The entry of `GetBytes(self, chars, charCount, bytes, byteCount, errnoResult)`:
`pSrc = chars`, `pTarget = bytes`, `ch = 0`, no fallback used yet. -/
def GetBytes.entry (self : EncoderBuffer) (bytes : List Nat) : GBState :=
  { loc := .SlowLoop, bytes := bytes, pSrc := 0, pTarget := 0, pStop := 0, ch := 0,
    fallbackUsed := false, encoder := self, errnoResult := 0, oob := false, asserted := false }

/-- The value a returned `GetBytes` hands back. -/
def GBState.ret (s : GBState) : Nat :=
  match s.loc with
  | .Return r => r
  | _ => 0

/-- The function `minipal_convert_utf16_to_utf8(source, sourceLength,
destination, destinationLength, flags)`, with `sourceLength` the length of
`source`, `destinationLength` the length of `destination` and `addr` the
address `source` points to: the count returned and the destination buffer
left.  `flags` is unused in this build. -/
def minipal_convert_utf16_to_utf8 (fuel : Nat) (addr : Nat) (source : List Nat)
    (destination : List Nat) : Option (Nat × List Nat) :=
  if source.length = 0 then some (0, destination)
  else
    match GetBytes.run fuel { chars := source, byteCount := destination.length, addr := addr }
        (GetBytes.entry initialEncoder destination) with
    | none => none
    | some s => some (if s.errnoResult ≠ 0 then 0 else s.ret, s.bytes)

/-! ### The standard encodings, for the statements -/

/-- The standard UTF-8 encoding of a code point: 1 byte up to U+007F, 2 up to
U+07FF, 3 up to U+FFFF, 4 above. -/
def utf8 (cp : Nat) : List Nat :=
  if cp < 0x80 then [cp]
  else if cp < 0x800 then [0xC0 + cp / 64, 0x80 + cp % 64]
  else if cp < 0x10000 then [0xE0 + cp / 4096, 0x80 + cp / 64 % 64, 0x80 + cp % 64]
  else [0xF0 + cp / 262144, 0x80 + cp / 4096 % 64, 0x80 + cp / 64 % 64, 0x80 + cp % 64]

/-- A high surrogate: `0xD800`..`0xDBFF`. -/
def isHigh (c : Nat) : Bool := decide (0xD800 ≤ c) && decide (c ≤ 0xDBFF)

/-- A low surrogate: `0xDC00`..`0xDFFF`. -/
def isLow (c : Nat) : Bool := decide (0xDC00 ≤ c) && decide (c ≤ 0xDFFF)

/-- The code point of a surrogate pair. -/
def pairCodePoint (hi lo : Nat) : Nat := 0x10000 + (hi - 0xD800) * 1024 + (lo - 0xDC00)

/-- A well-formed UTF-16 sequence: 16-bit units, every high surrogate
immediately followed by a low surrogate, no other surrogate. -/
def wellFormed : List Nat → Bool
  | [] => true
  | [c] => decide (c < 0x10000) && !isHigh c && !isLow c
  | c :: d :: rest =>
    if isHigh c then isLow d && wellFormed rest
    else decide (c < 0x10000) && !isLow c && wellFormed (d :: rest)

/-- The code points of a well-formed UTF-16 sequence. -/
def codePoints : List Nat → List Nat
  | [] => []
  | [c] => [c]
  | c :: d :: rest =>
    if isHigh c then pairCodePoint c d :: codePoints rest
    else c :: codePoints (d :: rest)

/-- The standard UTF-8 encoding of a well-formed UTF-16 sequence. -/
def utf8Of (src : List Nat) : List Nat :=
  (codePoints src).flatMap utf8

/-! ### The conversion of well-formed input: the invariant of the loops -/

/-- The invariant of `GetBytes` on well-formed input when the destination
has room for the whole conversion: the first `i` units have been encoded,
`E` is their encoding and fills the start of the destination, `k` more
units have been read and are pending in `ch`. -/
structure GetBytes.Inv (a : GBArgs) (s : GBState) (i k : Nat) (E : List Nat) : Prop where
  src : s.pSrc = ((i + k : Nat) : Int)
  tgt : s.pTarget = E.length
  out : s.bytes.take E.length = E
  len : s.bytes.length = a.byteCount
  total : utf8Of a.chars = E ++ utf8Of (a.chars.drop i)
  room : (utf8Of a.chars).length ≤ a.byteCount
  wf : wellFormed (a.chars.drop i) = true
  fb : s.fallbackUsed = false
  err : s.errnoResult = 0
  inBounds : s.oob = false
  assertsHold : s.asserted = false

/-- The state `GetBytes` returns in when the whole source has been converted:
the count returned is the length of the encoding, the destination starts
with the encoding, no error is set, no load or store went outside the
buffers and every `assert` held. -/
def GetBytes.Final (a : GBArgs) (s : GBState) : Prop :=
  s.loc = .Return (utf8Of a.chars).length ∧
  s.bytes.take (utf8Of a.chars).length = utf8Of a.chars ∧
  s.bytes.length = a.byteCount ∧ s.errnoResult = 0 ∧ s.oob = false ∧ s.asserted = false

/-- From `s`, `GetBytes` returns, and does so in a `Final` state. -/
def GetBytes.Good (a : GBArgs) (s : GBState) : Prop :=
  ∃ n s', GetBytes.run n a s = some s' ∧ GetBytes.Final a s'

/-- The loop heads at which the invariant is stated with nothing pending. -/
def GetBytes.AtHead (a : GBArgs) (s : GBState) : Prop :=
  (s.loc = .SlowLoop ∧ s.ch = 0) ∨ s.loc = .AsciiLoop ∨
  (s.loc = .FastLoop ∧ s.pStop ≤ a.pEnd - 5) ∨ (s.loc = .FastLoop4 ∧ s.pStop ≤ a.pEnd - 5)

/-- Every loop head with fewer than `m` units left to encode leads to a
`Final` state. -/
def GetBytes.Below (a : GBArgs) (m : Nat) : Prop :=
  ∀ s i E, GetBytes.Inv a s i 0 E → a.chars.length - i < m → GetBytes.AtHead a s →
    GetBytes.Good a s

/-- Following the spec's words, not the code: the source with each unpaired
surrogate unit (a high surrogate not followed by a low surrogate, also at the
end of the input, or a low surrogate not preceded by a high surrogate)
replaced by U+FFFD; surrogate pairs and other units are kept. -/
def replaceUnpaired : List Nat → List Nat
  | [] => []
  | [c] => if isHigh c || isLow c then [0xFFFD] else [c]
  | c :: d :: rest =>
    if isHigh c then
      if isLow d then c :: d :: replaceUnpaired rest else 0xFFFD :: replaceUnpaired (d :: rest)
    else if isLow c then 0xFFFD :: replaceUnpaired (d :: rest)
    else c :: replaceUnpaired (d :: rest)

/-! ## The host allocator (`host.h`)

`RyujitHostAllocator<T>::allocate(n)` is embedded with `sizeof(T)` and the
host function `ryujit_host_alloc` as parameters.  A pointer is a number, 0
is `nullptr`; `size_t` is 64 bits wide.  `ryujit_host_panic` is declared
`[[noreturn]]`: the `return nullptr;` after each call is never reached. -/

/-- The value `std::numeric_limits<std::size_t>::max()`. -/
def SIZE_MAX : Nat := 2 ^ 64 - 1

/-- A call `allocate` makes to the host. -/
inductive HostCall where
  | alloc (size : Nat) : HostCall
  | panic (msg : String) : HostCall
  deriving DecidableEq, Repr

/-- What one call of `allocate` does: the host calls it makes, in order, and
the pointer it returns, `none` when it ends in `ryujit_host_panic`. -/
structure Allocation where
  calls : List HostCall
  ret : Option Nat
  deriving DecidableEq, Repr

/-- The method `RyujitHostAllocator<T>::allocate(n)`. -/
def RyujitHostAllocator.allocate (sizeofT : Nat) (ryujit_host_alloc : Nat → Nat) (n : Nat) :
    Allocation :=
  if n > SIZE_MAX / sizeofT then
    { calls := [.panic "attempted to allocate an invalid amount of bytes"], ret := none }
  else
    let size := (n * sizeofT) % 2 ^ 64
    let ptr := ryujit_host_alloc size
    if ptr ≠ 0 then { calls := [.alloc size], ret := some ptr }
    else { calls := [.alloc size, .panic "failed to allocate host memory"], ret := none }

/-! ## The length of a UTF-16 string (`u16.cpp`)

The string is the list of the 16-bit units from `inputStr` to the end of
the object it points into; a read past that end is undefined behaviour. -/

/-- What `u16_strlen` ends in. -/
inductive Strlen where
  | returned (len : Nat) : Strlen
  | outOfBounds : Strlen
  deriving DecidableEq, Repr

/-- The loop `while (*str++) { len++; }` followed by `return len;`, with `str`
an index into the buffer and `len` a `size_t`. -/
def u16_strlen.loop : Nat → List Nat → Nat → Nat → Option Strlen
  | 0, _, _, _ => none
  | fuel + 1, buf, str, len =>
    match buf[str]? with
    | none => some .outOfBounds
    | some u =>
      if u ≠ 0 then u16_strlen.loop fuel buf (str + 1) ((len + 1) % 2 ^ 64)
      else some (.returned len)

/-- The function `u16_strlen(inputStr)`; `none` when the fuel runs out. -/
def u16_strlen (fuel : Nat) (inputStr : List Nat) : Option Strlen :=
  u16_strlen.loop fuel inputStr 0 0

/-! ### Every run of `GetBytes`: the bounds of its loads and stores -/

/-- The state of `GetBytes` after `n` moves along its control-flow graph; a
state that has returned stays as it is. -/
def GetBytes.after : Nat → GBArgs → GBState → GBState
  | 0, _, s => s
  | n + 1, a, s => GetBytes.after n a (GetBytes.step a s)

/-- The arguments as the C types bound them: the source units are 16-bit,
the two lengths are `size_t` values. -/
def GBArgs.Valid (a : GBArgs) : Prop :=
  (∀ u ∈ a.chars, u < 65536) ∧ a.chars.length < 2 ^ 64 ∧ a.byteCount < 2 ^ 64

/-- What stays true of the encoder while `GetBytes` runs: the replacement
string is the one `minipal_convert_utf16_to_utf8` set up, `fallbackCount` is
an `int`, and once the fallback is in use `charEnd` is `pEnd`. -/
def GetBytes.EncOk (a : GBArgs) (s : GBState) : Prop :=
  s.encoder.strDefault = [0xFFFD, 0xFFFD, 0] ∧ s.encoder.strDefaultLength = 2 ∧
    -2147483648 ≤ s.encoder.fallbackCount ∧
    (s.fallbackUsed = true → s.encoder.charEnd = a.pEnd)

/-- The part of the invariant `Safe` that depends on where `GetBytes` is.
The replacement buffer is either freshly filled (`fallbackCount = 1`), at its
one replacement unit (`fallbackCount = 0`, the unit is in `ch`) or used up
(`fallbackCount < 0`).  In the fast loop the room left in the destination
covers the units up to `pStop` and five bytes more. -/
def GetBytes.SafeAt (a : GBArgs) (s : GBState) : Prop :=
  match s.loc with
  | .SlowLoop =>
    GetBytes.EncOk a s ∧ 0 ≤ s.pSrc ∧ s.pSrc ≤ a.pEnd ∧ s.pTarget ≤ a.byteCount ∧
      ((s.ch = 0 ∧ s.fallbackUsed = true ∧ s.encoder.fallbackCount = 1 ∧
          s.encoder.fallbackIndex = -1) ∨
        (s.encoder.fallbackCount < 0 ∧ (s.ch = 0 ∨ (0xD800 ≤ s.ch ∧ s.ch ≤ 0xDBFF))))
  | .ProcessChar =>
    GetBytes.EncOk a s ∧ 0 ≤ s.pSrc ∧ s.pSrc ≤ a.pEnd ∧ s.pTarget ≤ a.byteCount ∧
      ((s.ch = 0xFFFD ∧ s.fallbackUsed = true ∧ s.encoder.fallbackCount = 0 ∧
          s.encoder.fallbackIndex = 0) ∨
        (s.encoder.fallbackCount < 0 ∧ 0 ≤ s.ch ∧ s.ch < 0x10000))
  | .EncodeChar =>
    GetBytes.EncOk a s ∧ 0 ≤ s.pSrc ∧ s.pSrc ≤ a.pEnd ∧ s.pTarget ≤ a.byteCount ∧
      ((s.ch = 0xFFFD ∧ s.fallbackUsed = true ∧ s.encoder.fallbackCount = 0 ∧
          s.encoder.fallbackIndex = 0) ∨
        (s.encoder.fallbackCount < 0 ∧ 0 ≤ s.ch ∧ s.ch < 0x110000 ∧
          (0xD800 ≤ s.ch → s.ch ≤ 0xDBFF → s.pSrc < a.pEnd →
            ¬ (0xDC00 ≤ a.unit s.pSrc ∧ a.unit s.pSrc ≤ 0xDFFF))))
  | .AsciiLoop =>
    GetBytes.EncOk a s ∧ 0 ≤ s.pSrc ∧ s.pSrc ≤ a.pEnd ∧ s.encoder.fallbackCount < 0 ∧
      a.pEnd - s.pSrc ≤ (a.byteCount : Int) - s.pTarget
  | .FastLoop =>
    GetBytes.EncOk a s ∧ 0 ≤ s.pSrc ∧ s.pSrc ≤ a.pEnd ∧ s.pTarget ≤ a.byteCount ∧
      s.encoder.fallbackCount < 0 ∧
      s.pStop ≤ a.pEnd - 5 ∧ s.pStop - s.pSrc + 5 ≤ (a.byteCount : Int) - s.pTarget
  | .FastLoop4 =>
    GetBytes.EncOk a s ∧ 0 ≤ s.pSrc ∧ s.pSrc ≤ a.pEnd ∧ s.pTarget ≤ a.byteCount ∧
      s.encoder.fallbackCount < 0 ∧
      s.pStop ≤ a.pEnd - 5 ∧ s.pStop - s.pSrc + 5 ≤ (a.byteCount : Int) - s.pTarget
  | .LongCode =>
    GetBytes.EncOk a s ∧ 1 ≤ s.pSrc ∧ s.pSrc ≤ s.pStop + 1 ∧ s.encoder.fallbackCount < 0 ∧
      s.pStop ≤ a.pEnd - 5 ∧ s.pStop - s.pSrc + 6 ≤ (a.byteCount : Int) - s.pTarget
  | .Done => s.pTarget ≤ a.byteCount
  | .Return r => r ≤ a.byteCount

/-- The invariant of every run of `GetBytes`: no load or store so far went
outside the source, the destination or the replacement string, the
destination has its length, and `SafeAt` holds. -/
structure GetBytes.Safe (a : GBArgs) (s : GBState) : Prop where
  len : s.bytes.length = a.byteCount
  inBounds : s.oob = false
  at_loc : GetBytes.SafeAt a s

/-- A bound on the number of moves `GetBytes` still makes: the units left in
the source count twelve each, a unit pending in `ch` counts as left, and the
rest orders the jump targets between two loads. -/
def GetBytes.measure (a : GBArgs) (s : GBState) : Nat :=
  match s.loc with
  | .Return _ => 0
  | .Done => 1
  | .EncodeChar =>
    if s.encoder.fallbackCount < 0 then 12 * ((a.pEnd - s.pSrc).toNat + 1) + 2
    else 12 * (a.pEnd - s.pSrc).toNat + 9
  | .SlowLoop =>
    if s.encoder.fallbackCount < 0 then
      (if s.ch = 0 then 12 * (a.pEnd - s.pSrc).toNat + 5
       else 12 * ((a.pEnd - s.pSrc).toNat + 1) + 3)
    else 12 * (a.pEnd - s.pSrc).toNat + 11
  | .ProcessChar =>
    if s.encoder.fallbackCount < 0 then 12 * ((a.pEnd - s.pSrc).toNat + 1) + 4
    else 12 * (a.pEnd - s.pSrc).toNat + 10
  | .AsciiLoop => 12 * (a.pEnd - s.pSrc).toNat + 5
  | .LongCode => 12 * ((a.pEnd - s.pSrc).toNat + 1) + 6
  | .FastLoop => 12 * (a.pEnd - s.pSrc).toNat + 7
  | .FastLoop4 => 12 * (a.pEnd - s.pSrc).toNat + 8

/-- One move keeps the invariant and lowers the measure. -/
def GetBytes.Progress (a : GBArgs) (s s' : GBState) : Prop :=
  GetBytes.Safe a s' ∧ GetBytes.measure a s' < GetBytes.measure a s

/-- The encoder `e'` has the replacement string and the end pointer of `e`. -/
def EncoderBuffer.Keeps (e e' : EncoderBuffer) : Prop :=
  e'.strDefault = e.strDefault ∧ e'.strDefaultLength = e.strDefaultLength ∧ e'.charEnd = e.charEnd

/-- The state `s'` has the variables of `s`; the encoder and the ghost flag
for asserts may differ. -/
def GBState.SameVars (s s' : GBState) : Prop :=
  s'.loc = s.loc ∧ s'.bytes = s.bytes ∧ s'.pSrc = s.pSrc ∧ s'.pTarget = s.pTarget ∧
    s'.pStop = s.pStop ∧ s'.ch = s.ch ∧ s'.fallbackUsed = s.fallbackUsed ∧ s'.oob = s.oob

/-! ### A source of lone low surrogates, for the recursion count -/

/-- The arguments of `GetBytes` for a source of `n` units `0xDC00`, each a
lone low surrogate, and a destination of `3 * n` bytes. -/
def loneArgs (n addr : Nat) : GBArgs :=
  { chars := List.replicate n 0xDC00, byteCount := 3 * n, addr := addr }

/-- The encoder once `GetBytes` has fallen back in a source of `n` units: set
up by `InternalInitialize`, `bFallingBack` set, with the given counters. -/
def fallenBack (n : Nat) (count index recursion : Int) : EncoderBuffer :=
  { strDefault := [0xFFFD, 0xFFFD, 0], strDefaultLength := 2, charStart := some 0, charEnd := n,
    setEncoder := true, bUsedEncoder := false, bFallingBack := true,
    iRecursionCount := recursion, fallbackCount := count, fallbackIndex := index }

/-- A state of `GetBytes` after its first fallback, before any error and any
access out of bounds. -/
def loneState (loc : Loc) (bytes : List Nat) (pSrc : Int) (pTarget : Nat) (pStop ch : Int)
    (encoder : EncoderBuffer) (asserted : Bool) : GBState :=
  { loc := loc, bytes := bytes, pSrc := pSrc, pTarget := pTarget, pStop := pStop, ch := ch,
    fallbackUsed := true, encoder := encoder, errnoResult := 0, oob := false,
    asserted := asserted }

/-! ### The values `SETJMP` returns in `try_catch` -/

/-- An outcome that, if it is a jump, carries the value 1. -/
def Outcome.carriesOne : Outcome → Prop
  | .jumped _ val _ => val = 1
  | _ => True

/-- Every jump that leaves one of the six functions at fuel `n` carries the
value 1: the only `LONGJMP` of the engine is `LONGJMP(*buf, 1)`. -/
def JumpsCarryOne (n : Nat) : Prop :=
  (∀ env c s o, run n env c s = some o → o.carriesOne) ∧
  (∀ env b f s o, try_finally n env b f s = some o → o.carriesOne) ∧
  (∀ env cap b h s o, try_catch n env cap b h s = some o → o.carriesOne) ∧
  (∀ env r j cap b h s o, try_catch_after n env r j cap b h s = some o → o.carriesOne) ∧
  (∀ env v s o, exc_throw n env v s = some o → o.carriesOne) ∧
  (∀ env s o, exc_throw_loop n env s = some o → o.carriesOne)

/-- The values `SETJMP(jump)` returns inside `try_catch`: 0 when it returns
directly, and on a resumed return the value carried by a jump that some run
of the client code and the engine ends in (the body of `try_catch` is entered
again with exactly that value). -/
def SetjmpReturns (env : Env) (r : Int) : Prop :=
  r = 0 ∨ ∃ fuel code s b s', run fuel env code s = some (.jumped b r s')

/-- The function `try_catch(capture, block, handler)` called with a pointer to
the function `block`: `block c` is what that function does when it is called
with the argument `c`.  The body's call `block(capture)` is the code
`block capture`; the rest of the body is `try_catch` above. -/
def try_catch_fn (fuel : Nat) (env : Env) (capture : Nat) (block : Nat → Code) (handler : Nat)
    (s : Tls) : Option Outcome :=
  try_catch fuel env capture (block capture) handler s

/-! ## Fuel: more fuel never changes a result -/

theorem fuelStep (n : Nat) : FuelStep n := by
  induction n with
  | zero =>
    refine ⟨?_, ?_, ?_, ?_, ?_, ?_⟩ <;> intros <;> simp_all [run, try_finally, try_catch,
      try_catch_after, exc_throw, exc_throw_loop]
  | succ n ih =>
    obtain ⟨hrun, hfin, hcatch, hafter, hthrow, hloop⟩ := ih
    refine ⟨?_, ?_, ?_, ?_, ?_, ?_⟩
    · intro env c s o h
      cases c with
      | skip => simpa [run] using h
      | emit t => simpa [run] using h
      | seq a b =>
        rw [run] at h ⊢
        cases ha : run n env a s with
        | none => simp [ha] at h
        | some oa =>
          rw [hrun _ _ _ _ ha]
          rw [ha] at h
          cases oa <;> simp_all
      | tryFinally b f => rw [run] at h ⊢; exact hfin _ _ _ _ _ h
      | tryFinallyEmpty b => rw [run] at h ⊢; exact hfin _ _ _ _ _ h
      | tryCatch cap b hd => rw [run] at h ⊢; exact hcatch _ _ _ _ _ _ h
      | throw v => rw [run] at h ⊢; exact hthrow _ _ _ _ h
    · intro env b f s o h
      rw [try_finally] at h ⊢
      cases hb : run n env b ((s.push_back (.Finally f)).log .callBlock) with
      | none => simp [hb] at h
      | some ob =>
        rw [hrun _ _ _ _ hb]
        rw [hb] at h
        exact h
    · intro env cap b hd s o h
      rw [try_catch] at h ⊢
      exact hafter _ _ _ _ _ _ _ _ h
    · intro env r j cap b hd s o h
      rw [try_catch_after] at h ⊢
      by_cases hr : r > 0
      · simp only [hr, if_true] at h ⊢
        cases hf : s.exc_catch_handler with
        | none => simpa [hf] using h
        | some f =>
          simp only [hf] at h ⊢
          cases hb : run n env (env f s.exc_val s.exc_catch_captures)
              (s.log (.callHandler f s.exc_val s.exc_catch_captures)) with
          | none => simp [hb] at h
          | some ob =>
            rw [hrun _ _ _ _ hb]
            rw [hb] at h
            cases ob with
            | jumped b1 v1 s1 =>
              simp only at h ⊢
              by_cases hbj : b1 = j
              · simp only [hbj, if_true] at h ⊢
                exact hafter _ _ _ _ _ _ _ _ h
              · simpa [hbj] using h
            | normal s1 => exact h
            | panicked m s1 => exact h
            | undefined s1 => exact h
      · simp only [hr, if_false] at h ⊢
        cases hb : run n env b
            ((s.push_back (.Catch { buf := j, body := hd, captures := cap })).log .callBlock) with
        | none => simp [hb] at h
        | some ob =>
          rw [hrun _ _ _ _ hb]
          rw [hb] at h
          cases ob with
          | jumped b1 v1 s1 =>
            simp only at h ⊢
            by_cases hbj : b1 = j
            · simp only [hbj, if_true] at h ⊢
              exact hafter _ _ _ _ _ _ _ _ h
            · simpa [hbj] using h
          | normal s1 => exact h
          | panicked m s1 => exact h
          | undefined s1 => exact h
    · intro env v s o h
      rw [exc_throw] at h ⊢
      exact hloop _ _ _ h
    · intro env s o h
      rw [exc_throw_loop] at h ⊢
      cases hl : s.exc_stack.getLast? with
      | none => simpa [hl] using h
      | some r =>
        simp only [hl] at h ⊢
        cases r with
        | Catch c => exact h
        | Finally f =>
          cases f with
          | none => exact h
          | some fin =>
            simp only at h ⊢
            cases hb : run n env fin (s.pop_back.log (.callFinally fin)) with
            | none => simp [hb] at h
            | some ob =>
              rw [hrun _ _ _ _ hb]
              rw [hb] at h
              cases ob with
              | normal s1 => exact hloop _ _ _ h
              | jumped b1 v1 s1 => exact h
              | panicked m s1 => exact h
              | undefined s1 => exact h

theorem run_mono {env : Env} {c : Code} {s : Tls} {o : Outcome} {n m : Nat} (hnm : n ≤ m)
    (h : run n env c s = some o) : run m env c s = some o := by
  induction hnm with
  | refl => exact h
  | step _ ih => exact (fuelStep _).1 _ _ _ _ ih

theorem try_finally_mono {env : Env} {b : Code} {f : Option Code} {s : Tls} {o : Outcome}
    {n m : Nat} (hnm : n ≤ m) (h : try_finally n env b f s = some o) :
    try_finally m env b f s = some o := by
  induction hnm with
  | refl => exact h
  | step _ ih => exact (fuelStep _).2.1 _ _ _ _ _ ih

theorem try_catch_mono {env : Env} {cap : Nat} {b : Code} {hd : Nat} {s : Tls} {o : Outcome}
    {n m : Nat} (hnm : n ≤ m) (h : try_catch n env cap b hd s = some o) :
    try_catch m env cap b hd s = some o := by
  induction hnm with
  | refl => exact h
  | step _ ih => exact (fuelStep _).2.2.1 _ _ _ _ _ _ ih

theorem try_catch_after_mono {env : Env} {r : Int} {j cap : Nat} {b : Code} {hd : Nat}
    {s : Tls} {o : Outcome} {n m : Nat} (hnm : n ≤ m)
    (h : try_catch_after n env r j cap b hd s = some o) :
    try_catch_after m env r j cap b hd s = some o := by
  induction hnm with
  | refl => exact h
  | step _ ih => exact (fuelStep _).2.2.2.1 _ _ _ _ _ _ _ _ ih

theorem exc_throw_mono {env : Env} {v : Int} {s : Tls} {o : Outcome} {n m : Nat} (hnm : n ≤ m)
    (h : exc_throw n env v s = some o) : exc_throw m env v s = some o := by
  induction hnm with
  | refl => exact h
  | step _ ih => exact (fuelStep _).2.2.2.2.1 _ _ _ _ ih

theorem exc_throw_loop_mono {env : Env} {s : Tls} {o : Outcome} {n m : Nat} (hnm : n ≤ m)
    (h : exc_throw_loop n env s = some o) : exc_throw_loop m env s = some o := by
  induction hnm with
  | refl => exact h
  | step _ ih => exact (fuelStep _).2.2.2.2.2 _ _ _ ih

/-! ## The trace only grows -/

theorem prefix_log (s : Tls) (e : Event) {t : List Event} (h : (s.log e).trace <+: t) :
    s.trace <+: t :=
  (List.prefix_append s.trace [e]).trans h

theorem traceGrows (n : Nat) : TraceGrows n := by
  induction n with
  | zero =>
    refine ⟨?_, ?_, ?_, ?_, ?_, ?_⟩ <;> intros <;> simp_all [run, try_finally, try_catch,
      try_catch_after, exc_throw, exc_throw_loop]
  | succ n ih =>
    obtain ⟨hrun, hfin, hcatch, hafter, hthrow, hloop⟩ := ih
    refine ⟨?_, ?_, ?_, ?_, ?_, ?_⟩
    · intro env c s o h
      cases c with
      | skip =>
        simp only [run, Option.some.injEq] at h
        subst h; exact List.prefix_refl _
      | emit t =>
        simp only [run, Option.some.injEq] at h
        subst h; exact List.prefix_append _ _
      | seq a b =>
        rw [run] at h
        cases ha : run n env a s with
        | none => simp [ha] at h
        | some oa =>
          have h1 := hrun _ _ _ _ ha
          rw [ha] at h
          cases oa with
          | normal s1 => exact h1.trans (hrun _ _ _ _ h)
          | jumped b1 v1 s1 => simp only [Option.some.injEq] at h; subst h; exact h1
          | panicked m s1 => simp only [Option.some.injEq] at h; subst h; exact h1
          | undefined s1 => simp only [Option.some.injEq] at h; subst h; exact h1
      | tryFinally b f => rw [run] at h; exact hfin _ _ _ _ _ h
      | tryFinallyEmpty b => rw [run] at h; exact hfin _ _ _ _ _ h
      | tryCatch cap b hd => rw [run] at h; exact hcatch _ _ _ _ _ _ h
      | throw v => rw [run] at h; exact hthrow _ _ _ _ h
    · intro env b f s o h
      rw [try_finally] at h
      cases hb : run n env b ((s.push_back (.Finally f)).log .callBlock) with
      | none => simp [hb] at h
      | some ob =>
        have h0 := hrun _ _ _ _ hb
        have h1 : s.trace <+: ob.tls.trace := (List.prefix_append s.trace [_]).trans h0
        rw [hb] at h
        cases ob with
        | normal s1 =>
          simp only at h
          split at h <;> (simp only [Option.some.injEq] at h; subst h; exact h1)
        | jumped b1 v1 s1 => simp only [Option.some.injEq] at h; subst h; exact h1
        | panicked m s1 => simp only [Option.some.injEq] at h; subst h; exact h1
        | undefined s1 => simp only [Option.some.injEq] at h; subst h; exact h1
    · intro env cap b hd s o h
      rw [try_catch] at h
      have h2 := hafter _ _ _ _ _ _ _ _ h
      exact h2
    · intro env r j cap b hd s o h
      rw [try_catch_after] at h
      by_cases hr : r > 0
      · simp only [hr, if_true] at h
        cases hf : s.exc_catch_handler with
        | none =>
          simp only [hf, Option.some.injEq] at h
          subst h; exact List.prefix_refl _
        | some f =>
          simp only [hf] at h
          cases hb : run n env (env f s.exc_val s.exc_catch_captures)
              (s.log (.callHandler f s.exc_val s.exc_catch_captures)) with
          | none => simp [hb] at h
          | some ob =>
            have h0 := hrun _ _ _ _ hb
            have h1 : s.trace <+: ob.tls.trace := (List.prefix_append s.trace [_]).trans h0
            rw [hb] at h
            cases ob with
            | jumped b1 v1 s1 =>
              simp only at h
              by_cases hbj : b1 = j
              · simp only [hbj, if_true] at h
                exact h1.trans (hafter _ _ _ _ _ _ _ _ h)
              · simp only [hbj, if_false, Option.some.injEq] at h
                subst h; exact h1
            | normal s1 => simp only [Option.some.injEq] at h; subst h; exact h1
            | panicked m s1 => simp only [Option.some.injEq] at h; subst h; exact h1
            | undefined s1 => simp only [Option.some.injEq] at h; subst h; exact h1
      · simp only [hr, if_false] at h
        cases hb : run n env b
            ((s.push_back (.Catch { buf := j, body := hd, captures := cap })).log .callBlock) with
        | none => simp [hb] at h
        | some ob =>
          have h0 := hrun _ _ _ _ hb
          have h1 : s.trace <+: ob.tls.trace := (List.prefix_append s.trace [_]).trans h0
          rw [hb] at h
          cases ob with
          | jumped b1 v1 s1 =>
            simp only at h
            by_cases hbj : b1 = j
            · simp only [hbj, if_true] at h
              exact h1.trans (hafter _ _ _ _ _ _ _ _ h)
            · simp only [hbj, if_false, Option.some.injEq] at h
              subst h; exact h1
          | normal s1 =>
            simp only at h
            split at h <;> (simp only [Option.some.injEq] at h; subst h; exact h1)
          | panicked m s1 => simp only [Option.some.injEq] at h; subst h; exact h1
          | undefined s1 => simp only [Option.some.injEq] at h; subst h; exact h1
    · intro env v s o h
      rw [exc_throw] at h
      have h2 := hloop _ _ _ h
      exact h2
    · intro env s o h
      rw [exc_throw_loop] at h
      cases hl : s.exc_stack.getLast? with
      | none =>
        simp only [hl, Option.some.injEq] at h
        subst h; exact List.prefix_append _ _
      | some r =>
        simp only [hl] at h
        cases r with
        | Catch c =>
          simp only [Option.some.injEq] at h
          subst h; exact List.prefix_append _ _
        | Finally f =>
          cases f with
          | none =>
            simp only [Option.some.injEq] at h
            subst h; exact List.prefix_append _ _
          | some fin =>
            simp only at h
            cases hb : run n env fin (s.pop_back.log (.callFinally fin)) with
            | none => simp [hb] at h
            | some ob =>
              have h0 := hrun _ _ _ _ hb
              have h1 : s.trace <+: ob.tls.trace := (List.prefix_append s.trace [_]).trans h0
              rw [hb] at h
              cases ob with
              | normal s1 => exact h1.trans (hloop _ _ _ h)
              | jumped b1 v1 s1 => simp only [Option.some.injEq] at h; subst h; exact h1
              | panicked m s1 => simp only [Option.some.injEq] at h; subst h; exact h1
              | undefined s1 => simp only [Option.some.injEq] at h; subst h; exact h1

/-! ## Plain code -/

theorem run_plain (env : Env) (c : Code) (hc : c.plain = true) (s : Tls) :
    run c.cost env c s = some (.normal { s with trace := s.trace ++ c.events }) := by
  induction c generalizing s with
  | skip => simp [Code.cost, Code.events, run]
  | emit t => simp [Code.cost, Code.events, run, Tls.log]
  | seq a b iha ihb =>
    simp only [Code.plain, Bool.and_eq_true] at hc
    have ha := run_mono (Nat.le_add_right a.cost b.cost) (iha hc.1 s)
    have hb := run_mono (Nat.le_add_left b.cost a.cost) (ihb hc.2 { s with trace := s.trace ++ a.events })
    simp only [Code.cost, Code.events, run, ha, hb, List.append_assoc]
  | tryFinally b f => simp [Code.plain] at hc
  | tryFinallyEmpty b => simp [Code.plain] at hc
  | tryCatch cap b h => simp [Code.plain] at hc
  | throw v => simp [Code.plain] at hc

theorem returns_of_plain (env : Env) (I : Tls → Prop) (hI : Insensitive I) (c : Code)
    (hc : c.plain = true) : Returns env I c c.events := by
  intro s hs
  exact ⟨c.cost, _, run_plain env c hc s, rfl, rfl, hI s s.exc_stack _ hs⟩

/-! ## One iteration of the unwinding loop -/

theorem eq_nil_or_snoc {α : Type} (l : List α) : l = [] ∨ ∃ B r, l = B ++ [r] := by
  rcases List.eq_nil_or_concat l with h | ⟨B, r, h⟩
  · exact Or.inl h
  · exact Or.inr ⟨B, r, by simpa using h⟩

theorem getLast?_snoc {α : Type} (l : List α) (a : α) : (l ++ [a]).getLast? = some a := by
  simp [List.getLast?_eq_getLast]

theorem exc_throw_loop_empty (env : Env) (n : Nat) (s : Tls) (hstk : s.exc_stack = []) :
    exc_throw_loop (n + 1) env s = some (ryujit_host_panic "unhandled exception" s) := by
  rw [exc_throw_loop, hstk]; rfl

theorem exc_throw_loop_catch (env : Env) (n : Nat) (s : Tls) (B : List exc_handler_t)
    (k : exc_catch_handler_t) (hstk : s.exc_stack = B ++ [.Catch k]) :
    exc_throw_loop (n + 1) env s = some (.jumped k.buf 1
      ({ s.pop_back with exc_catch_handler := some k.body,
                         exc_catch_captures := k.captures }.log (.longjmp k.buf 1))) := by
  rw [exc_throw_loop, hstk, getLast?_snoc]

theorem exc_throw_loop_unbound (env : Env) (n : Nat) (s : Tls) (B : List exc_handler_t)
    (hstk : s.exc_stack = B ++ [.Finally none]) :
    exc_throw_loop (n + 1) env s =
      some (ryujit_host_panic "'finally' block handler became empty" s.pop_back) := by
  rw [exc_throw_loop, hstk, getLast?_snoc]

theorem exc_throw_loop_bound (env : Env) (n : Nat) (s : Tls) (B : List exc_handler_t)
    (c : Code) (hstk : s.exc_stack = B ++ [.Finally (some c)]) :
    exc_throw_loop (n + 1) env s =
      match run n env c (s.pop_back.log (.callFinally c)) with
      | some (.normal s2) => exc_throw_loop n env s2
      | o => o := by
  rw [exc_throw_loop, hstk, getLast?_snoc]

/-! ## Unwinding through bound cleanups -/

theorem finallyRecords_cons (c : Code) (cs : List Code) :
    finallyRecords (c :: cs) = finallyRecords cs ++ [.Finally (some c)] := by
  simp [finallyRecords]

/-- Unwinding through the cleanups `cs` on top of the stack `B` reduces the
loop to the loop on `B`: whatever the loop does from the context reached
after the cleanups, it does from the starting context. -/
theorem unwind_cleanups (env : Env) (I : Tls → Prop) (hI : Insensitive I)
    (cs : List (Code × List Event)) (hcs : ∀ p ∈ cs, Returns env I p.1 p.2)
    (B : List exc_handler_t) (s : Tls) (hs : I s)
    (hstk : s.exc_stack = B ++ finallyRecords (cs.map Prod.fst)) :
    ∃ fuel s2, s2.exc_stack = B ∧ s2.trace = s.trace ++ unwindTrace cs ∧ I s2 ∧
      ∀ m o, exc_throw_loop m env s2 = some o → exc_throw_loop (m + fuel) env s = some o := by
  induction cs generalizing s with
  | nil =>
    refine ⟨0, s, ?_, ?_, hs, fun m o h => h⟩
    · simpa [finallyRecords] using hstk
    · simp [unwindTrace]
  | cons p rest ih =>
    obtain ⟨c, t⟩ := p
    have hstk' : s.exc_stack = (B ++ finallyRecords (rest.map Prod.fst)) ++ [.Finally (some c)] := by
      rw [hstk, List.map_cons, finallyRecords_cons, List.append_assoc]
    have hc : Returns env I c t := hcs (c, t) (List.mem_cons_self _ _)
    have hs0 : I (s.pop_back.log (.callFinally c)) := hI s _ _ hs
    obtain ⟨f1, s1, hrun1, hstk1, htr1, hs1⟩ := hc _ hs0
    have hstk1' : s1.exc_stack = B ++ finallyRecords (rest.map Prod.fst) := by
      rw [hstk1]; simp [Tls.pop_back, Tls.log, hstk']
    obtain ⟨f2, s2, hstk2, htr2, hs2, hloop⟩ :=
      ih (fun q hq => hcs q (List.mem_cons_of_mem _ hq)) s1 hs1 hstk1'
    refine ⟨f2 + f1 + 1, s2, hstk2, ?_, hs2, ?_⟩
    · rw [htr2, htr1]; simp [Tls.pop_back, Tls.log, unwindTrace]
    · intro m o h
      have h2 := exc_throw_loop_mono (Nat.le_add_right (m + f2) f1) (hloop m o h)
      have h1 : run (m + f2 + f1) env c (s.pop_back.log (.callFinally c)) = some (.normal s1) :=
        run_mono (Nat.le_add_left f1 (m + f2)) hrun1
      have : m + (f2 + f1 + 1) = (m + f2 + f1) + 1 := by omega
      rw [this, exc_throw_loop_bound env _ s _ c hstk', h1]
      exact h2

/-- The unwinder reaching a catch record on top of `B`, after the cleanups
`cs` above it. -/
theorem unwind_to_catch (env : Env) (I : Tls → Prop) (hI : Insensitive I)
    (cs : List (Code × List Event)) (hcs : ∀ p ∈ cs, Returns env I p.1 p.2)
    (B : List exc_handler_t) (k : exc_catch_handler_t) (s : Tls) (hs : I s)
    (hstk : s.exc_stack = B ++ [.Catch k] ++ finallyRecords (cs.map Prod.fst)) :
    ∃ fuel s2, s2.exc_stack = B ++ [.Catch k] ∧ s2.trace = s.trace ++ unwindTrace cs ∧ I s2 ∧
      ∀ m, fuel ≤ m → exc_throw_loop m env s = some (.jumped k.buf 1
        ({ s2.pop_back with exc_catch_handler := some k.body,
                            exc_catch_captures := k.captures }.log (.longjmp k.buf 1))) := by
  obtain ⟨f, s2, hstk2, htr2, hs2, hloop⟩ := unwind_cleanups env I hI cs hcs _ s hs hstk
  refine ⟨1 + f, s2, hstk2, htr2, hs2, fun m hm => ?_⟩
  exact exc_throw_loop_mono hm (hloop 1 _ (exc_throw_loop_catch env 0 s2 B k hstk2))

/-- On a resumed return of `SETJMP` the first thing `try_catch` does is call
the handler stored in the context, with the stored fault value and
captured argument. -/
theorem resumed_calls_handler (env : Env) (m : Nat) (r : Int) (hr : r > 0) (j cap : Nat)
    (b : Code) (h : Nat) (s : Tls) (f : Nat) (hf : s.exc_catch_handler = some f) (o : Outcome)
    (ho : try_catch_after m env r j cap b h s = some o) :
    s.trace ++ [.callHandler f s.exc_val s.exc_catch_captures] <+: o.tls.trace := by
  cases m with
  | zero => simp [try_catch_after] at ho
  | succ n =>
    rw [try_catch_after] at ho
    simp only [hr, if_true, hf] at ho
    cases hb : run n env (env f s.exc_val s.exc_catch_captures)
        (s.log (.callHandler f s.exc_val s.exc_catch_captures)) with
    | none => simp [hb] at ho
    | some ob =>
      have h1 : s.trace ++ [.callHandler f s.exc_val s.exc_catch_captures] <+: ob.tls.trace :=
        (traceGrows n).1 _ _ _ _ hb
      rw [hb] at ho
      cases ob with
      | jumped b1 v1 s1 =>
        simp only at ho
        by_cases hbj : b1 = j
        · simp only [hbj, if_true] at ho
          exact h1.trans ((traceGrows n).2.2.2.1 _ _ _ _ _ _ _ _ ho)
        · simp only [hbj, if_false, Option.some.injEq] at ho
          subst ho; exact h1
      | normal s1 => simp only [Option.some.injEq] at ho; subst ho; exact h1
      | panicked msg s1 => simp only [Option.some.injEq] at ho; subst ho; exact h1
      | undefined s1 => simp only [Option.some.injEq] at ho; subst ho; exact h1

/-! ## Nested regions -/

/-- A fault, a panic or undefined behaviour inside nested `try_finally`
regions leaves through all of them: none of their pops is reached. -/
theorem nest_propagates (env : Env) (cs : List Code) (body : Code) (s : Tls) (n : Nat)
    (o : Outcome) (ho : o.isNormal = false) (h : run n env body (s.within cs) = some o) :
    run (n + 2 * cs.length) env (nest body cs) s = some o := by
  induction cs generalizing body n with
  | nil => simpa [finallyRecords, nest, Tls.within] using h
  | cons c cs ih =>
    have h2 : run (n + 2) env (.tryFinally body c) (s.within cs) = some o := by
      rw [run, try_finally]
      have h' : run n env body (((s.within cs).push_back (.Finally (some c))).log .callBlock)
          = some o := by
        rw [← h]
        congr 1
        simp [Tls.within, Tls.push_back, Tls.log, finallyRecords_cons, List.replicate_succ',
          List.append_assoc]
      rw [h']
      cases o <;> simp_all [Outcome.isNormal]
    have := ih (.tryFinally body c) (n + 2) h2
    rw [nest, List.length_cons]
    have e : n + 2 * (cs.length + 1) = n + 2 + 2 * cs.length := by omega
    rw [e]; exact this

/-! ## The two paths of `try_catch` -/

theorem try_catch_after_first (env : Env) (n : Nat) (j cap : Nat) (b : Code) (h : Nat)
    (s : Tls) :
    try_catch_after (n + 1) env 0 j cap b h s =
      match run n env b
          ((s.push_back (.Catch { buf := j, body := h, captures := cap })).log .callBlock) with
      | some (.normal s1) =>
        if s1.exc_stack = [] then some (.undefined s1) else some (.normal s1.pop_back)
      | some (.jumped b1 val s1) =>
        if b1 = j then try_catch_after n env val j cap b h s1
        else some (.jumped b1 val s1)
      | o => o := by
  rw [try_catch_after]; simp

theorem try_catch_after_resumed (env : Env) (n : Nat) (r : Int) (hr : r > 0) (j cap : Nat)
    (b : Code) (h : Nat) (s : Tls) (f : Nat) (hf : s.exc_catch_handler = some f) :
    try_catch_after (n + 1) env r j cap b h s =
      match run n env (env f s.exc_val s.exc_catch_captures)
          (s.log (.callHandler f s.exc_val s.exc_catch_captures)) with
      | some (.jumped b1 val s1) =>
        if b1 = j then try_catch_after n env val j cap b h s1
        else some (.jumped b1 val s1)
      | o => o := by
  rw [try_catch_after]; simp [hr, hf]

/-- A `try_catch` whose block ends in a jump to its own buffer, with a
handler that returns. -/
theorem try_catch_caught (env : Env) (cap : Nat) (block : Code) (h : Nat) (s s3 s4 : Tls)
    (f : Nat) (n1 n2 : Nat)
    (hblock : run n1 env block
        ((Tls.push_back { s with nextBuf := s.nextBuf + 1 }
          (.Catch { buf := s.nextBuf, body := h, captures := cap })).log .callBlock)
        = some (.jumped s.nextBuf 1 s3))
    (hf : s3.exc_catch_handler = some f)
    (hhandler : run n2 env (env f s3.exc_val s3.exc_catch_captures)
        (s3.log (.callHandler f s3.exc_val s3.exc_catch_captures)) = some (.normal s4)) :
    ∀ m, n1 + n2 + 3 ≤ m → try_catch m env cap block h s = some (.normal s4) := by
  intro m hm
  refine try_catch_mono hm ?_
  rw [try_catch, try_catch_after_first, run_mono (by omega) hblock]
  simp only [if_true]
  rw [try_catch_after_resumed env _ 1 (by decide) _ _ _ _ _ f hf, run_mono (by omega) hhandler]

/-! ## Stack discipline of arbitrary client code -/

theorem Disciplined.weaken {stk : List exc_handler_t} {nb nb1 : Nat} {o : Outcome}
    (h : Disciplined stk nb1 o) (hnb : nb ≤ nb1) : Disciplined stk nb o := by
  cases o with
  | normal s' => exact ⟨h.1, hnb.trans h.2⟩
  | jumped b val s' => exact ⟨h.1, hnb.trans h.2.1, h.2.2⟩
  | panicked m s' => trivial
  | undefined s' => exact h

/-- A call that does not return and is disciplined on the stack below the
top record is disciplined on the whole stack. -/
theorem Disciplined.below {B : List exc_handler_t} {nb : Nat} {o : Outcome}
    (h : Disciplined B nb o) (ho : o.isNormal = false) (r : exc_handler_t) :
    Disciplined (B ++ [r]) nb o := by
  cases o with
  | normal s' => simp [Outcome.isNormal] at ho
  | jumped b val s' =>
    obtain ⟨h1, h2, k, rest, hk, hb⟩ := h
    exact ⟨h1, h2, k, rest ++ [r], by simp [hk], hb⟩
  | panicked m s' => trivial
  | undefined s' => exact h

/-- A jump out of a call made on `B ++ [r]` either lands on `r` itself, with
the stack cut back to `B`, or on a record of `B`. -/
theorem Disciplined.strip {B : List exc_handler_t} {r : exc_handler_t} {nb b : Nat} {val : Int}
    {s' : Tls} (h : Disciplined (B ++ [r]) nb (.jumped b val s')) :
    (s'.exc_stack = B ∧ ∃ k, r = .Catch k ∧ k.buf = b ∧
        s'.exc_catch_handler = some k.body ∧ s'.exc_catch_captures = k.captures) ∨
      Disciplined B nb (.jumped b val s') := by
  obtain ⟨h1, h2, k, rest, hk, hb⟩ := h
  rcases List.eq_nil_or_concat rest with rfl | ⟨rest', x, rfl⟩
  · left
    have := List.append_inj' hk (by simp)
    exact ⟨this.1.symm, k, by simpa using this.2, hb⟩
  · right
    have hk' : B ++ [r] = (s'.exc_stack ++ .Catch k :: rest') ++ [x] := by
      simpa [List.append_assoc] using hk
    have := List.append_inj' hk' (by simp)
    exact ⟨h1, h2, k, rest', this.1, hb⟩

theorem Fresh.mem_of_disciplined {stk : List exc_handler_t} {nb b : Nat} {val : Int} {s' : Tls}
    (h : Disciplined stk nb (.jumped b val s')) :
    ∃ k, exc_handler_t.Catch k ∈ stk ∧ k.buf = b := by
  obtain ⟨_, _, k, rest, hk, hb, _⟩ := h
  exact ⟨k, by simp [hk], hb⟩

theorem Fresh.of_stack_eq {s t : Tls} (hs : Fresh s) (hstk : t.exc_stack = s.exc_stack)
    (hnb : s.nextBuf ≤ t.nextBuf) : Fresh t := by
  intro k hk
  rw [hstk] at hk
  exact lt_of_lt_of_le (hs k hk) hnb

theorem discipline (n : Nat) : Discipline n := by
  induction n with
  | zero =>
    refine ⟨?_, ?_, ?_, ?_, ?_, ?_⟩ <;> intros <;> simp_all [run, try_finally, try_catch,
      try_catch_after, exc_throw, exc_throw_loop]
  | succ n ih =>
    obtain ⟨hrun, hfin, hcatch, hafter, hthrow, hloop⟩ := ih
    refine ⟨?_, ?_, ?_, ?_, ?_, ?_⟩
    · intro env c s o hs h
      cases c with
      | skip =>
        simp only [run, Option.some.injEq] at h
        subst h; exact ⟨rfl, le_rfl⟩
      | emit t =>
        simp only [run, Option.some.injEq] at h
        subst h; exact ⟨rfl, le_rfl⟩
      | seq a b =>
        rw [run] at h
        cases ha : run n env a s with
        | none => simp [ha] at h
        | some oa =>
          have h1 := hrun _ _ _ _ hs ha
          rw [ha] at h
          cases oa with
          | normal s1 =>
            have h2 := hrun _ _ _ _ (hs.of_stack_eq h1.1 h1.2) h
            rw [h1.1] at h2
            exact h2.weaken h1.2
          | jumped b1 v1 s1 => simp only [Option.some.injEq] at h; subst h; exact h1
          | panicked m s1 => simp only [Option.some.injEq] at h; subst h; exact h1
          | undefined s1 => simp only [Option.some.injEq] at h; subst h; exact h1
      | tryFinally b f => rw [run] at h; exact hfin _ _ _ _ _ hs h
      | tryFinallyEmpty b => rw [run] at h; exact hfin _ _ _ _ _ hs h
      | tryCatch cap b hd => rw [run] at h; exact hcatch _ _ _ _ _ _ hs h
      | throw v => rw [run] at h; exact (hthrow _ _ _ _ hs h).1
    · intro env b f s o hs h
      rw [try_finally] at h
      have hs1 : Fresh ((s.push_back (.Finally f)).log .callBlock) := by
        intro k hk
        have : exc_handler_t.Catch k ∈ s.exc_stack := by
          simpa [Tls.push_back, Tls.log] using hk
        exact hs k this
      cases hb : run n env b ((s.push_back (.Finally f)).log .callBlock) with
      | none => simp [hb] at h
      | some ob =>
        have h1 : Disciplined (s.exc_stack ++ [.Finally f]) s.nextBuf ob :=
          hrun env b ((s.push_back (.Finally f)).log .callBlock) ob hs1 hb
        rw [hb] at h
        cases ob with
        | normal s1 =>
          have hne : s1.exc_stack ≠ [] := by rw [h1.1]; simp
          simp only [hne, if_false, Option.some.injEq] at h
          subst h
          exact ⟨by simp [Tls.pop_back, h1.1], h1.2⟩
        | jumped b1 v1 s1 =>
          simp only [Option.some.injEq] at h; subst h
          rcases h1.strip with ⟨_, k, hk, _⟩ | h2
          · cases hk
          · exact h2
        | panicked m s1 => simp only [Option.some.injEq] at h; subst h; trivial
        | undefined s1 => exact h1.elim
    · intro env cap b hd s o hs h
      rw [try_catch] at h
      have h2 := hafter env 0 s.nextBuf cap b hd { s with nextBuf := s.nextBuf + 1 } o
        (fun k hk => hs k hk) (Nat.lt_succ_self _) (Or.inl rfl) h
      exact Disciplined.weaken h2 (Nat.le_succ _)
    · intro env r j cap b hd s o hlt hj hr h
      rw [try_catch_after] at h
      by_cases hr0 : r > 0
      · have hr1 : r = 1 ∧ s.exc_catch_handler ≠ none := by
          rcases hr with rfl | h1
          · exact absurd hr0 (by decide)
          · exact h1
        simp only [hr0, if_true] at h
        cases hf : s.exc_catch_handler with
        | none => exact absurd hf hr1.2
        | some f =>
          simp only [hf] at h
          have hs1 : Fresh (s.log (.callHandler f s.exc_val s.exc_catch_captures)) :=
            fun k hk => lt_trans (hlt k hk) hj
          cases hb : run n env (env f s.exc_val s.exc_catch_captures)
              (s.log (.callHandler f s.exc_val s.exc_catch_captures)) with
          | none => simp [hb] at h
          | some ob =>
            have h1 : Disciplined s.exc_stack s.nextBuf ob :=
              hrun env _ (s.log (.callHandler f s.exc_val s.exc_catch_captures)) ob hs1 hb
            rw [hb] at h
            cases ob with
            | jumped b1 v1 s1 =>
              obtain ⟨k, hk, hkb⟩ := Fresh.mem_of_disciplined h1
              have hbj : b1 ≠ j := by
                have := hlt k hk
                omega
              simp only [hbj, if_false, Option.some.injEq] at h
              subst h; exact h1
            | normal s1 => simp only [Option.some.injEq] at h; subst h; exact h1
            | panicked m s1 => simp only [Option.some.injEq] at h; subst h; trivial
            | undefined s1 => exact h1.elim
      · simp only [hr0, if_false] at h
        have hs1 : Fresh ((s.push_back (.Catch { buf := j, body := hd, captures := cap })).log
            .callBlock) := by
          intro k hk
          have : exc_handler_t.Catch k ∈ s.exc_stack ∨
              k = { buf := j, body := hd, captures := cap } := by
            simpa [Tls.push_back, Tls.log] using hk
          rcases this with h1 | rfl
          · exact lt_trans (hlt k h1) hj
          · exact hj
        cases hb : run n env b
            ((s.push_back (.Catch { buf := j, body := hd, captures := cap })).log .callBlock) with
        | none => simp [hb] at h
        | some ob =>
          have h1 : Disciplined
              (s.exc_stack ++ [.Catch { buf := j, body := hd, captures := cap }]) s.nextBuf ob :=
            hrun env b ((s.push_back (.Catch { buf := j, body := hd, captures := cap })).log
              .callBlock) ob hs1 hb
          rw [hb] at h
          cases ob with
          | jumped b1 v1 s1 =>
            simp only at h
            rcases h1.strip with ⟨hstk, k, hk, hkb, hkh, _⟩ | h2
            · have hbj : b1 = j := by
                cases hk; exact hkb.symm
              simp only [hbj, if_true] at h
              have h3 := hafter _ _ _ _ _ _ _ _ (by rw [hstk]; exact hlt)
                (lt_of_lt_of_le hj h1.2.1) (Or.inr ⟨h1.1, by simp [hkh]⟩) h
              rw [hstk] at h3
              exact h3.weaken h1.2.1
            · obtain ⟨k, hk, hkb⟩ := Fresh.mem_of_disciplined h2
              have hbj : b1 ≠ j := by
                have := hlt k hk
                omega
              simp only [hbj, if_false, Option.some.injEq] at h
              subst h; exact h2
          | normal s1 =>
            have hne : s1.exc_stack ≠ [] := by rw [h1.1]; simp
            simp only [hne, if_false, Option.some.injEq] at h
            subst h
            exact ⟨by simp [Tls.pop_back, h1.1], h1.2⟩
          | panicked m s1 => simp only [Option.some.injEq] at h; subst h; trivial
          | undefined s1 => exact h1.elim
    · intro env v s o hs h
      rw [exc_throw] at h
      exact hloop env { s with exc_val := v } o (fun k hk => hs k hk) h
    · intro env s o hs h
      rcases eq_nil_or_snoc s.exc_stack with hnil | ⟨B, r, hB⟩
      · rw [exc_throw_loop_empty env n s hnil, Option.some.injEq] at h
        subst h; exact ⟨trivial, rfl⟩
      · have hs1 : ∀ e, Fresh (s.pop_back.log e) := by
          intro e k hk
          have : exc_handler_t.Catch k ∈ B := by
            simpa [Tls.pop_back, Tls.log, hB] using hk
          exact hs k (by rw [hB]; exact List.mem_append_left _ this)
        cases r with
        | Catch c =>
          rw [exc_throw_loop_catch env n s B c hB, Option.some.injEq] at h
          subst h
          refine ⟨⟨rfl, le_rfl, c, [], ?_, rfl, rfl, rfl⟩, rfl⟩
          simp [Tls.log, Tls.pop_back, hB]
        | Finally f =>
          cases f with
          | none =>
            rw [exc_throw_loop_unbound env n s B hB, Option.some.injEq] at h
            subst h; exact ⟨trivial, rfl⟩
          | some fin =>
            rw [exc_throw_loop_bound env n s B fin hB] at h
            cases hb : run n env fin (s.pop_back.log (.callFinally fin)) with
            | none => simp [hb] at h
            | some ob =>
              have h1 : Disciplined B s.nextBuf ob := by
                have := hrun env fin (s.pop_back.log (.callFinally fin)) ob (hs1 _) hb
                simpa [Tls.pop_back, Tls.log, hB] using this
              rw [hb] at h
              cases ob with
              | normal s1 =>
                have hs2 : Fresh s1 := by
                  intro k hk
                  rw [h1.1] at hk
                  exact lt_of_lt_of_le (hs k (by rw [hB]; exact List.mem_append_left _ hk)) h1.2
                obtain ⟨h2, h3⟩ := hloop _ _ _ hs2 h
                rw [h1.1] at h2
                rw [hB]
                exact ⟨(h2.weaken h1.2).below h3 _, h3⟩
              | jumped b1 v1 s1 =>
                simp only [Option.some.injEq] at h; subst h
                rw [hB]; exact ⟨h1.below rfl _, rfl⟩
              | panicked m s1 =>
                simp only [Option.some.injEq] at h; subst h
                exact ⟨trivial, rfl⟩
              | undefined s1 => exact h1.elim

/-! ## Regions that complete normally -/

theorem run_regions (env : Env) (c : Code) (hc : c.regions = true) (s : Tls) :
    ∃ s', (∀ m, c.cost ≤ m → run m env c s = some (.normal s')) ∧
      s'.exc_stack = s.exc_stack ∧ s'.trace = s.trace ++ c.events := by
  induction c generalizing s with
  | skip =>
    exact ⟨s, fun m hm => run_mono hm (by simp [Code.cost, run]), rfl, by simp [Code.events]⟩
  | emit t =>
    exact ⟨s.log (.emit t), fun m hm => run_mono hm (by simp [Code.cost, run]), rfl,
      by simp [Code.events, Tls.log]⟩
  | seq a b iha ihb =>
    simp only [Code.regions, Bool.and_eq_true] at hc
    obtain ⟨s1, h1, e1, t1⟩ := iha hc.1 s
    obtain ⟨s2, h2, e2, t2⟩ := ihb hc.2 s1
    refine ⟨s2, fun m hm => run_mono hm ?_, e2.trans e1, by simp [t2, t1, Code.events]⟩
    rw [Code.cost, run, h1 _ (by omega)]
    exact h2 _ (by omega)
  | tryFinally b f ihb _ =>
    obtain ⟨s1, h1, e1, t1⟩ := ihb hc ((s.push_back (.Finally (some f))).log .callBlock)
    have hne : s1.exc_stack ≠ [] := by rw [e1]; simp [Tls.push_back, Tls.log]
    refine ⟨s1.pop_back, fun m hm => run_mono hm ?_, ?_, ?_⟩
    · rw [Code.cost, run, try_finally, h1 _ le_rfl]
      simp [hne]
    · simp [Tls.pop_back, e1, Tls.push_back, Tls.log]
    · simp [Tls.pop_back, t1, Tls.push_back, Tls.log, Code.events]
  | tryFinallyEmpty b ihb =>
    obtain ⟨s1, h1, e1, t1⟩ := ihb hc ((s.push_back (.Finally none)).log .callBlock)
    have hne : s1.exc_stack ≠ [] := by rw [e1]; simp [Tls.push_back, Tls.log]
    refine ⟨s1.pop_back, fun m hm => run_mono hm ?_, ?_, ?_⟩
    · rw [Code.cost, run, try_finally, h1 _ le_rfl]
      simp [hne]
    · simp [Tls.pop_back, e1, Tls.push_back, Tls.log]
    · simp [Tls.pop_back, t1, Tls.push_back, Tls.log, Code.events]
  | tryCatch cap b h ihb =>
    obtain ⟨s1, h1, e1, t1⟩ := ihb hc
      ((Tls.push_back { s with nextBuf := s.nextBuf + 1 }
        (.Catch { buf := s.nextBuf, body := h, captures := cap })).log .callBlock)
    have hne : s1.exc_stack ≠ [] := by rw [e1]; simp [Tls.push_back, Tls.log]
    refine ⟨s1.pop_back, fun m hm => run_mono hm ?_, ?_, ?_⟩
    · rw [Code.cost, run, try_catch, try_catch_after_first, h1 _ le_rfl]
      simp [hne]
    · simp [Tls.pop_back, e1, Tls.push_back, Tls.log]
    · simp [Tls.pop_back, t1, Tls.push_back, Tls.log, Code.events]
  | throw v => simp [Code.regions] at hc

/-- Whatever client code does in between, a call that returns normally
returns with the handler stack it was entered with. -/
theorem normal_return_restores_stack (env : Env) (n : Nat) (c : Code) (s s' : Tls)
    (hs : Fresh s) (h : run n env c s = some (.normal s')) : s'.exc_stack = s.exc_stack :=
  ((discipline n).1 env c s _ hs h).1

/-- A fault `v` thrown inside nested `try_finally` regions, inside a
`try_catch` whose handler returns; the cleanups return to the unwinder and
keep the pending fault value. -/
theorem caught_through_nest (env : Env) (v : Int) (cap h : Nat)
    (cs : List (Code × List Event)) (th : List Event) (s : Tls)
    (hcs : ∀ p ∈ cs, Returns env (fun t : Tls => t.exc_val = v) p.1 p.2)
    (hh : Returns env (fun _ => True) (env h v cap) th) :
    ∃ fuel s', (∀ m, fuel ≤ m →
        try_catch m env cap (nest (.throw v) (cs.map Prod.fst)) h s = some (.normal s')) ∧
      s'.exc_stack = s.exc_stack ∧
      s'.trace = s.trace ++ List.replicate (cs.length + 1) .callBlock ++ unwindTrace cs ++
        [.longjmp s.nextBuf 1, .callHandler h v cap] ++ th := by
  have hI : Insensitive (fun t : Tls => t.exc_val = v) := fun _ _ _ h => h
  let k : exc_catch_handler_t := { buf := s.nextBuf, body := h, captures := cap }
  let s1 : Tls := (Tls.push_back { s with nextBuf := s.nextBuf + 1 } (.Catch k)).log .callBlock
  obtain ⟨f1, s2, hstk2, htr2, hv2, hloop⟩ :=
    unwind_to_catch env _ hI _ hcs s.exc_stack k
      { s1.within (cs.map Prod.fst) with exc_val := v } rfl
      (by simp [s1, Tls.within, Tls.push_back, Tls.log])
  have hblock := nest_propagates env (cs.map Prod.fst) (.throw v) s1 (f1 + 2)
    (.jumped k.buf 1 (Tls.log { s2.pop_back with exc_catch_handler := some k.body,
                                                 exc_catch_captures := k.captures }
      (.longjmp k.buf 1))) rfl
    (by rw [run, exc_throw]; exact hloop f1 le_rfl)
  have hv2' : s2.exc_val = v := hv2
  obtain ⟨f2, s4, hrun4, hstk4, htr4, _⟩ :=
    hh ((Tls.log { s2.pop_back with exc_catch_handler := some k.body,
                                    exc_catch_captures := k.captures }
          (.longjmp k.buf 1)).log (.callHandler h v cap)) trivial
  refine ⟨_, s4, try_catch_caught env cap _ h s _ s4 h _ f2 hblock rfl ?_, ?_, ?_⟩
  · simpa [Tls.log, Tls.pop_back, hv2', k] using hrun4
  · simp [hstk4, Tls.log, Tls.pop_back, hstk2]
  · simp [htr4, Tls.log, Tls.pop_back, htr2, s1, Tls.within, Tls.push_back, k,
      List.replicate_succ, List.append_assoc]

theorem map_fst_pairs (cs : List Code) : (cs.map fun c => (c, c.events)).map Prod.fst = cs := by
  simp [Function.comp_def]

/-- C1 (unwind order). With a catch record `k` on the stack and the bound
finally records of the cleanups `cs = [F_1, ..., F_n]` above it (`F_1` on
top), each cleanup returning to the unwinder with the stack as it found it,
`exc_throw v` calls the cleanups in the order `F_1, ..., F_n` and only then
transfers control to the frame of `k`; when that frame resumes, the call of
the catch handler comes after all of them. -/
theorem unwind_order (env : Env) (v : Int) (S : List exc_handler_t) (k : exc_catch_handler_t)
    (cs : List (Code × List Event)) (s : Tls)
    (hcs : ∀ p ∈ cs, Returns env (fun _ => True) p.1 p.2)
    (hstk : s.exc_stack = S ++ [.Catch k] ++ finallyRecords (cs.map Prod.fst)) :
    ∃ fuel s', (∀ m, fuel ≤ m → exc_throw m env v s = some (.jumped k.buf 1 s')) ∧
      s'.trace = s.trace ++ unwindTrace cs ++ [.longjmp k.buf 1] ∧
      s'.exc_catch_handler = some k.body ∧ s'.exc_catch_captures = k.captures ∧
      ∀ m cap block h o, try_catch_after m env 1 k.buf cap block h s' = some o →
        s.trace ++ unwindTrace cs ++ [.longjmp k.buf 1, .callHandler k.body s'.exc_val k.captures]
          <+: o.tls.trace := by
  obtain ⟨f, s2, _, htr2, _, hloop⟩ :=
    unwind_to_catch env (fun _ => True) (fun _ _ _ _ => trivial) cs hcs S k
      { s with exc_val := v } trivial hstk
  refine ⟨f + 1, Tls.log { s2.pop_back with exc_catch_handler := some k.body,
                                            exc_catch_captures := k.captures } (.longjmp k.buf 1),
    fun m hm => ?_, ?_, rfl, rfl, ?_⟩
  · obtain ⟨n, rfl⟩ : ∃ n, m = n + 1 := ⟨m - 1, by omega⟩
    rw [exc_throw]
    exact hloop n (by omega)
  · simp [Tls.log, Tls.pop_back, htr2]
  · intro m cap block h o ho
    have := resumed_calls_handler env m 1 (by decide) k.buf cap block h _ k.body rfl o ho
    simpa [Tls.log, Tls.pop_back, htr2] using this

/-- C1 at two cleanups above a catch record. -/
theorem unwind_order_witness :
    ∃ fuel s', (∀ m, fuel ≤ m → exc_throw m env0 7
        { Tls.init with exc_stack := ([.Finally none] ++ [.Catch ⟨4, 3, 5⟩] ++
            finallyRecords [.emit 1, .emit 2]) } = some (.jumped 4 1 s')) ∧
      s'.trace = [] ++ unwindTrace [(.emit 1, [.emit 1]), (.emit 2, [.emit 2])] ++ [.longjmp 4 1] ∧
      s'.exc_catch_handler = some 3 ∧ s'.exc_catch_captures = 5 ∧
      ∀ m cap block h o, try_catch_after m env0 1 4 cap block h s' = some o →
        [] ++ unwindTrace [(.emit 1, [.emit 1]), (.emit 2, [.emit 2])] ++
          [.longjmp 4 1, .callHandler 3 s'.exc_val 5] <+: o.tls.trace :=
  unwind_order env0 7 [.Finally none] ⟨4, 3, 5⟩ [(.emit 1, [.emit 1]), (.emit 2, [.emit 2])]
    { Tls.init with exc_stack := ([.Finally none] ++ [.Catch ⟨4, 3, 5⟩] ++
        finallyRecords [.emit 1, .emit 2]) }
    (by
      intro p hp
      simp only [List.mem_cons, List.mem_singleton, List.not_mem_nil, or_false] at hp
      rcases hp with rfl | rfl
      · exact returns_of_plain env0 _ (fun _ _ _ _ => trivial) (.emit 1) rfl
      · exact returns_of_plain env0 _ (fun _ _ _ _ => trivial) (.emit 2) rfl)
    rfl

/-- C2 (catch selection). `try_catch(cap, block, h)` whose block throws `v`
from inside nested `try_finally` regions with plain cleanups `cs` (no other
catch record above, no protocol operation in a cleanup), with a handler that
returns: the cleanups run first, then `h` is called once, with exactly
`(v, cap)`, and `try_catch` returns normally with the handler stack it was
entered with.  `v` ranges over all integers. -/
theorem catch_selection (env : Env) (v : Int) (cap h : Nat) (cs : List Code)
    (th : List Event) (s : Tls)
    (hplain : ∀ c ∈ cs, c.plain = true)
    (hh : Returns env (fun _ => True) (env h v cap) th) :
    ∃ fuel s', (∀ m, fuel ≤ m →
        try_catch m env cap (nest (.throw v) cs) h s = some (.normal s')) ∧
      s'.exc_stack = s.exc_stack ∧
      s'.trace = s.trace ++ List.replicate (cs.length + 1) .callBlock ++
        unwindTrace (cs.map fun c => (c, c.events)) ++
        [.longjmp s.nextBuf 1, .callHandler h v cap] ++ th := by
  have hcs : ∀ p ∈ cs.map (fun c => (c, c.events)),
      Returns env (fun t : Tls => t.exc_val = v) p.1 p.2 := by
    intro p hp
    obtain ⟨c, hc, rfl⟩ := List.mem_map.1 hp
    exact returns_of_plain env _ (fun _ _ _ h => h) c (hplain c hc)
  obtain ⟨fuel, s', hrun, hstk, htr⟩ :=
    caught_through_nest env v cap h (cs.map fun c => (c, c.events)) th s hcs hh
  rw [map_fst_pairs] at hrun
  refine ⟨fuel, s', hrun, hstk, ?_⟩
  rw [htr, List.length_map]

/-- C2 for the fault value `-3`, two cleanups and a handler that emits. -/
theorem catch_selection_witness :
    ∃ fuel s', (∀ m, fuel ≤ m →
        try_catch m env0 5 (nest (.throw (-3)) [.emit 1, .emit 2]) 3 Tls.init
          = some (.normal s')) ∧
      s'.exc_stack = Tls.init.exc_stack ∧
      s'.trace = Tls.init.trace ++ List.replicate ([Code.emit 1, Code.emit 2].length + 1) .callBlock ++
        unwindTrace ([Code.emit 1, Code.emit 2].map fun c => (c, c.events)) ++
        [.longjmp Tls.init.nextBuf 1, .callHandler 3 (-3) 5] ++ [.emit 0, .emit 5] :=
  catch_selection env0 (-3) 5 3 [.emit 1, .emit 2] [.emit 0, .emit 5] Tls.init
    (by decide)
    (returns_of_plain env0 _ (fun _ _ _ _ => trivial) (env0 3 (-3) 5) rfl)

/-- C3 (unhandled fault). On a stack holding only bound finally records (none
included: the empty stack), whose cleanups return to the unwinder with the
stack as they found it, `exc_throw v` calls each cleanup once, top to bottom,
leaves the stack empty and then calls `ryujit_host_panic` with the
unhandled-fault message, which is not the corrupted-finally one; it does
not return and no control transfer to a catch frame takes place. -/
theorem unhandled_fault (env : Env) (v : Int) (cs : List (Code × List Event)) (s : Tls)
    (hcs : ∀ p ∈ cs, Returns env (fun _ => True) p.1 p.2)
    (hstk : s.exc_stack = finallyRecords (cs.map Prod.fst)) :
    ∃ fuel s', (∀ m, fuel ≤ m →
        exc_throw m env v s = some (.panicked "unhandled exception" s')) ∧
      s'.exc_stack = [] ∧
      s'.trace = s.trace ++ unwindTrace cs ++ [.panic "unhandled exception"] ∧
      "unhandled exception" ≠ "'finally' block handler became empty" := by
  obtain ⟨f, s2, hstk2, htr2, _, hloop⟩ :=
    unwind_cleanups env (fun _ => True) (fun _ _ _ _ => trivial) cs hcs []
      { s with exc_val := v } trivial (by simpa using hstk)
  refine ⟨1 + f + 1, s2.log (.panic "unhandled exception"), fun m hm => ?_, ?_, ?_, by decide⟩
  · obtain ⟨n, rfl⟩ : ∃ n, m = n + 1 := ⟨m - 1, by omega⟩
    rw [exc_throw]
    exact exc_throw_loop_mono (by omega) (hloop 1 _ (exc_throw_loop_empty env 0 s2 hstk2))
  · simpa [Tls.log] using hstk2
  · simp [Tls.log, htr2]

/-- C3 at three cleanups and no catch record. -/
theorem unhandled_fault_witness :
    ∃ fuel s', (∀ m, fuel ≤ m →
        exc_throw m env0 (-1) { Tls.init with exc_stack := finallyRecords [.emit 1, .skip, .emit 3] }
          = some (.panicked "unhandled exception" s')) ∧
      s'.exc_stack = [] ∧
      s'.trace = [] ++ unwindTrace [(.emit 1, [.emit 1]), (.skip, []), (.emit 3, [.emit 3])] ++
        [.panic "unhandled exception"] ∧
      "unhandled exception" ≠ "'finally' block handler became empty" :=
  unhandled_fault env0 (-1) [(.emit 1, [.emit 1]), (.skip, []), (.emit 3, [.emit 3])]
    { Tls.init with exc_stack := finallyRecords [.emit 1, .skip, .emit 3] }
    (by
      intro p hp
      simp only [List.mem_cons, List.mem_singleton, List.not_mem_nil, or_false] at hp
      rcases hp with rfl | rfl | rfl
      · exact returns_of_plain env0 _ (fun _ _ _ _ => trivial) (.emit 1) rfl
      · exact returns_of_plain env0 _ (fun _ _ _ _ => trivial) .skip rfl
      · exact returns_of_plain env0 _ (fun _ _ _ _ => trivial) (.emit 3) rfl)
    rfl

/-- C4 (stack discipline). For a nesting `c` of `try_finally` and `try_catch`
regions in which every block returns normally: running `c` returns with the
handler stack equal to the one it was entered with; and with `c` as the
block of a `try_finally` or `try_catch` region, the record on top of the
stack when the region pops is the record this region pushed, so the pop
removes exactly it and the region returns with the stack of its entry.
Every region of a nesting is covered, its block being such a nesting.
Last, for arbitrary client code `b`, faults raised and caught inside it
included: whenever `b` returns normally, the stack is the one it found. -/
theorem stack_discipline (env : Env) (c : Code) (hc : c.regions = true) (s : Tls) :
    (∃ s', (∀ m, c.cost ≤ m → run m env c s = some (.normal s')) ∧
      s'.exc_stack = s.exc_stack) ∧
    (∀ f, ∃ s1,
      (∀ m, c.cost ≤ m →
        run m env c ((s.push_back (.Finally f)).log .callBlock) = some (.normal s1)) ∧
      s1.exc_stack = s.exc_stack ++ [.Finally f] ∧
      (∀ m, c.cost + 1 ≤ m → try_finally m env c f s = some (.normal s1.pop_back)) ∧
      s1.pop_back.exc_stack = s.exc_stack) ∧
    (∀ cap h, ∃ s1,
      (∀ m, c.cost ≤ m →
        run m env c ((Tls.push_back { s with nextBuf := s.nextBuf + 1 }
          (.Catch { buf := s.nextBuf, body := h, captures := cap })).log .callBlock)
          = some (.normal s1)) ∧
      s1.exc_stack = s.exc_stack ++ [.Catch { buf := s.nextBuf, body := h, captures := cap }] ∧
      (∀ m, c.cost + 2 ≤ m → try_catch m env cap c h s = some (.normal s1.pop_back)) ∧
      s1.pop_back.exc_stack = s.exc_stack) ∧
    (∀ (n : Nat) (b : Code) (t t1 : Tls), Fresh t →
      run n env b t = some (.normal t1) → t1.exc_stack = t.exc_stack) := by
  refine ⟨?_, fun f => ?_, fun cap h => ?_,
    fun n b t t1 ht hrun => ((discipline n).1 env b t _ ht hrun).1⟩
  · obtain ⟨s', h1, e1, _⟩ := run_regions env c hc s
    exact ⟨s', h1, e1⟩
  · obtain ⟨s1, h1, e1, _⟩ := run_regions env c hc ((s.push_back (.Finally f)).log .callBlock)
    have e1' : s1.exc_stack = s.exc_stack ++ [.Finally f] := by
      simpa [Tls.push_back, Tls.log] using e1
    have hne : s1.exc_stack ≠ [] := by rw [e1']; simp
    refine ⟨s1, h1, e1', fun m hm => try_finally_mono hm ?_, by simp [Tls.pop_back, e1']⟩
    rw [try_finally, h1 _ le_rfl]
    simp [hne]
  · obtain ⟨s1, h1, e1, _⟩ := run_regions env c hc
      ((Tls.push_back { s with nextBuf := s.nextBuf + 1 }
        (.Catch { buf := s.nextBuf, body := h, captures := cap })).log .callBlock)
    have e1' : s1.exc_stack =
        s.exc_stack ++ [.Catch { buf := s.nextBuf, body := h, captures := cap }] := by
      simpa [Tls.push_back, Tls.log] using e1
    have hne : s1.exc_stack ≠ [] := by rw [e1']; simp
    refine ⟨s1, h1, e1', fun m hm => try_catch_mono hm ?_, by simp [Tls.pop_back, e1']⟩
    rw [try_catch, try_catch_after_first, h1 _ le_rfl]
    simp [hne]

/-- C4 at `nesting4`, entered in `entry4`. -/
theorem stack_discipline_witness :
    (∃ s', (∀ m, nesting4.cost ≤ m → run m env0 nesting4 entry4 = some (.normal s')) ∧
      s'.exc_stack = entry4.exc_stack) ∧
    (∀ f, ∃ s1,
      (∀ m, nesting4.cost ≤ m →
        run m env0 nesting4 ((entry4.push_back (.Finally f)).log .callBlock)
          = some (.normal s1)) ∧
      s1.exc_stack = entry4.exc_stack ++ [.Finally f] ∧
      (∀ m, nesting4.cost + 1 ≤ m →
        try_finally m env0 nesting4 f entry4 = some (.normal s1.pop_back)) ∧
      s1.pop_back.exc_stack = entry4.exc_stack) ∧
    (∀ cap h, ∃ s1,
      (∀ m, nesting4.cost ≤ m →
        run m env0 nesting4 ((Tls.push_back { entry4 with nextBuf := entry4.nextBuf + 1 }
          (.Catch { buf := entry4.nextBuf, body := h, captures := cap })).log .callBlock)
          = some (.normal s1)) ∧
      s1.exc_stack =
        entry4.exc_stack ++ [.Catch { buf := entry4.nextBuf, body := h, captures := cap }] ∧
      (∀ m, nesting4.cost + 2 ≤ m →
        try_catch m env0 cap nesting4 h entry4 = some (.normal s1.pop_back)) ∧
      s1.pop_back.exc_stack = entry4.exc_stack) ∧
    (∀ (n : Nat) (b : Code) (t t1 : Tls), Fresh t →
      run n env0 b t = some (.normal t1) → t1.exc_stack = t.exc_stack) :=
  stack_discipline env0 nesting4 (by decide) entry4

/-- C6 (`try_finally`, normal path). `try_finally(block, cleanup)` runs the
block in the context in which the record holding `cleanup` has just been
pushed and is on top of the stack; when the block returns normally and
leaves the stack as it found it, `try_finally` pops that record and returns:
the stack is the one of the entry and nothing happens after the block, so
the cleanup is not called here. -/
theorem try_finally_normal_path (env : Env) (block : Code) (cleanup : Option Code)
    (s s1 : Tls) (n : Nat)
    (hblock : run n env block ((s.push_back (.Finally cleanup)).log .callBlock)
      = some (.normal s1))
    (hstk : s1.exc_stack = ((s.push_back (.Finally cleanup)).log .callBlock).exc_stack) :
    ((s.push_back (.Finally cleanup)).log .callBlock).exc_stack
        = s.exc_stack ++ [.Finally cleanup] ∧
      ((s.push_back (.Finally cleanup)).log .callBlock).trace = s.trace ++ [.callBlock] ∧
      (∀ m, n + 1 ≤ m → try_finally m env block cleanup s = some (.normal s1.pop_back)) ∧
      s1.exc_stack.getLast? = some (.Finally cleanup) ∧
      s1.pop_back.exc_stack = s.exc_stack ∧
      s1.pop_back.trace = s1.trace ∧
      s.trace ++ [.callBlock] <+: s1.trace := by
  have hstk' : s1.exc_stack = s.exc_stack ++ [.Finally cleanup] := hstk
  have hne : s1.exc_stack ≠ [] := by rw [hstk']; simp
  refine ⟨rfl, rfl, fun m hm => try_finally_mono hm ?_, ?_, ?_, rfl, ?_⟩
  · rw [try_finally, hblock]
    simp [hne]
  · rw [hstk', getLast?_snoc]
  · simp [Tls.pop_back, hstk']
  · exact (traceGrows n).1 _ _ _ _ hblock

/-- C6 at a block that emits twice, on a stack holding two records. -/
theorem try_finally_normal_path_witness :
    ((entry4.push_back (.Finally (some (.emit 9)))).log .callBlock).exc_stack
        = entry4.exc_stack ++ [.Finally (some (.emit 9))] ∧
      ((entry4.push_back (.Finally (some (.emit 9)))).log .callBlock).trace
        = entry4.trace ++ [.callBlock] ∧
      (∀ m, 3 + 1 ≤ m → try_finally m env0 (.seq (.emit 1) (.emit 2)) (some (.emit 9)) entry4
        = some (.normal afterBlock6.pop_back)) ∧
      afterBlock6.exc_stack.getLast? = some (.Finally (some (.emit 9))) ∧
      afterBlock6.pop_back.exc_stack = entry4.exc_stack ∧
      afterBlock6.pop_back.trace = afterBlock6.trace ∧
      entry4.trace ++ [.callBlock] <+: afterBlock6.trace :=
  try_finally_normal_path env0 (.seq (.emit 1) (.emit 2)) (some (.emit 9)) entry4
    afterBlock6 3 (by decide) rfl

/-- C7 (corrupted finally handler). When the unwinder, after the bound
cleanups `cs` above it, pops a finally record whose closure is unbound, it
calls `ryujit_host_panic` with the corrupted-finally message: the records `S`
below are left exactly as they were (none is popped, no lower cleanup runs,
no catch record is selected) and the run ends there. -/
theorem corrupted_finally (env : Env) (v : Int) (S : List exc_handler_t)
    (cs : List (Code × List Event)) (s : Tls)
    (hcs : ∀ p ∈ cs, Returns env (fun t => t.exc_catch_handler = s.exc_catch_handler ∧
        t.exc_catch_captures = s.exc_catch_captures) p.1 p.2)
    (hstk : s.exc_stack = S ++ [.Finally none] ++ finallyRecords (cs.map Prod.fst)) :
    ∃ fuel s', (∀ m, fuel ≤ m → exc_throw m env v s =
        some (.panicked "'finally' block handler became empty" s')) ∧
      s'.exc_stack = S ∧
      s'.trace = s.trace ++ unwindTrace cs ++ [.panic "'finally' block handler became empty"] ∧
      s'.exc_catch_handler = s.exc_catch_handler ∧
      s'.exc_catch_captures = s.exc_catch_captures := by
  obtain ⟨f, s2, hstk2, htr2, hI2, hloop⟩ :=
    unwind_cleanups env _ (fun _ _ _ h => h) cs hcs (S ++ [.Finally none])
      { s with exc_val := v } ⟨rfl, rfl⟩ hstk
  refine ⟨1 + f + 1, s2.pop_back.log (.panic "'finally' block handler became empty"),
    fun m hm => ?_, ?_, ?_, hI2.1, hI2.2⟩
  · obtain ⟨n, rfl⟩ : ∃ n, m = n + 1 := ⟨m - 1, by omega⟩
    rw [exc_throw]
    exact exc_throw_loop_mono (by omega) (hloop 1 _ (exc_throw_loop_unbound env 0 s2 S hstk2))
  · simp [Tls.log, Tls.pop_back, hstk2]
  · simp [Tls.log, Tls.pop_back, htr2]

/-- C7 with a catch record and a bound finally record below the unbound one. -/
theorem corrupted_finally_witness :
    ∃ fuel s', (∀ m, fuel ≤ m →
        exc_throw m env0 9 { Tls.init with exc_stack :=
          ([.Catch ⟨0, 1, 2⟩, .Finally (some (.emit 8))] ++ [.Finally none] ++
            finallyRecords [.emit 1]) } =
        some (.panicked "'finally' block handler became empty" s')) ∧
      s'.exc_stack = [.Catch ⟨0, 1, 2⟩, .Finally (some (.emit 8))] ∧
      s'.trace = [] ++ unwindTrace [(.emit 1, [.emit 1])] ++
        [.panic "'finally' block handler became empty"] ∧
      s'.exc_catch_handler = none ∧ s'.exc_catch_captures = 0 :=
  corrupted_finally env0 9 [.Catch ⟨0, 1, 2⟩, .Finally (some (.emit 8))] [(.emit 1, [.emit 1])]
    { Tls.init with exc_stack :=
        ([.Catch ⟨0, 1, 2⟩, .Finally (some (.emit 8))] ++ [.Finally none] ++
          finallyRecords [.emit 1]) }
    (by
      intro p hp
      simp only [List.mem_singleton] at hp
      subst hp
      exact returns_of_plain env0 _ (fun _ _ _ h => h) (.emit 1) rfl)
    rfl

/-- C8 (unwinding stops at the nearest catch). On the stack
`S ++ [Catch k] ++ Fs`, `Fs` bound finally records whose cleanups return to
the unwinder with the stack as they found it, `exc_throw v` processes the
records of `Fs` and `k` and nothing else: at the control transfer to the
frame of `k` the handler stack is exactly `S`, whatever `S` holds. -/
theorem stops_at_nearest_catch (env : Env) (v : Int) (S : List exc_handler_t)
    (k : exc_catch_handler_t) (cs : List (Code × List Event)) (s : Tls)
    (hcs : ∀ p ∈ cs, Returns env (fun _ => True) p.1 p.2)
    (hstk : s.exc_stack = S ++ [.Catch k] ++ finallyRecords (cs.map Prod.fst)) :
    ∃ fuel s', (∀ m, fuel ≤ m → exc_throw m env v s = some (.jumped k.buf 1 s')) ∧
      s'.exc_stack = S ∧
      s'.trace = s.trace ++ unwindTrace cs ++ [.longjmp k.buf 1] := by
  obtain ⟨f, s2, hstk2, htr2, _, hloop⟩ :=
    unwind_to_catch env (fun _ => True) (fun _ _ _ _ => trivial) cs hcs S k
      { s with exc_val := v } trivial hstk
  refine ⟨f + 1, Tls.log { s2.pop_back with exc_catch_handler := some k.body,
                                            exc_catch_captures := k.captures } (.longjmp k.buf 1),
    fun m hm => ?_, ?_, ?_⟩
  · obtain ⟨n, rfl⟩ : ∃ n, m = n + 1 := ⟨m - 1, by omega⟩
    rw [exc_throw]
    exact hloop n (by omega)
  · simp [Tls.log, Tls.pop_back, hstk2]
  · simp [Tls.log, Tls.pop_back, htr2]

/-- C8 with a catch, a bound and an unbound finally record below the nearest
catch. -/
theorem stops_at_nearest_catch_witness :
    ∃ fuel s', (∀ m, fuel ≤ m →
        exc_throw m env0 0 { Tls.init with exc_stack :=
          ([.Catch ⟨0, 1, 2⟩, .Finally (some (.emit 8)), .Finally none] ++ [.Catch ⟨4, 3, 5⟩] ++
            finallyRecords [.emit 1, .emit 2]) } = some (.jumped 4 1 s')) ∧
      s'.exc_stack = [.Catch ⟨0, 1, 2⟩, .Finally (some (.emit 8)), .Finally none] ∧
      s'.trace = [] ++ unwindTrace [(.emit 1, [.emit 1]), (.emit 2, [.emit 2])] ++
        [.longjmp 4 1] :=
  stops_at_nearest_catch env0 0 [.Catch ⟨0, 1, 2⟩, .Finally (some (.emit 8)), .Finally none]
    ⟨4, 3, 5⟩ [(.emit 1, [.emit 1]), (.emit 2, [.emit 2])]
    { Tls.init with exc_stack :=
        ([.Catch ⟨0, 1, 2⟩, .Finally (some (.emit 8)), .Finally none] ++ [.Catch ⟨4, 3, 5⟩] ++
          finallyRecords [.emit 1, .emit 2]) }
    (by
      intro p hp
      simp only [List.mem_cons, List.mem_singleton, List.not_mem_nil, or_false] at hp
      rcases hp with rfl | rfl
      · exact returns_of_plain env0 _ (fun _ _ _ _ => trivial) (.emit 1) rfl
      · exact returns_of_plain env0 _ (fun _ _ _ _ => trivial) (.emit 2) rfl)
    rfl

/-- C9 (each record is popped at most once). A `try_catch` entered in `s`
whose block ends in a jump to its own buffer (a fault this `try_catch`
catches) and whose handler returns normally: at the landing the handler
stack is already the stack of the entry, the unwinder having removed the
catch record before the jump; the resumed path calls the handler and
returns without a pop, so the stack at return equals the stack at entry.
Over any run: whenever the block of a region returns normally the record
on top of the stack is the one this region pushed, so the region's pop
removes a record the unwinder has not removed; and when the block does not
return normally the region does no pop. -/
theorem popped_at_most_once (env : Env) (cap h : Nat) (block : Code) (s s3 s4 : Tls)
    (val : Int) (n n2 : Nat) (hs : Fresh s)
    (hblock : run n env block
        ((Tls.push_back { s with nextBuf := s.nextBuf + 1 }
          (.Catch { buf := s.nextBuf, body := h, captures := cap })).log .callBlock)
        = some (.jumped s.nextBuf val s3))
    (hhandler : run n2 env (env h s3.exc_val cap) (s3.log (.callHandler h s3.exc_val cap))
        = some (.normal s4)) :
    s3.exc_stack = s.exc_stack ∧ val = 1 ∧
      s3.exc_catch_handler = some h ∧ s3.exc_catch_captures = cap ∧
      (∀ m, n + n2 + 3 ≤ m → try_catch m env cap block h s = some (.normal s4)) ∧
      s4.exc_stack = s.exc_stack ∧
      (∀ (t : Tls) (r : exc_handler_t) (b : Code) (k : Nat) (t1 : Tls), Fresh (t.push_back r) →
        run k env b ((t.push_back r).log .callBlock) = some (.normal t1) →
        t1.exc_stack = t.exc_stack ++ [r]) ∧
      (∀ (t : Tls) (f : Option Code) (b : Code) (k : Nat) (o : Outcome),
        run k env b ((t.push_back (.Finally f)).log .callBlock) = some o →
        o.isNormal = false → try_finally (k + 1) env b f t = some o) ∧
      (∀ (t : Tls) (j cap1 h1 : Nat) (b : Code) (k : Nat) (o : Outcome),
        run k env b ((t.push_back (.Catch { buf := j, body := h1, captures := cap1 })).log
          .callBlock) = some o →
        o.isNormal = false → (∀ v t1, o ≠ .jumped j v t1) →
        try_catch_after (k + 1) env 0 j cap1 b h1 t = some o) := by
  have hfresh : Fresh ((Tls.push_back { s with nextBuf := s.nextBuf + 1 }
      (.Catch { buf := s.nextBuf, body := h, captures := cap })).log .callBlock) := by
    intro k hk
    have : exc_handler_t.Catch k ∈ s.exc_stack ∨
        k = { buf := s.nextBuf, body := h, captures := cap } := by
      simpa [Tls.push_back, Tls.log] using hk
    rcases this with h1 | rfl
    · exact Nat.lt_succ_of_lt (hs k h1)
    · exact Nat.lt_succ_self _
  have hD : Disciplined (s.exc_stack ++ [.Catch { buf := s.nextBuf, body := h, captures := cap }])
      (s.nextBuf + 1) (.jumped s.nextBuf val s3) := (discipline n).1 env block _ _ hfresh hblock
  have hland : s3.exc_stack = s.exc_stack ∧
      s3.exc_catch_handler = some h ∧ s3.exc_catch_captures = cap := by
    rcases hD.strip with ⟨hstk, k, hk, _, hkh, hkc⟩ | h2
    · cases hk
      exact ⟨hstk, hkh, hkc⟩
    · obtain ⟨k, hk, hkb⟩ := Fresh.mem_of_disciplined h2
      have := hs k hk
      omega
  obtain ⟨hstk3, hh3, hc3⟩ := hland
  have hfresh3 : Fresh (s3.log (.callHandler h s3.exc_val cap)) := by
    intro k hk
    have hk' : exc_handler_t.Catch k ∈ s.exc_stack := by
      rw [← hstk3]; exact hk
    have h1 := hs k hk'
    have h2 : s.nextBuf + 1 ≤ s3.nextBuf := hD.2.1
    exact lt_of_lt_of_le h1 (by simpa [Tls.log] using Nat.le_of_succ_le h2)
  have hD4 := (discipline n2).1 env _ _ _ hfresh3 hhandler
  have hv : val = 1 := hD.1
  subst hv
  refine ⟨hstk3, rfl, hh3, hc3, ?_, hD4.1.trans hstk3, ?_, ?_, ?_⟩
  · refine try_catch_caught env cap block h s s3 s4 h n n2 hblock hh3 ?_
    rw [hc3]; exact hhandler
  · intro t r b k t1 ht hrun
    have hf : Fresh ((t.push_back r).log .callBlock) := fun x hx => ht x hx
    exact ((discipline k).1 env b _ _ hf hrun).1
  · intro t f b k o hrun ho
    rw [try_finally, hrun]
    cases o <;> simp_all [Outcome.isNormal]
  · intro t j cap1 h1 b k o hrun ho hne
    rw [try_catch_after_first, hrun]
    cases o with
    | normal t1 => simp [Outcome.isNormal] at ho
    | jumped b1 v1 t1 =>
      have hbj : b1 ≠ j := fun e => hne v1 t1 (by rw [e])
      simp [hbj]
    | panicked m t1 => rfl
    | undefined t1 => rfl

/-- C9 at `try_catch(5, block9, 3)` entered in `entry4`. -/
theorem popped_at_most_once_witness :
    landed9.exc_stack = entry4.exc_stack ∧
      (∀ m, 6 + 3 + 3 ≤ m → try_catch m env0 5 block9 3 entry4 = some (.normal returned9)) ∧
      returned9.exc_stack = entry4.exc_stack :=
  have H := popped_at_most_once env0 5 3 block9 entry4 landed9 returned9 1 6 3
    (by
      intro k hk
      have : k = ⟨0, 1, 2⟩ := by simpa [entry4, Tls.init] using hk
      subst this
      decide)
    (by decide) (by decide)
  ⟨H.1, H.2.2.2.2.1, H.2.2.2.2.2.1⟩

/-- C10, the code at its failing input. The outer `try_catch(5, .., 3)` has a
block that throws 7 inside a `try_finally` whose cleanup runs a complete
`try_catch` of its own, throwing and catching 9.  The nested `exc_throw`
overwrites the pending fault value, and the outer handler is called with 9,
never with 7. -/
theorem fault_value_clobbered :
    ∃ s', try_catch 19 env0 5 (.tryFinally (.throw 7) (.tryCatch 0 (.throw 9) 1)) 3 Tls.init
        = some (.normal s') ∧
      s'.exc_val = 9 ∧
      Event.callHandler 3 9 5 ∈ s'.trace ∧ Event.callHandler 3 7 5 ∉ s'.trace :=
  ⟨{ exc_stack := [], exc_val := 9, exc_catch_handler := some 3, exc_catch_captures := 5,
     trace := [.callBlock, .callBlock, .callFinally (.tryCatch 0 (.throw 9) 1), .callBlock,
               .longjmp 1 1, .callHandler 1 9 0, .emit 9, .emit 0, .longjmp 0 1,
               .callHandler 3 9 5, .emit 9, .emit 5],
     nextBuf := 2 }, by decide, rfl, by decide, by decide⟩

/-! ## Rethrow from a handler -/

/-- The first return of `SETJMP` in `try_catch`, in one step. -/
theorem try_catch_unfold (env : Env) (n : Nat) (cap : Nat) (b : Code) (h : Nat) (s : Tls) :
    try_catch (n + 2) env cap b h s =
      match run n env b (s.entered cap h) with
      | some (.normal s1) =>
        if s1.exc_stack = [] then some (.undefined s1) else some (.normal s1.pop_back)
      | some (.jumped b1 val s1) =>
        if b1 = s.nextBuf then try_catch_after n env val s.nextBuf cap b h s1
        else some (.jumped b1 val s1)
      | o => o := by
  rw [try_catch, try_catch_after_first]
  rfl

/-- The loop of `exc_throw` finishes on every stack whose bound cleanups
terminate. -/
theorem loop_finishes (env : Env) (stk : List exc_handler_t) :
    ∀ s : Tls, s.exc_stack = stk →
      (∀ c, exc_handler_t.Finally (some c) ∈ stk → Terminates env c) →
      ∃ fuel o, (∀ m, fuel ≤ m → exc_throw_loop m env s = some o) ∧
        (∃ popped, stk = o.tls.exc_stack ++ popped) ∧ Ends stk o := by
  induction stk using List.reverseRecOn with
  | nil =>
    intro s hs _
    refine ⟨1, ryujit_host_panic "unhandled exception" s, fun m hm => ?_, ⟨[], ?_⟩, ?_⟩
    · exact exc_throw_loop_mono hm (exc_throw_loop_empty env 0 s hs)
    · simp [ryujit_host_panic, Outcome.tls, Tls.log, hs]
    · exact Or.inl ⟨rfl, by simp [Tls.log, hs]⟩
  | append_singleton B r ih =>
    intro s hs hcl
    cases r with
    | Catch k =>
      refine ⟨1, _, fun m hm => exc_throw_loop_mono hm (exc_throw_loop_catch env 0 s B k hs),
        ⟨[.Catch k], ?_⟩, rfl, k, [], ?_, rfl, by simp⟩
      · simp [Outcome.tls, Tls.log, Tls.pop_back, hs]
      · simp [Tls.log, Tls.pop_back, hs]
    | Finally f =>
      cases f with
      | none =>
        refine ⟨1, _, fun m hm => exc_throw_loop_mono hm (exc_throw_loop_unbound env 0 s B hs),
          ⟨[.Finally none], ?_⟩, Or.inr ⟨rfl, [], ?_⟩⟩
        · simp [ryujit_host_panic, Outcome.tls, Tls.log, Tls.pop_back, hs]
        · simp [Tls.log, Tls.pop_back, hs]
      | some c =>
        obtain ⟨f1, s1, hrun1, hstk1⟩ :=
          hcl c (by simp) (s.pop_back.log (.callFinally c))
        have hstk1' : s1.exc_stack = B := by
          rw [hstk1]; simp [Tls.pop_back, Tls.log, hs]
        obtain ⟨f2, o, hloop, ⟨popped, hpop⟩, hend⟩ :=
          ih s1 hstk1' (fun x hx => hcl x (List.mem_append_left _ hx))
        refine ⟨f1 + f2 + 1, o, fun m hm => exc_throw_loop_mono hm ?_,
          ⟨popped ++ [.Finally (some c)], by simp [hpop]⟩, ?_⟩
        · rw [exc_throw_loop_bound env _ s B c hs, run_mono (Nat.le_add_right f1 f2) hrun1]
          exact hloop _ (Nat.le_add_left f2 f1)
        · cases o with
          | normal s' => exact hend.elim
          | undefined s' => exact hend.elim
          | jumped b val s' =>
            obtain ⟨hv, k, above, hk, hb, hab⟩ := hend
            refine ⟨hv, k, above ++ [.Finally (some c)], by simp [hk], hb, ?_⟩
            intro k' hk'
            rcases List.mem_append.1 hk' with h1 | h1
            · exact hab k' h1
            · simp at h1
          | panicked msg s' =>
            rcases hend with ⟨hm, he⟩ | ⟨hm, above, hk⟩
            · exact Or.inl ⟨hm, he⟩
            · exact Or.inr ⟨hm, above ++ [.Finally (some c)], by simp [hk]⟩

theorem terminates_of_plain (env : Env) (c : Code) (hc : c.plain = true) : Terminates env c :=
  fun s => ⟨c.cost, _, run_plain env c hc s, rfl⟩

/-- C12 (throw never returns and always finishes). On every handler stack
whose bound cleanups terminate and leave the stack as they found it,
`exc_throw v` finishes: with enough fuel it produces an outcome, which is
never a return to the caller.  The stack it leaves is the entry stack with
the records `popped` removed from the top, so it pops at most as many
records as the stack held; and it ends either in a jump to the topmost
catch record or in the fatal escape.  That it never returns holds for
arbitrary cleanups as well. -/
theorem throw_finishes (env : Env) (v : Int) (s : Tls)
    (hcl : ∀ c, exc_handler_t.Finally (some c) ∈ s.exc_stack → Terminates env c) :
    (∃ fuel o, (∀ m, fuel ≤ m → exc_throw m env v s = some o) ∧
      o.isNormal = false ∧
      (∃ popped, s.exc_stack = o.tls.exc_stack ++ popped ∧
        popped.length ≤ s.exc_stack.length) ∧
      Ends s.exc_stack o) ∧
    (∀ n o, Fresh s → exc_throw n env v s = some o → o.isNormal = false) := by
  constructor
  · obtain ⟨f, o, hloop, ⟨popped, hpop⟩, hend⟩ :=
      loop_finishes env s.exc_stack { s with exc_val := v } rfl hcl
    refine ⟨f + 1, o, fun m hm => ?_, ?_, ⟨popped, hpop, ?_⟩, hend⟩
    · obtain ⟨n, rfl⟩ : ∃ n, m = n + 1 := ⟨m - 1, by omega⟩
      rw [exc_throw]
      exact hloop n (by omega)
    · cases o with
      | normal s' => exact hend.elim
      | _ => rfl
    · have := congrArg List.length hpop
      simp only [List.length_append] at this
      omega
  · intro n o hs h
    exact ((discipline n).2.2.2.2.1 env v s o hs h).2

/-- C12 on `stack12`: the unwinder runs the two cleanups and jumps to the
catch record; the unbound record below is not reached. -/
theorem throw_finishes_witness :
    (∃ fuel o, (∀ m, fuel ≤ m →
        exc_throw m env0 4 { Tls.init with exc_stack := stack12 } = some o) ∧
      o.isNormal = false ∧
      (∃ popped, stack12 = o.tls.exc_stack ++ popped ∧ popped.length ≤ stack12.length) ∧
      Ends stack12 o) ∧
    (∀ n o, Fresh { Tls.init with exc_stack := stack12 } →
      exc_throw n env0 4 { Tls.init with exc_stack := stack12 } = some o →
      o.isNormal = false) :=
  throw_finishes env0 4 { Tls.init with exc_stack := stack12 } (by
    intro c hc
    have : c = .emit 2 ∨ c = .emit 1 := by simpa [stack12, Tls.init] using hc
    rcases this with rfl | rfl
    · exact terminates_of_plain env0 _ rfl
    · exact terminates_of_plain env0 _ rfl)

/-! ## The two returns of `SETJMP` in `try_catch` -/

theorem jumpsCarryOne (n : Nat) : JumpsCarryOne n := by
  induction n with
  | zero =>
    refine ⟨?_, ?_, ?_, ?_, ?_, ?_⟩ <;> intros <;> simp_all [run, try_finally, try_catch,
      try_catch_after, exc_throw, exc_throw_loop]
  | succ n ih =>
    obtain ⟨hrun, hfin, hcatch, hafter, hthrow, hloop⟩ := ih
    refine ⟨?_, ?_, ?_, ?_, ?_, ?_⟩
    · intro env c s o h
      cases c with
      | skip =>
        simp only [run, Option.some.injEq] at h
        subst h; trivial
      | emit t =>
        simp only [run, Option.some.injEq] at h
        subst h; trivial
      | seq a b =>
        rw [run] at h
        cases ha : run n env a s with
        | none => simp [ha] at h
        | some oa =>
          have h1 := hrun _ _ _ _ ha
          rw [ha] at h
          cases oa with
          | normal s1 => exact hrun _ _ _ _ h
          | jumped b1 v1 s1 => simp only [Option.some.injEq] at h; subst h; exact h1
          | panicked m s1 => simp only [Option.some.injEq] at h; subst h; exact h1
          | undefined s1 => simp only [Option.some.injEq] at h; subst h; exact h1
      | tryFinally b f => rw [run] at h; exact hfin _ _ _ _ _ h
      | tryFinallyEmpty b => rw [run] at h; exact hfin _ _ _ _ _ h
      | tryCatch cap b hd => rw [run] at h; exact hcatch _ _ _ _ _ _ h
      | throw v => rw [run] at h; exact hthrow _ _ _ _ h
    · intro env b f s o h
      rw [try_finally] at h
      cases hb : run n env b ((s.push_back (.Finally f)).log .callBlock) with
      | none => simp [hb] at h
      | some ob =>
        have h1 := hrun _ _ _ _ hb
        rw [hb] at h
        cases ob with
        | normal s1 =>
          simp only at h
          split at h <;> (simp only [Option.some.injEq] at h; subst h; trivial)
        | jumped b1 v1 s1 => simp only [Option.some.injEq] at h; subst h; exact h1
        | panicked m s1 => simp only [Option.some.injEq] at h; subst h; exact h1
        | undefined s1 => simp only [Option.some.injEq] at h; subst h; exact h1
    · intro env cap b hd s o h
      rw [try_catch] at h
      exact hafter _ _ _ _ _ _ _ _ h
    · intro env r j cap b hd s o h
      rw [try_catch_after] at h
      by_cases hr : r > 0
      · simp only [hr, if_true] at h
        cases hf : s.exc_catch_handler with
        | none =>
          simp only [hf, Option.some.injEq] at h
          subst h; trivial
        | some f =>
          simp only [hf] at h
          cases hb : run n env (env f s.exc_val s.exc_catch_captures)
              (s.log (.callHandler f s.exc_val s.exc_catch_captures)) with
          | none => simp [hb] at h
          | some ob =>
            have h1 := hrun _ _ _ _ hb
            rw [hb] at h
            cases ob with
            | jumped b1 v1 s1 =>
              simp only at h
              by_cases hbj : b1 = j
              · simp only [hbj, if_true] at h
                exact hafter _ _ _ _ _ _ _ _ h
              · simp only [hbj, if_false, Option.some.injEq] at h
                subst h; exact h1
            | normal s1 => simp only [Option.some.injEq] at h; subst h; exact h1
            | panicked m s1 => simp only [Option.some.injEq] at h; subst h; exact h1
            | undefined s1 => simp only [Option.some.injEq] at h; subst h; exact h1
      · simp only [hr, if_false] at h
        cases hb : run n env b
            ((s.push_back (.Catch { buf := j, body := hd, captures := cap })).log .callBlock) with
        | none => simp [hb] at h
        | some ob =>
          have h1 := hrun _ _ _ _ hb
          rw [hb] at h
          cases ob with
          | jumped b1 v1 s1 =>
            simp only at h
            by_cases hbj : b1 = j
            · simp only [hbj, if_true] at h
              exact hafter _ _ _ _ _ _ _ _ h
            · simp only [hbj, if_false, Option.some.injEq] at h
              subst h; exact h1
          | normal s1 =>
            simp only at h
            split at h <;> (simp only [Option.some.injEq] at h; subst h; trivial)
          | panicked m s1 => simp only [Option.some.injEq] at h; subst h; exact h1
          | undefined s1 => simp only [Option.some.injEq] at h; subst h; exact h1
    · intro env v s o h
      rw [exc_throw] at h
      exact hloop _ _ _ h
    · intro env s o h
      rw [exc_throw_loop] at h
      cases hl : s.exc_stack.getLast? with
      | none =>
        simp only [hl, Option.some.injEq] at h
        subst h; trivial
      | some hd =>
        simp only [hl] at h
        cases hd with
        | Catch c =>
          simp only [Option.some.injEq] at h
          subst h; exact rfl
        | Finally f =>
          cases f with
          | none =>
            simp only [Option.some.injEq] at h
            subst h; trivial
          | some fin =>
            simp only at h
            cases hb : run n env fin (s.pop_back.log (.callFinally fin)) with
            | none => simp [hb] at h
            | some ob =>
              have h1 := hrun _ _ _ _ hb
              rw [hb] at h
              cases ob with
              | normal s2 => exact hloop _ _ _ h
              | jumped b1 v1 s1 => simp only [Option.some.injEq] at h; subst h; exact h1
              | panicked m s1 => simp only [Option.some.injEq] at h; subst h; exact h1
              | undefined s1 => simp only [Option.some.injEq] at h; subst h; exact h1

/-- The values `SETJMP` returns in `try_catch` are 0 and 1. -/
theorem setjmpReturns_cases (env : Env) (r : Int) (h : SetjmpReturns env r) : r = 0 ∨ r = 1 := by
  rcases h with h | ⟨fuel, code, s, b, s', h⟩
  · exact Or.inl h
  · exact Or.inr ((jumpsCarryOne fuel).1 env code s _ h)

/-- The value 1 is returned: a fault thrown under a catch record ends in a
jump that carries it. -/
theorem setjmpReturns_one (env : Env) : SetjmpReturns env 1 :=
  Or.inr ⟨3, .throw 0, { Tls.init with exc_stack := [.Catch ⟨0, 0, 0⟩] }, 0, _, rfl⟩

/-- C19 (`try_catch` takes the handler path on every resumed return).  The
values `SETJMP(jump)` returns inside `try_catch` are 0, with which the body is
entered at the call, and the value carried by a jump of the engine on a
resumed return, which is always 1.  For every nonzero value among them (the
test in the code is `SETJMP(jump) > 0`, which tells 0 and 1 apart as `!= 0`
does), with a handler stored in the context that returns when called with
the stored fault value and captured argument: `try_catch` calls that handler
first, on the stack it was resumed on (no record is pushed), and returns what
the handler returns; whatever the block is, it is not called.  For the value
0, `try_catch` pushes the catch record, calls the block and, when the block
returns, pops. -/
theorem resumed_takes_handler_path (env : Env) (j cap h f : Nat) (block : Code)
    (s s1 s4 : Tls) (n1 n2 : Nat)
    (hf : s.exc_catch_handler = some f)
    (hhandler : run n2 env (env f s.exc_val s.exc_catch_captures)
        (s.log (.callHandler f s.exc_val s.exc_catch_captures)) = some (.normal s4))
    (hblock : run n1 env block
        ((s.push_back (.Catch { buf := j, body := h, captures := cap })).log .callBlock)
        = some (.normal s1))
    (hne : s1.exc_stack ≠ []) :
    (∀ r, SetjmpReturns env r → r = 0 ∨ r = 1) ∧
      SetjmpReturns env 0 ∧ SetjmpReturns env 1 ∧
      (∀ (m : Nat) (t : Tls), try_catch (m + 1) env cap block h t
        = try_catch_after m env 0 t.nextBuf cap block h { t with nextBuf := t.nextBuf + 1 }) ∧
      (∀ (r : Int) (b : Code) (m : Nat), SetjmpReturns env r → r ≠ 0 → n2 + 1 ≤ m →
        try_catch_after m env r j cap b h s = some (.normal s4)) ∧
      (∀ (r : Int) (b : Code) (m : Nat), r > 0 → n2 + 1 ≤ m →
        try_catch_after m env r j cap b h s = some (.normal s4)) ∧
      (s.log (.callHandler f s.exc_val s.exc_catch_captures)).exc_stack = s.exc_stack ∧
      s.trace ++ [.callHandler f s.exc_val s.exc_catch_captures] <+: s4.trace ∧
      (∀ (m : Nat), n1 + 1 ≤ m →
        try_catch_after m env 0 j cap block h s = some (.normal s1.pop_back)) ∧
      s.trace ++ [.callBlock] <+: s1.trace ∧
      ((s.push_back (.Catch { buf := j, body := h, captures := cap })).log .callBlock).exc_stack
        = s.exc_stack ++ [.Catch { buf := j, body := h, captures := cap }] := by
  have pos : ∀ (r : Int) (b : Code) (m : Nat), r > 0 → n2 + 1 ≤ m →
      try_catch_after m env r j cap b h s = some (.normal s4) := by
    intro r b m hr hm
    refine try_catch_after_mono hm ?_
    rw [try_catch_after_resumed env n2 r hr j cap b h s f hf, hhandler]
  refine ⟨setjmpReturns_cases env, Or.inl rfl, setjmpReturns_one env, fun m t => ?_,
    fun r b m hr hn hm => ?_, pos, rfl, (traceGrows n2).1 _ _ _ _ hhandler,
    fun m hm => try_catch_after_mono hm ?_, (traceGrows n1).1 _ _ _ _ hblock, rfl⟩
  · rw [try_catch]
  · rcases setjmpReturns_cases env r hr with h0 | h1
    · exact absurd h0 hn
    · exact pos r b m (by omega) hm
  · rw [try_catch_after_first, hblock]
    simp only [hne, if_false]

/-- C19, in `entry19` with the block `emit 1`: resumed with a nonzero value,
`try_catch` calls the stored handler 3 with the stored `(7, 5)` and returns,
whatever the block; entered with 0 it pushes, calls the block and pops. -/
theorem resumed_takes_handler_path_witness :
    (∀ (r : Int) (b : Code) (m : Nat), SetjmpReturns env0 r → r ≠ 0 → 3 + 1 ≤ m →
        try_catch_after m env0 r 0 5 b 3 entry19
          = some (.normal { entry19 with trace := [.callHandler 3 7 5, .emit 7, .emit 5] })) ∧
      (∀ (m : Nat), 1 + 1 ≤ m →
        try_catch_after m env0 0 0 5 (.emit 1) 3 entry19
          = some (.normal (Tls.pop_back { entry19 with
              exc_stack := [.Catch { buf := 0, body := 3, captures := 5 }],
              trace := [.callBlock, .emit 1] }))) :=
  have H := resumed_takes_handler_path env0 0 5 3 3 (.emit 1) entry19
    { entry19 with exc_stack := [.Catch { buf := 0, body := 3, captures := 5 }],
                   trace := [.callBlock, .emit 1] }
    { entry19 with trace := [.callHandler 3 7 5, .emit 7, .emit 5] } 1 3
    rfl (by decide) (by decide) (by decide)
  ⟨H.2.2.2.2.1, H.2.2.2.2.2.2.2.2.1⟩

/-- C20, the claim refuted at a block that throws and catches a fault of its
own: the block returns normally and leaves the handler stack as it found
it, yet after `try_catch(5, block20, 3)` the pending fault value is 9 (it was
0) and the dispatch fields name the block's handler 1 (none was stored). -/
theorem block_changes_pending_fault :
    run 8 env0 block20 (Tls.init.entered 5 3) = some (.normal afterBlock20) ∧
      afterBlock20.exc_stack = (Tls.init.entered 5 3).exc_stack ∧
      try_catch 10 env0 5 block20 3 Tls.init = some (.normal afterBlock20.pop_back) ∧
      afterBlock20.pop_back.exc_val = 9 ∧ Tls.init.exc_val = 0 ∧
      afterBlock20.pop_back.exc_catch_handler = some 1 ∧
      Tls.init.exc_catch_handler = none := by
  decide

/-- C20 as amended (`try_catch`, normal path).  For every block function and
every `cap`, `try_catch(cap, block, h)` calls the block once, with the argument
`cap` (the code run is `block cap`, so only what the block does for `cap`
matters, and a block that emits its argument emits `cap`), in the context in
which the catch record holding `(h, cap)` has just been pushed and is on top
of the stack, having written neither the pending fault value nor the
dispatch fields.  When the block returns normally with the stack as it found
it, `try_catch` pops that record and returns: nothing happens after the
block, so `h` is not called by `try_catch`, and the pending fault value and
the dispatch fields are as the block left them, hence unchanged when the
block leaves them unchanged. -/
theorem try_catch_normal_path (env : Env) (cap h : Nat) (block : Nat → Code) (s s1 : Tls)
    (n : Nat)
    (hblock : run n env (block cap) (s.entered cap h) = some (.normal s1))
    (hstk : s1.exc_stack = (s.entered cap h).exc_stack) :
    (s.entered cap h).exc_stack
        = s.exc_stack ++ [.Catch { buf := s.nextBuf, body := h, captures := cap }] ∧
      (s.entered cap h).trace = s.trace ++ [.callBlock] ∧
      (s.entered cap h).exc_val = s.exc_val ∧
      (s.entered cap h).exc_catch_handler = s.exc_catch_handler ∧
      (s.entered cap h).exc_catch_captures = s.exc_catch_captures ∧
      (∀ m, n + 2 ≤ m → try_catch_fn m env cap block h s = some (.normal s1.pop_back)) ∧
      (∀ (block2 : Nat → Code) (m : Nat), block2 cap = block cap →
        try_catch_fn m env cap block2 h s = try_catch_fn m env cap block h s) ∧
      (∀ m, 3 ≤ m → try_catch_fn m env cap (fun c => .emit c) h s
        = some (.normal { s with nextBuf := s.nextBuf + 1,
                                 trace := s.trace ++ [.callBlock, .emit cap] })) ∧
      s1.exc_stack.getLast? = some (.Catch { buf := s.nextBuf, body := h, captures := cap }) ∧
      s1.pop_back.exc_stack = s.exc_stack ∧
      s1.pop_back.trace = s1.trace ∧
      s1.pop_back.exc_val = s1.exc_val ∧
      s1.pop_back.exc_catch_handler = s1.exc_catch_handler ∧
      s1.pop_back.exc_catch_captures = s1.exc_catch_captures ∧
      (s1.exc_val = s.exc_val → s1.exc_catch_handler = s.exc_catch_handler →
        s1.exc_catch_captures = s.exc_catch_captures →
        s1.pop_back.exc_val = s.exc_val ∧
        s1.pop_back.exc_catch_handler = s.exc_catch_handler ∧
        s1.pop_back.exc_catch_captures = s.exc_catch_captures) := by
  have hstk' : s1.exc_stack
      = s.exc_stack ++ [.Catch { buf := s.nextBuf, body := h, captures := cap }] := hstk
  have hne : s1.exc_stack ≠ [] := by rw [hstk']; simp
  refine ⟨rfl, rfl, rfl, rfl, rfl, fun m hm => try_catch_mono hm ?_, ?_, ?_, ?_, ?_,
    rfl, rfl, rfl, rfl, fun h1 h2 h3 => ⟨h1, h2, h3⟩⟩
  · show try_catch (n + 2) env cap (block cap) h s = _
    rw [try_catch_unfold, hblock]
    simp [hne]
  · intro block2 m e
    unfold try_catch_fn
    rw [e]
  · intro m hm
    refine try_catch_mono hm ?_
    show try_catch (1 + 2) env cap (.emit cap) h s = _
    rw [try_catch_unfold]
    simp [run, Tls.entered, Tls.log, Tls.push_back, Tls.pop_back]
  · rw [hstk', getLast?_snoc]
  · simp [Tls.pop_back, hstk']

/-- C20 as amended, at the block that emits its argument, called with 6 in
`entry19`: the block emits 6, and the stored fault value 7 and the dispatch
fields `(3, 5)` are still there at return. -/
theorem try_catch_normal_path_witness :
    (∀ m, 1 + 2 ≤ m → try_catch_fn m env0 6 (fun c => .emit c) 2 entry19
        = some (.normal (Tls.pop_back { entry19 with
            exc_stack := [.Catch { buf := 1, body := 2, captures := 6 }],
            trace := [.callBlock, .emit 6], nextBuf := 2 }))) ∧
      (Tls.pop_back { entry19 with
            exc_stack := [.Catch { buf := 1, body := 2, captures := 6 }],
            trace := [.callBlock, .emit 6], nextBuf := 2 }).exc_val = entry19.exc_val ∧
      (Tls.pop_back { entry19 with
            exc_stack := [.Catch { buf := 1, body := 2, captures := 6 }],
            trace := [.callBlock, .emit 6], nextBuf := 2 }).exc_catch_handler
        = entry19.exc_catch_handler :=
  have H := try_catch_normal_path env0 6 2 (fun c => .emit c) entry19
    { entry19 with exc_stack := [.Catch { buf := 1, body := 2, captures := 6 }],
                   trace := [.callBlock, .emit 6], nextBuf := 2 } 1 (by decide) rfl
  ⟨H.2.2.2.2.2.1, (H.2.2.2.2.2.2.2.2.2.2.2.2.2.2 rfl rfl rfl).1,
    (H.2.2.2.2.2.2.2.2.2.2.2.2.2.2 rfl rfl rfl).2.1⟩

/-! ## The hand-written ARM64 save and resume routines -/

theorem longjmp_x0 (m : Arm64) :
    (ryujit_longjmp m).x 0 = if m.x 1 % 2 ^ 32 = 0 then 1 else m.x 1 := by
  by_cases h : m.x 1 % 2 ^ 32 = 0
  · have h' : m.x 1 % 4294967296 = 0 := by simpa using h
    simp [ryujit_longjmp, h', Arm64.ldp, Arm64.ldr, Arm64.setX]
  · have h' : ¬ m.x 1 % 4294967296 = 0 := by simpa using h
    simp [ryujit_longjmp, h', Arm64.ldp, Arm64.ldr, Arm64.setX]

/-- C13 (resume value coercion). For every 32-bit integer `val` (the `int`
that `w1` holds, whatever the upper half of `x1` is), the value the resumed save
returns after `ryujit_longjmp(buf, val)` is `val` when `val ≠ 0` and 1 when
`val = 0`; it is never 0. -/
theorem resume_value_coercion (m : Arm64) (val : Int) (hw1 : toInt32 (m.x 1) = val) :
    (ryujit_longjmp m).returned = (if val = 0 then 1 else val) ∧
      (ryujit_longjmp m).returned ≠ 0 := by
  have hx := longjmp_x0 m
  have hzero : val = 0 ↔ m.x 1 % 2 ^ 32 = 0 := by
    rw [← hw1, toInt32]
    split <;> omega
  by_cases h : m.x 1 % 2 ^ 32 = 0
  · have hv : val = 0 := hzero.2 h
    rw [Arm64.returned, hx, if_pos h, if_pos hv]
    exact ⟨by decide, by decide⟩
  · have hv : val ≠ 0 := fun e => h (hzero.1 e)
    rw [Arm64.returned, hx, if_neg h, if_neg hv, hw1]
    exact ⟨rfl, hv⟩

/-- C13 at `val = -5` with a nonzero upper half of `x1`, and at `val = 0`. -/
theorem resume_value_coercion_witness :
    ((ryujit_longjmp (machine13 (7 * 2 ^ 32 + (2 ^ 32 - 5)))).returned
        = (if (-5 : Int) = 0 then 1 else -5) ∧
      (ryujit_longjmp (machine13 (7 * 2 ^ 32 + (2 ^ 32 - 5)))).returned ≠ 0) ∧
    ((ryujit_longjmp (machine13 0)).returned = (if (0 : Int) = 0 then 1 else 0) ∧
      (ryujit_longjmp (machine13 0)).returned ≠ 0) :=
  ⟨resume_value_coercion (machine13 (7 * 2 ^ 32 + (2 ^ 32 - 5))) (-5) (by decide),
    resume_value_coercion (machine13 0) 0 (by decide)⟩

/-- The memory `ryujit_setjmp` leaves, store by store (the last store first). -/
theorem setjmp_mem (m : Arm64) :
    (ryujit_setjmp m).mem = fun a =>
      if a = (m.x 0 + 88 + 8) % 2 ^ 64 then m.x 30
      else if a = (m.x 0 + 88) % 2 ^ 64 then m.x 29
      else if a = (m.x 0 + 72 + 8) % 2 ^ 64 then m.x 28
      else if a = (m.x 0 + 72) % 2 ^ 64 then m.x 27
      else if a = (m.x 0 + 56 + 8) % 2 ^ 64 then m.x 26
      else if a = (m.x 0 + 56) % 2 ^ 64 then m.x 25
      else if a = (m.x 0 + 40 + 8) % 2 ^ 64 then m.x 24
      else if a = (m.x 0 + 40) % 2 ^ 64 then m.x 23
      else if a = (m.x 0 + 24 + 8) % 2 ^ 64 then m.x 22
      else if a = (m.x 0 + 24) % 2 ^ 64 then m.x 21
      else if a = (m.x 0 + 8 + 8) % 2 ^ 64 then m.x 20
      else if a = (m.x 0 + 8) % 2 ^ 64 then m.x 19
      else if a = (m.x 0 + 0) % 2 ^ 64 then m.sp
      else m.mem a := rfl

theorem setjmp_buf_0 (m : Arm64) : (ryujit_setjmp m).mem (bufWord (m.x 0) 0) = m.sp := by
  rw [setjmp_mem]
  show (if bufWord (m.x 0) 0 = _ then _ else _) = _
  unfold bufWord
  rw [if_neg (show ¬ ((m.x 0 + 8 * 0) % 2 ^ 64 = (m.x 0 + 88 + 8) % 2 ^ 64) from by omega)]
  rw [if_neg (show ¬ ((m.x 0 + 8 * 0) % 2 ^ 64 = (m.x 0 + 88) % 2 ^ 64) from by omega)]
  rw [if_neg (show ¬ ((m.x 0 + 8 * 0) % 2 ^ 64 = (m.x 0 + 72 + 8) % 2 ^ 64) from by omega)]
  rw [if_neg (show ¬ ((m.x 0 + 8 * 0) % 2 ^ 64 = (m.x 0 + 72) % 2 ^ 64) from by omega)]
  rw [if_neg (show ¬ ((m.x 0 + 8 * 0) % 2 ^ 64 = (m.x 0 + 56 + 8) % 2 ^ 64) from by omega)]
  rw [if_neg (show ¬ ((m.x 0 + 8 * 0) % 2 ^ 64 = (m.x 0 + 56) % 2 ^ 64) from by omega)]
  rw [if_neg (show ¬ ((m.x 0 + 8 * 0) % 2 ^ 64 = (m.x 0 + 40 + 8) % 2 ^ 64) from by omega)]
  rw [if_neg (show ¬ ((m.x 0 + 8 * 0) % 2 ^ 64 = (m.x 0 + 40) % 2 ^ 64) from by omega)]
  rw [if_neg (show ¬ ((m.x 0 + 8 * 0) % 2 ^ 64 = (m.x 0 + 24 + 8) % 2 ^ 64) from by omega)]
  rw [if_neg (show ¬ ((m.x 0 + 8 * 0) % 2 ^ 64 = (m.x 0 + 24) % 2 ^ 64) from by omega)]
  rw [if_neg (show ¬ ((m.x 0 + 8 * 0) % 2 ^ 64 = (m.x 0 + 8 + 8) % 2 ^ 64) from by omega)]
  rw [if_neg (show ¬ ((m.x 0 + 8 * 0) % 2 ^ 64 = (m.x 0 + 8) % 2 ^ 64) from by omega)]
  rw [if_pos (show (m.x 0 + 8 * 0) % 2 ^ 64 = (m.x 0 + 0) % 2 ^ 64 from by omega)]

theorem setjmp_buf_1 (m : Arm64) : (ryujit_setjmp m).mem (bufWord (m.x 0) 1) = m.x 19 := by
  rw [setjmp_mem]
  show (if bufWord (m.x 0) 1 = _ then _ else _) = _
  unfold bufWord
  rw [if_neg (show ¬ ((m.x 0 + 8 * 1) % 2 ^ 64 = (m.x 0 + 88 + 8) % 2 ^ 64) from by omega)]
  rw [if_neg (show ¬ ((m.x 0 + 8 * 1) % 2 ^ 64 = (m.x 0 + 88) % 2 ^ 64) from by omega)]
  rw [if_neg (show ¬ ((m.x 0 + 8 * 1) % 2 ^ 64 = (m.x 0 + 72 + 8) % 2 ^ 64) from by omega)]
  rw [if_neg (show ¬ ((m.x 0 + 8 * 1) % 2 ^ 64 = (m.x 0 + 72) % 2 ^ 64) from by omega)]
  rw [if_neg (show ¬ ((m.x 0 + 8 * 1) % 2 ^ 64 = (m.x 0 + 56 + 8) % 2 ^ 64) from by omega)]
  rw [if_neg (show ¬ ((m.x 0 + 8 * 1) % 2 ^ 64 = (m.x 0 + 56) % 2 ^ 64) from by omega)]
  rw [if_neg (show ¬ ((m.x 0 + 8 * 1) % 2 ^ 64 = (m.x 0 + 40 + 8) % 2 ^ 64) from by omega)]
  rw [if_neg (show ¬ ((m.x 0 + 8 * 1) % 2 ^ 64 = (m.x 0 + 40) % 2 ^ 64) from by omega)]
  rw [if_neg (show ¬ ((m.x 0 + 8 * 1) % 2 ^ 64 = (m.x 0 + 24 + 8) % 2 ^ 64) from by omega)]
  rw [if_neg (show ¬ ((m.x 0 + 8 * 1) % 2 ^ 64 = (m.x 0 + 24) % 2 ^ 64) from by omega)]
  rw [if_neg (show ¬ ((m.x 0 + 8 * 1) % 2 ^ 64 = (m.x 0 + 8 + 8) % 2 ^ 64) from by omega)]
  rw [if_pos (show (m.x 0 + 8 * 1) % 2 ^ 64 = (m.x 0 + 8) % 2 ^ 64 from by omega)]

theorem setjmp_buf_2 (m : Arm64) : (ryujit_setjmp m).mem (bufWord (m.x 0) 2) = m.x 20 := by
  rw [setjmp_mem]
  show (if bufWord (m.x 0) 2 = _ then _ else _) = _
  unfold bufWord
  rw [if_neg (show ¬ ((m.x 0 + 8 * 2) % 2 ^ 64 = (m.x 0 + 88 + 8) % 2 ^ 64) from by omega)]
  rw [if_neg (show ¬ ((m.x 0 + 8 * 2) % 2 ^ 64 = (m.x 0 + 88) % 2 ^ 64) from by omega)]
  rw [if_neg (show ¬ ((m.x 0 + 8 * 2) % 2 ^ 64 = (m.x 0 + 72 + 8) % 2 ^ 64) from by omega)]
  rw [if_neg (show ¬ ((m.x 0 + 8 * 2) % 2 ^ 64 = (m.x 0 + 72) % 2 ^ 64) from by omega)]
  rw [if_neg (show ¬ ((m.x 0 + 8 * 2) % 2 ^ 64 = (m.x 0 + 56 + 8) % 2 ^ 64) from by omega)]
  rw [if_neg (show ¬ ((m.x 0 + 8 * 2) % 2 ^ 64 = (m.x 0 + 56) % 2 ^ 64) from by omega)]
  rw [if_neg (show ¬ ((m.x 0 + 8 * 2) % 2 ^ 64 = (m.x 0 + 40 + 8) % 2 ^ 64) from by omega)]
  rw [if_neg (show ¬ ((m.x 0 + 8 * 2) % 2 ^ 64 = (m.x 0 + 40) % 2 ^ 64) from by omega)]
  rw [if_neg (show ¬ ((m.x 0 + 8 * 2) % 2 ^ 64 = (m.x 0 + 24 + 8) % 2 ^ 64) from by omega)]
  rw [if_neg (show ¬ ((m.x 0 + 8 * 2) % 2 ^ 64 = (m.x 0 + 24) % 2 ^ 64) from by omega)]
  rw [if_pos (show (m.x 0 + 8 * 2) % 2 ^ 64 = (m.x 0 + 8 + 8) % 2 ^ 64 from by omega)]

theorem setjmp_buf_3 (m : Arm64) : (ryujit_setjmp m).mem (bufWord (m.x 0) 3) = m.x 21 := by
  rw [setjmp_mem]
  show (if bufWord (m.x 0) 3 = _ then _ else _) = _
  unfold bufWord
  rw [if_neg (show ¬ ((m.x 0 + 8 * 3) % 2 ^ 64 = (m.x 0 + 88 + 8) % 2 ^ 64) from by omega)]
  rw [if_neg (show ¬ ((m.x 0 + 8 * 3) % 2 ^ 64 = (m.x 0 + 88) % 2 ^ 64) from by omega)]
  rw [if_neg (show ¬ ((m.x 0 + 8 * 3) % 2 ^ 64 = (m.x 0 + 72 + 8) % 2 ^ 64) from by omega)]
  rw [if_neg (show ¬ ((m.x 0 + 8 * 3) % 2 ^ 64 = (m.x 0 + 72) % 2 ^ 64) from by omega)]
  rw [if_neg (show ¬ ((m.x 0 + 8 * 3) % 2 ^ 64 = (m.x 0 + 56 + 8) % 2 ^ 64) from by omega)]
  rw [if_neg (show ¬ ((m.x 0 + 8 * 3) % 2 ^ 64 = (m.x 0 + 56) % 2 ^ 64) from by omega)]
  rw [if_neg (show ¬ ((m.x 0 + 8 * 3) % 2 ^ 64 = (m.x 0 + 40 + 8) % 2 ^ 64) from by omega)]
  rw [if_neg (show ¬ ((m.x 0 + 8 * 3) % 2 ^ 64 = (m.x 0 + 40) % 2 ^ 64) from by omega)]
  rw [if_neg (show ¬ ((m.x 0 + 8 * 3) % 2 ^ 64 = (m.x 0 + 24 + 8) % 2 ^ 64) from by omega)]
  rw [if_pos (show (m.x 0 + 8 * 3) % 2 ^ 64 = (m.x 0 + 24) % 2 ^ 64 from by omega)]

theorem setjmp_buf_4 (m : Arm64) : (ryujit_setjmp m).mem (bufWord (m.x 0) 4) = m.x 22 := by
  rw [setjmp_mem]
  show (if bufWord (m.x 0) 4 = _ then _ else _) = _
  unfold bufWord
  rw [if_neg (show ¬ ((m.x 0 + 8 * 4) % 2 ^ 64 = (m.x 0 + 88 + 8) % 2 ^ 64) from by omega)]
  rw [if_neg (show ¬ ((m.x 0 + 8 * 4) % 2 ^ 64 = (m.x 0 + 88) % 2 ^ 64) from by omega)]
  rw [if_neg (show ¬ ((m.x 0 + 8 * 4) % 2 ^ 64 = (m.x 0 + 72 + 8) % 2 ^ 64) from by omega)]
  rw [if_neg (show ¬ ((m.x 0 + 8 * 4) % 2 ^ 64 = (m.x 0 + 72) % 2 ^ 64) from by omega)]
  rw [if_neg (show ¬ ((m.x 0 + 8 * 4) % 2 ^ 64 = (m.x 0 + 56 + 8) % 2 ^ 64) from by omega)]
  rw [if_neg (show ¬ ((m.x 0 + 8 * 4) % 2 ^ 64 = (m.x 0 + 56) % 2 ^ 64) from by omega)]
  rw [if_neg (show ¬ ((m.x 0 + 8 * 4) % 2 ^ 64 = (m.x 0 + 40 + 8) % 2 ^ 64) from by omega)]
  rw [if_neg (show ¬ ((m.x 0 + 8 * 4) % 2 ^ 64 = (m.x 0 + 40) % 2 ^ 64) from by omega)]
  rw [if_pos (show (m.x 0 + 8 * 4) % 2 ^ 64 = (m.x 0 + 24 + 8) % 2 ^ 64 from by omega)]

theorem setjmp_buf_5 (m : Arm64) : (ryujit_setjmp m).mem (bufWord (m.x 0) 5) = m.x 23 := by
  rw [setjmp_mem]
  show (if bufWord (m.x 0) 5 = _ then _ else _) = _
  unfold bufWord
  rw [if_neg (show ¬ ((m.x 0 + 8 * 5) % 2 ^ 64 = (m.x 0 + 88 + 8) % 2 ^ 64) from by omega)]
  rw [if_neg (show ¬ ((m.x 0 + 8 * 5) % 2 ^ 64 = (m.x 0 + 88) % 2 ^ 64) from by omega)]
  rw [if_neg (show ¬ ((m.x 0 + 8 * 5) % 2 ^ 64 = (m.x 0 + 72 + 8) % 2 ^ 64) from by omega)]
  rw [if_neg (show ¬ ((m.x 0 + 8 * 5) % 2 ^ 64 = (m.x 0 + 72) % 2 ^ 64) from by omega)]
  rw [if_neg (show ¬ ((m.x 0 + 8 * 5) % 2 ^ 64 = (m.x 0 + 56 + 8) % 2 ^ 64) from by omega)]
  rw [if_neg (show ¬ ((m.x 0 + 8 * 5) % 2 ^ 64 = (m.x 0 + 56) % 2 ^ 64) from by omega)]
  rw [if_neg (show ¬ ((m.x 0 + 8 * 5) % 2 ^ 64 = (m.x 0 + 40 + 8) % 2 ^ 64) from by omega)]
  rw [if_pos (show (m.x 0 + 8 * 5) % 2 ^ 64 = (m.x 0 + 40) % 2 ^ 64 from by omega)]

theorem setjmp_buf_6 (m : Arm64) : (ryujit_setjmp m).mem (bufWord (m.x 0) 6) = m.x 24 := by
  rw [setjmp_mem]
  show (if bufWord (m.x 0) 6 = _ then _ else _) = _
  unfold bufWord
  rw [if_neg (show ¬ ((m.x 0 + 8 * 6) % 2 ^ 64 = (m.x 0 + 88 + 8) % 2 ^ 64) from by omega)]
  rw [if_neg (show ¬ ((m.x 0 + 8 * 6) % 2 ^ 64 = (m.x 0 + 88) % 2 ^ 64) from by omega)]
  rw [if_neg (show ¬ ((m.x 0 + 8 * 6) % 2 ^ 64 = (m.x 0 + 72 + 8) % 2 ^ 64) from by omega)]
  rw [if_neg (show ¬ ((m.x 0 + 8 * 6) % 2 ^ 64 = (m.x 0 + 72) % 2 ^ 64) from by omega)]
  rw [if_neg (show ¬ ((m.x 0 + 8 * 6) % 2 ^ 64 = (m.x 0 + 56 + 8) % 2 ^ 64) from by omega)]
  rw [if_neg (show ¬ ((m.x 0 + 8 * 6) % 2 ^ 64 = (m.x 0 + 56) % 2 ^ 64) from by omega)]
  rw [if_pos (show (m.x 0 + 8 * 6) % 2 ^ 64 = (m.x 0 + 40 + 8) % 2 ^ 64 from by omega)]

theorem setjmp_buf_7 (m : Arm64) : (ryujit_setjmp m).mem (bufWord (m.x 0) 7) = m.x 25 := by
  rw [setjmp_mem]
  show (if bufWord (m.x 0) 7 = _ then _ else _) = _
  unfold bufWord
  rw [if_neg (show ¬ ((m.x 0 + 8 * 7) % 2 ^ 64 = (m.x 0 + 88 + 8) % 2 ^ 64) from by omega)]
  rw [if_neg (show ¬ ((m.x 0 + 8 * 7) % 2 ^ 64 = (m.x 0 + 88) % 2 ^ 64) from by omega)]
  rw [if_neg (show ¬ ((m.x 0 + 8 * 7) % 2 ^ 64 = (m.x 0 + 72 + 8) % 2 ^ 64) from by omega)]
  rw [if_neg (show ¬ ((m.x 0 + 8 * 7) % 2 ^ 64 = (m.x 0 + 72) % 2 ^ 64) from by omega)]
  rw [if_neg (show ¬ ((m.x 0 + 8 * 7) % 2 ^ 64 = (m.x 0 + 56 + 8) % 2 ^ 64) from by omega)]
  rw [if_pos (show (m.x 0 + 8 * 7) % 2 ^ 64 = (m.x 0 + 56) % 2 ^ 64 from by omega)]

theorem setjmp_buf_8 (m : Arm64) : (ryujit_setjmp m).mem (bufWord (m.x 0) 8) = m.x 26 := by
  rw [setjmp_mem]
  show (if bufWord (m.x 0) 8 = _ then _ else _) = _
  unfold bufWord
  rw [if_neg (show ¬ ((m.x 0 + 8 * 8) % 2 ^ 64 = (m.x 0 + 88 + 8) % 2 ^ 64) from by omega)]
  rw [if_neg (show ¬ ((m.x 0 + 8 * 8) % 2 ^ 64 = (m.x 0 + 88) % 2 ^ 64) from by omega)]
  rw [if_neg (show ¬ ((m.x 0 + 8 * 8) % 2 ^ 64 = (m.x 0 + 72 + 8) % 2 ^ 64) from by omega)]
  rw [if_neg (show ¬ ((m.x 0 + 8 * 8) % 2 ^ 64 = (m.x 0 + 72) % 2 ^ 64) from by omega)]
  rw [if_pos (show (m.x 0 + 8 * 8) % 2 ^ 64 = (m.x 0 + 56 + 8) % 2 ^ 64 from by omega)]

theorem setjmp_buf_9 (m : Arm64) : (ryujit_setjmp m).mem (bufWord (m.x 0) 9) = m.x 27 := by
  rw [setjmp_mem]
  show (if bufWord (m.x 0) 9 = _ then _ else _) = _
  unfold bufWord
  rw [if_neg (show ¬ ((m.x 0 + 8 * 9) % 2 ^ 64 = (m.x 0 + 88 + 8) % 2 ^ 64) from by omega)]
  rw [if_neg (show ¬ ((m.x 0 + 8 * 9) % 2 ^ 64 = (m.x 0 + 88) % 2 ^ 64) from by omega)]
  rw [if_neg (show ¬ ((m.x 0 + 8 * 9) % 2 ^ 64 = (m.x 0 + 72 + 8) % 2 ^ 64) from by omega)]
  rw [if_pos (show (m.x 0 + 8 * 9) % 2 ^ 64 = (m.x 0 + 72) % 2 ^ 64 from by omega)]

theorem setjmp_buf_10 (m : Arm64) : (ryujit_setjmp m).mem (bufWord (m.x 0) 10) = m.x 28 := by
  rw [setjmp_mem]
  show (if bufWord (m.x 0) 10 = _ then _ else _) = _
  unfold bufWord
  rw [if_neg (show ¬ ((m.x 0 + 8 * 10) % 2 ^ 64 = (m.x 0 + 88 + 8) % 2 ^ 64) from by omega)]
  rw [if_neg (show ¬ ((m.x 0 + 8 * 10) % 2 ^ 64 = (m.x 0 + 88) % 2 ^ 64) from by omega)]
  rw [if_pos (show (m.x 0 + 8 * 10) % 2 ^ 64 = (m.x 0 + 72 + 8) % 2 ^ 64 from by omega)]

theorem setjmp_buf_11 (m : Arm64) : (ryujit_setjmp m).mem (bufWord (m.x 0) 11) = m.x 29 := by
  rw [setjmp_mem]
  show (if bufWord (m.x 0) 11 = _ then _ else _) = _
  unfold bufWord
  rw [if_neg (show ¬ ((m.x 0 + 8 * 11) % 2 ^ 64 = (m.x 0 + 88 + 8) % 2 ^ 64) from by omega)]
  rw [if_pos (show (m.x 0 + 8 * 11) % 2 ^ 64 = (m.x 0 + 88) % 2 ^ 64 from by omega)]

theorem setjmp_buf_12 (m : Arm64) : (ryujit_setjmp m).mem (bufWord (m.x 0) 12) = m.x 30 := by
  rw [setjmp_mem]
  show (if bufWord (m.x 0) 12 = _ then _ else _) = _
  unfold bufWord
  rw [if_pos (show (m.x 0 + 8 * 12) % 2 ^ 64 = (m.x 0 + 88 + 8) % 2 ^ 64 from by omega)]

/-- What `ryujit_longjmp` loads: `sp`, `x19`..`x30` and the program counter
come from the thirteen words of the buffer; memory is not written. -/
theorem longjmp_loads (m : Arm64) :
    (ryujit_longjmp m).sp = m.mem (bufWord (m.x 0) 0) ∧
    (ryujit_longjmp m).x 19 = m.mem (bufWord (m.x 0) 1) ∧
    (ryujit_longjmp m).x 20 = m.mem (bufWord (m.x 0) 2) ∧
    (ryujit_longjmp m).x 21 = m.mem (bufWord (m.x 0) 3) ∧
    (ryujit_longjmp m).x 22 = m.mem (bufWord (m.x 0) 4) ∧
    (ryujit_longjmp m).x 23 = m.mem (bufWord (m.x 0) 5) ∧
    (ryujit_longjmp m).x 24 = m.mem (bufWord (m.x 0) 6) ∧
    (ryujit_longjmp m).x 25 = m.mem (bufWord (m.x 0) 7) ∧
    (ryujit_longjmp m).x 26 = m.mem (bufWord (m.x 0) 8) ∧
    (ryujit_longjmp m).x 27 = m.mem (bufWord (m.x 0) 9) ∧
    (ryujit_longjmp m).x 28 = m.mem (bufWord (m.x 0) 10) ∧
    (ryujit_longjmp m).x 29 = m.mem (bufWord (m.x 0) 11) ∧
    (ryujit_longjmp m).x 30 = m.mem (bufWord (m.x 0) 12) ∧
    (ryujit_longjmp m).pc = m.mem (bufWord (m.x 0) 12) ∧
    (ryujit_longjmp m).mem = m.mem := by
  have e : ∀ i, bufWord (m.x 0) i = (m.x 0 + 8 * i) % 2 ^ 64 := fun _ => rfl
  by_cases h : m.x 1 % 2 ^ 32 ≠ 0
  · simp only [ryujit_longjmp, if_pos h, Arm64.ldp, Arm64.ldr, Arm64.setX, e]
    simp
  · simp only [ryujit_longjmp, if_neg h, Arm64.ldp, Arm64.ldr, Arm64.setX, e]
    simp

/-- One resume from a buffer that still holds what `ryujit_setjmp` stored. -/
theorem resume_restores (m0 m : Arm64) (hbuf : m.x 0 = m0.x 0)
    (hmem : ∀ i, i < 13 → m.mem (bufWord (m0.x 0) i) = (ryujit_setjmp m0).mem (bufWord (m0.x 0) i)) :
    (ryujit_longjmp m).sp = m0.sp ∧
      (∀ i, 19 ≤ i → i ≤ 30 → (ryujit_longjmp m).x i = m0.x i) ∧
      (ryujit_longjmp m).pc = m0.x 30 ∧
      (ryujit_longjmp m).mem = m.mem := by
  obtain ⟨l0, l1, l2, l3, l4, l5, l6, l7, l8, l9, l10, l11, l12, lpc, lmem⟩ := longjmp_loads m
  rw [hbuf] at l0 l1 l2 l3 l4 l5 l6 l7 l8 l9 l10 l11 l12 lpc
  refine ⟨?_, ?_, ?_, lmem⟩
  · rw [l0, hmem 0 (by decide), setjmp_buf_0]
  · intro i h1 h2
    interval_cases i
    · rw [l1, hmem 1 (by decide), setjmp_buf_1]
    · rw [l2, hmem 2 (by decide), setjmp_buf_2]
    · rw [l3, hmem 3 (by decide), setjmp_buf_3]
    · rw [l4, hmem 4 (by decide), setjmp_buf_4]
    · rw [l5, hmem 5 (by decide), setjmp_buf_5]
    · rw [l6, hmem 6 (by decide), setjmp_buf_6]
    · rw [l7, hmem 7 (by decide), setjmp_buf_7]
    · rw [l8, hmem 8 (by decide), setjmp_buf_8]
    · rw [l9, hmem 9 (by decide), setjmp_buf_9]
    · rw [l10, hmem 10 (by decide), setjmp_buf_10]
    · rw [l11, hmem 11 (by decide), setjmp_buf_11]
    · rw [l12, hmem 12 (by decide), setjmp_buf_12]
  · rw [lpc, hmem 12 (by decide), setjmp_buf_12]

/-- Repeated resumes leave the buffer as it was, when the code in between
does. -/
theorem resumeMany_mem (b : Nat) (between : Nat → Arm64 → Arm64)
    (hbetween : ∀ k m, ∀ i, i < 13 → (between k m).mem (bufWord b i) = m.mem (bufWord b i))
    (m : Arm64) (k : Nat) :
    ∀ i, i < 13 → (resumeMany between k m).mem (bufWord b i) = m.mem (bufWord b i) := by
  induction k with
  | zero => intro i _; rfl
  | succ k ih =>
    intro i hi
    rw [resumeMany, (longjmp_loads _).2.2.2.2.2.2.2.2.2.2.2.2.2.2, hbetween k _ i hi, ih i hi]

/-- C14 (save/resume round trip). Let `ryujit_setjmp(buf)` run in the register
state `m0` and let `m1` be any later state in which `x0` holds `buf` again
and the thirteen words of `buf` are as the save left them.  After
`ryujit_longjmp(buf, val)` the stack pointer and `x19`..`x30` (the frame
pointer `x29` included) have their values of `m0` and execution continues
at the saved return address `x30`.  `ryujit_longjmp` writes no memory, so
the same holds after any number of resumes from the one buffer, whatever
code runs in between as long as it leaves the buffer alone. -/
theorem save_resume_round_trip (m0 m1 : Arm64) (hbuf : m1.x 0 = m0.x 0)
    (hmem : ∀ i, i < 13 →
      m1.mem (bufWord (m0.x 0) i) = (ryujit_setjmp m0).mem (bufWord (m0.x 0) i)) :
    (ryujit_longjmp m1).sp = m0.sp ∧
      (∀ i, 19 ≤ i → i ≤ 30 → (ryujit_longjmp m1).x i = m0.x i) ∧
      (ryujit_longjmp m1).pc = m0.x 30 ∧
      (ryujit_longjmp m1).mem = m1.mem ∧
      (∀ between : Nat → Arm64 → Arm64,
        (∀ k m, (between k m).x 0 = m0.x 0 ∧
          ∀ i, i < 13 → (between k m).mem (bufWord (m0.x 0) i) = m.mem (bufWord (m0.x 0) i)) →
        ∀ k, (resumeMany between (k + 1) m1).sp = m0.sp ∧
          (∀ i, 19 ≤ i → i ≤ 30 → (resumeMany between (k + 1) m1).x i = m0.x i) ∧
          (resumeMany between (k + 1) m1).pc = m0.x 30) := by
  obtain ⟨h1, h2, h3, h4⟩ := resume_restores m0 m1 hbuf hmem
  refine ⟨h1, h2, h3, h4, fun between hb k => ?_⟩
  have hm := resumeMany_mem (m0.x 0) between (fun k m => (hb k m).2) m1 k
  obtain ⟨r1, r2, r3, _⟩ := resume_restores m0 (between k (resumeMany between k m1))
    (hb k _).1 (fun i hi => by rw [(hb k _).2 i hi, hm i hi, hmem i hi])
  exact ⟨r1, r2, r3⟩

/-- C14 for a save in `machine13 0` and a resume in a state whose registers
have all been overwritten, except that `x0` holds the buffer address. -/
theorem save_resume_round_trip_witness :
    (ryujit_longjmp { ryujit_setjmp (machine13 0) with
        x := fun i => if i = 0 then 4096 else 7, sp := 1 }).sp = (machine13 0).sp ∧
      (∀ i, 19 ≤ i → i ≤ 30 →
        (ryujit_longjmp { ryujit_setjmp (machine13 0) with
          x := fun i => if i = 0 then 4096 else 7, sp := 1 }).x i = (machine13 0).x i) ∧
      (ryujit_longjmp { ryujit_setjmp (machine13 0) with
        x := fun i => if i = 0 then 4096 else 7, sp := 1 }).pc = (machine13 0).x 30 :=
  have H := save_resume_round_trip (machine13 0)
    { ryujit_setjmp (machine13 0) with x := fun i => if i = 0 then 4096 else 7, sp := 1 }
    rfl (fun _ _ => rfl)
  ⟨H.1, H.2.1, H.2.2.1⟩

/-! ## The assertion object `CHECK` -/

theorem setups_of_recorded (c : CHECK) (hc : c.m_message ≠ none) (calls : List SetupArgs) :
    c.setups calls = c := by
  induction calls with
  | nil => rfl
  | cons a rest ih =>
    have : c.Setup a.message a.condition a.file a.line = c := by simp [CHECK.Setup, hc]
    simpa [CHECK.setups, this] using ih

/-- C15, the claim refuted at a first call that passes a `NULL` message: the
object still counts as unset after it, and the second call overwrites all
four fields. -/
theorem null_message_is_not_retained :
    CHECK.unset.setups [⟨none, some "c1", some "f1", 1⟩, ⟨some "m2", some "c2", some "f2", 2⟩]
        = { m_message := some "m2", m_condition := some "c2", m_file := some "f2", m_line := 2 } ∧
      CHECK.unset.setups
          [⟨none, some "c1", some "f1", 1⟩, ⟨some "m2", some "c2", some "f2", 2⟩]
        ≠ SetupArgs.recorded ⟨none, some "c1", some "f1", 1⟩ := by
  decide

/-- C15 as amended (the first assertion failure is retained). On a `CHECK`
object whose message is unset, for every sequence of `Setup` calls whose
first call passes a message that is not `NULL`: after the whole sequence,
and after every call of it, the four recorded fields are the arguments of
the first call; so every later call leaves them unchanged. -/
theorem first_failure_retained (c : CHECK) (first : SetupArgs) (rest : List SetupArgs)
    (hc : c.m_message = none) (hfirst : first.message ≠ none) :
    c.setups (first :: rest) = first.recorded ∧
      (∀ k, c.setups (first :: rest.take k) = first.recorded) ∧
      (∀ a : SetupArgs, first.recorded.Setup a.message a.condition a.file a.line
        = first.recorded) := by
  have h1 : c.Setup first.message first.condition first.file first.line = first.recorded := by
    simp [CHECK.Setup, hc, SetupArgs.recorded]
  have h2 : ∀ l : List SetupArgs, c.setups (first :: l) = first.recorded := by
    intro l
    have : c.setups (first :: l) = first.recorded.setups l := by
      simp [CHECK.setups, h1]
    rw [this]
    exact setups_of_recorded _ hfirst l
  refine ⟨h2 rest, fun k => h2 _, fun a => ?_⟩
  have : first.recorded.m_message ≠ none := hfirst
  simp [CHECK.Setup, this]

/-- C15 as amended, at three calls. -/
theorem first_failure_retained_witness :
    CHECK.unset.setups (⟨some "m1", some "c1", some "f1", 1⟩ ::
        [⟨none, some "c2", none, 2⟩, ⟨some "m3", some "c3", some "f3", 3⟩])
      = SetupArgs.recorded ⟨some "m1", some "c1", some "f1", 1⟩ :=
  (first_failure_retained CHECK.unset ⟨some "m1", some "c1", some "f1", 1⟩
    [⟨none, some "c2", none, 2⟩, ⟨some "m3", some "c3", some "f3", 3⟩] rfl (by decide)).1

/-- C16, the claim refuted: on an object that has recorded the message
`"m"`, `Trigger("r")` passes `"r"`, not `"m"`, to the fatal escape. -/
theorem trigger_ignores_recorded_message :
    (CHECK.unset.Setup (some "m") (some "c") (some "f") 1).m_message = some "m" ∧
      (CHECK.unset.Setup (some "m") (some "c") (some "f") 1).Trigger (some "r")
        = .panic (some "r") ∧
      (CHECK.unset.Setup (some "m") (some "c") (some "f") 1).Trigger (some "r")
        ≠ .panic (some "m") := by
  decide

/-- C16 as amended (`Trigger` escalates with its argument). On every `CHECK`
object, whatever `Setup` has recorded on it, `Trigger(reason)` ends in one
call of the fatal escape with `reason` as its reason, and the escape is the
same for all objects: the recorded message is not used. -/
theorem trigger_escalates_with_reason (c c1 : CHECK) (reason : Option String) :
    c.Trigger reason = .panic reason ∧ c.Trigger reason = c1.Trigger reason :=
  ⟨rfl, rfl⟩

/-! ## UTF-8 conversion: a short buffer that goes unreported -/

/-- C18 (failing input): for the source `A`, lone high surrogate `0xD800`,
the whole conversion takes four bytes (`41 EF BF BD`, the second unit replaced
by U+FFFD), yet with a destination of one byte, or of three,
`minipal_convert_utf16_to_utf8` returns 1 and not 0: after `A` is stored the
replacement character does not fit, the insufficient-buffer branch calls
`MovePrevious` on the fallback buffer and leaves `pSrc` at the end of the
source, and the test `pSrc < pEnd` after the loop does not see the shortage. -/
theorem short_buffer_after_fallback_unreported :
    minipal_convert_utf16_to_utf8 100 0 [0x41, 0xD800] [0, 0, 0, 0]
      = some (4, [0x41, 0xEF, 0xBF, 0xBD]) ∧
    minipal_convert_utf16_to_utf8 100 0 [0x41, 0xD800] [0] = some (1, [0x41]) ∧
    minipal_convert_utf16_to_utf8 100 0 [0x41, 0xD800] [0, 0, 0] = some (1, [0x41, 0, 0]) := by
  decide

/-! ## UTF-8 conversion of well-formed input -/

/-! ### Running the control-flow graph -/

theorem GetBytes.run_step (n : Nat) (a : GBArgs) (s : GBState) (h : ∀ r, s.loc ≠ .Return r) :
    GetBytes.run (n + 1) a s = GetBytes.run n a (GetBytes.step a s) := by
  rw [GetBytes.run]
  cases hs : s.loc <;> simp_all

theorem GetBytes.run_final (n : Nat) (a : GBArgs) (s : GBState) (r : Nat) (h : s.loc = .Return r) :
    GetBytes.run (n + 1) a s = some s := by
  rw [GetBytes.run]
  simp [h]

theorem GetBytes.run_add_fuel (a : GBArgs) : ∀ (n : Nat) (s s' : GBState),
    GetBytes.run n a s = some s' → ∀ k, GetBytes.run (n + k) a s = some s' := by
  intro n
  induction n with
  | zero => intro s s' h; simp [GetBytes.run] at h
  | succ n ih =>
    intro s s' h k
    by_cases hr : ∃ r, s.loc = .Return r
    · obtain ⟨r, hr⟩ := hr
      rw [GetBytes.run_final n a s r hr] at h
      rw [show n + 1 + k = (n + k) + 1 by omega, GetBytes.run_final (n + k) a s r hr]
      exact h
    · have hr' : ∀ r, s.loc ≠ .Return r := fun r h => hr ⟨r, h⟩
      rw [GetBytes.run_step n a s hr'] at h
      rw [show n + 1 + k = (n + k) + 1 by omega, GetBytes.run_step (n + k) a s hr']
      exact ih _ _ h k

theorem GetBytes.Good.of_step {a : GBArgs} {s : GBState} (h : ∀ r, s.loc ≠ .Return r)
    (hg : GetBytes.Good a (GetBytes.step a s)) : GetBytes.Good a s := by
  obtain ⟨n, s', hr, hf⟩ := hg
  exact ⟨n + 1, s', by rw [GetBytes.run_step n a s h]; exact hr, hf⟩

theorem GetBytes.Good.of_final {a : GBArgs} {s : GBState} (h : GetBytes.Final a s) :
    GetBytes.Good a s :=
  ⟨1, s, GetBytes.run_final 0 a s _ h.1, h⟩
/-! ### Facts about the standard encodings -/

theorem wellFormed_cons_of_not_high {c : Nat} {r : List Nat} (h : wellFormed (c :: r) = true)
    (hc : isHigh c = false) :
    c < 0x10000 ∧ isLow c = false ∧ wellFormed r = true ∧
      utf8Of (c :: r) = utf8 c ++ utf8Of r := by
  cases r with
  | nil =>
    simp [wellFormed, hc] at h
    simp [utf8Of, codePoints, h, wellFormed]
  | cons d r' =>
    simp [wellFormed, hc] at h
    simp [utf8Of, codePoints, hc, h]

theorem wellFormed_cons_of_high {c : Nat} {r : List Nat} (h : wellFormed (c :: r) = true)
    (hc : isHigh c = true) :
    ∃ d r', r = d :: r' ∧ isLow d = true ∧ wellFormed r' = true ∧
      utf8Of (c :: r) = utf8 (pairCodePoint c d) ++ utf8Of r' := by
  cases r with
  | nil => simp [wellFormed, hc] at h
  | cons d r' =>
    simp [wellFormed, hc] at h
    exact ⟨d, r', rfl, h.1, h.2, by simp [utf8Of, codePoints, hc]⟩

theorem drop_cons_facts {l : List Nat} {i c : Nat} {r : List Nat} (h : l.drop i = c :: r) :
    i < l.length ∧ l.getD i 0 = c ∧ l.drop (i + 1) = r := by
  have hi : i < l.length := by
    by_contra hn
    rw [List.drop_eq_nil_of_le (by omega)] at h
    cases h
  rw [List.drop_eq_getElem_cons hi] at h
  injection h with h1 h2
  exact ⟨hi, by rw [List.getD_eq_getElem l 0 hi]; exact h1, h2⟩

theorem GBArgs.unit_of_drop {a : GBArgs} {i c : Nat} {r : List Nat}
    (h : a.chars.drop i = c :: r) (j : Int) (hj : j = i) : a.unit j = c := by
  obtain ⟨hi, hg, _⟩ := drop_cons_facts h
  subst hj
  unfold GBArgs.unit GBArgs.pEnd
  rw [if_pos ⟨by omega, by omega⟩]
  simpa using hg

theorem GBState.noteLoad_of_drop {a : GBArgs} (s : GBState) {i c : Nat} {r : List Nat}
    (h : a.chars.drop i = c :: r) (j : Int) (hj : j = i) : s.noteLoad a j = s := by
  obtain ⟨hi, _, _⟩ := drop_cons_facts h
  subst hj
  unfold GBState.noteLoad GBArgs.pEnd
  rw [if_pos ⟨by omega, by omega⟩]

theorem take_set_succ : ∀ (l : List Nat) (n b : Nat), n < l.length →
    (l.set n b).take (n + 1) = l.take n ++ [b]
  | [], _, _, h => by simp at h
  | _ :: _, 0, _, _ => by simp
  | x :: l, n + 1, b, h => by
    simp only [List.set_cons_succ, List.take_succ_cons, List.cons_append]
    rw [take_set_succ l n b (by simpa using h)]

/-! ### Bit operations of the encoder as arithmetic -/

theorem le_or_left_bits (x y : Nat) : x ≤ x ||| y :=
  Nat.le_of_testBit fun i h => by simp [h]

theorem le_or_right_bits (x y : Nat) : y ≤ x ||| y :=
  Nat.le_of_testBit fun i h => by simp [h]

theorem and_blocks (k a1 a0 m1 m0 : Nat) (ha : a0 < 2 ^ k) (hm : m0 < 2 ^ k) :
    (2 ^ k * a1 + a0) &&& (2 ^ k * m1 + m0) = 2 ^ k * (a1 &&& m1) + (a0 &&& m0) := by
  apply Nat.eq_of_testBit_eq
  intro j
  rw [Nat.testBit_and, Nat.testBit_mul_pow_two_add _ ha, Nat.testBit_mul_pow_two_add _ hm,
    Nat.testBit_mul_pow_two_add _ (Nat.and_lt_two_pow a0 hm)]
  split <;> simp

theorem or_blocks (k a1 a0 m1 m0 : Nat) (ha : a0 < 2 ^ k) (hm : m0 < 2 ^ k) :
    (2 ^ k * a1 + a0) ||| (2 ^ k * m1 + m0) = 2 ^ k * (a1 ||| m1) + (a0 ||| m0) := by
  apply Nat.eq_of_testBit_eq
  intro j
  rw [Nat.testBit_or, Nat.testBit_mul_pow_two_add _ ha, Nat.testBit_mul_pow_two_add _ hm,
    Nat.testBit_mul_pow_two_add _ (Nat.or_lt_two_pow ha hm)]
  split <;> simp

theorem or_add_of_lt (k h y : Nat) (hy : y < 2 ^ k) : 2 ^ k * h ||| y = 2 ^ k * h + y :=
  (Nat.mul_add_lt_is_or hy h).symm

theorem byte_last (c : Nat) : (0x80 ||| (c &&& 0x3F)) % 256 = 0x80 + c % 64 := by
  have h1 : c &&& 0x3F = c % 64 := Nat.and_pow_two_sub_one_eq_mod c 6
  have h2 : 0x80 ||| c % 64 = 0x80 + c % 64 := or_add_of_lt 6 2 (c % 64) (Nat.mod_lt _ (by decide))
  rw [h1, h2]; omega

theorem byte_mid6 (c : Nat) : (0x80 ||| ((c >>> 6) &&& 0x3F)) % 256 = 0x80 + c / 64 % 64 := by
  rw [byte_last, Nat.shiftRight_eq_div_pow]

theorem byte_mid12 (c : Nat) : (0x80 ||| ((c >>> 12) &&& 0x3F)) % 256 = 0x80 + c / 4096 % 64 := by
  rw [byte_last, Nat.shiftRight_eq_div_pow]

theorem byte2_first (c : Nat) (h : c < 0x800) : (0xC0 ||| (c >>> 6)) % 256 = 0xC0 + c / 64 := by
  have h2 : 0xC0 ||| c / 64 = 0xC0 + c / 64 := or_add_of_lt 5 6 (c / 64) (by omega)
  rw [Nat.shiftRight_eq_div_pow, show (2 : Nat) ^ 6 = 64 by norm_num, h2]; omega

theorem byte3_first (c : Nat) (h : c < 0x10000) : (0xE0 ||| (c >>> 12)) % 256 = 0xE0 + c / 4096 := by
  have h2 : 0xE0 ||| c / 4096 = 0xE0 + c / 4096 := or_add_of_lt 4 14 (c / 4096) (by omega)
  rw [Nat.shiftRight_eq_div_pow, show (2 : Nat) ^ 12 = 4096 by norm_num, h2]; omega

theorem byte4_first (c : Nat) (h : c < 0x200000) :
    (0xF0 ||| (c >>> 18)) % 256 = 0xF0 + c / 262144 := by
  have h2 : 0xF0 ||| c / 262144 = 0xF0 + c / 262144 := or_add_of_lt 3 30 (c / 262144) (by omega)
  rw [Nat.shiftRight_eq_div_pow, show (2 : Nat) ^ 18 = 262144 by norm_num, h2]; omega

theorem and_ff80 (c : Nat) (h : c < 65536) : c &&& 0xFF80 = 128 * (c / 128) := by
  have h1 := and_blocks 7 (c / 128) (c % 128) 0x1FF 0 (Nat.mod_lt _ (by decide)) (by decide)
  have h2 : c / 128 &&& 0x1FF = c / 128 :=
    Nat.and_pow_two_sub_one_of_lt_two_pow (show c / 128 < 2 ^ 9 by omega)
  have h3 : 2 ^ 7 * (c / 128) + c % 128 = c := by omega
  rw [h3, h2] at h1
  simpa using h1

theorem mask_test (c0 c1 c2 c3 : Nat) (h0 : c0 < 65536) (h1 : c1 < 65536) (h2 : c2 < 65536)
    (h3 : c3 < 65536) :
    ((c0 + 65536 * c1) ||| (c2 + 65536 * c3)) &&& 0xFF80FF80 = 0 ↔
      c0 < 128 ∧ c1 < 128 ∧ c2 < 128 ∧ c3 < 128 := by
  have e1 := or_blocks 16 c1 c0 c3 c2 h0 h2
  have hu0 : c0 ||| c2 < 65536 := Nat.or_lt_two_pow (n := 16) h0 h2
  have hu1 : c1 ||| c3 < 65536 := Nat.or_lt_two_pow (n := 16) h1 h3
  have e2 := and_blocks 16 (c1 ||| c3) (c0 ||| c2) 0xFF80 0xFF80 hu0 (by decide)
  rw [and_ff80 _ hu0, and_ff80 _ hu1] at e2
  have e3 : (c0 + 65536 * c1) ||| (c2 + 65536 * c3)
      = 2 ^ 16 * (c1 ||| c3) + (c0 ||| c2) := by
    rw [← e1]; congr 1 <;> omega
  have e4 : (0xFF80FF80 : Nat) = 2 ^ 16 * 0xFF80 + 0xFF80 := by norm_num
  rw [e3, e4, e2]
  have a0 := le_or_left_bits c0 c2
  have a2 := le_or_right_bits c0 c2
  have a1 := le_or_left_bits c1 c3
  have a3 := le_or_right_bits c1 c3
  have b0 : c0 < 128 → c2 < 128 → c0 ||| c2 < 128 := fun x y => Nat.or_lt_two_pow (n := 7) x y
  have b1 : c1 < 128 → c3 < 128 → c1 ||| c3 < 128 := fun x y => Nat.or_lt_two_pow (n := 7) x y
  constructor
  · intro h
    have : (c0 ||| c2) / 128 = 0 ∧ (c1 ||| c3) / 128 = 0 := by omega
    omega
  · rintro ⟨x0, x1, x2, x3⟩
    have := b0 x0 x2
    have := b1 x1 x3
    have : (c0 ||| c2) / 128 = 0 ∧ (c1 ||| c3) / 128 = 0 := by omega
    omega
/-! ### Single statements of `GetBytes` when the buffer has room -/

theorem GBState.andThen_ok (s : GBState) (f : GBState → GBState) (h : ∀ r, s.loc ≠ .Return r) :
    s.andThen f = f s := by
  unfold GBState.andThen
  cases hs : s.loc <;> simp_all

theorem GBState.put_ok (a : GBArgs) (s : GBState) (b : Nat) (h : s.pTarget < a.byteCount) :
    s.put a b = { s with bytes := s.bytes.set s.pTarget (b % 256), pTarget := s.pTarget + 1 } := by
  rw [GBState.put, GBState.store, if_pos (show s.pTarget + 0 < a.byteCount by omega),
    ENSURE_BUFFER_INC, if_neg (show ¬ (s.pTarget + 1 > a.byteCount) by omega)]
  rfl

theorem sizeT_le (x : Int) (h : 0 ≤ x) : (sizeT x : Int) ≤ x := by
  unfold sizeT
  omega

theorem GetBytes.afterEncode_cases (a : GBArgs) (s : GBState) (hfb : s.fallbackUsed = false)
    (hsrc : s.pSrc ≤ a.pEnd) :
    GetBytes.afterEncode a s = { s with ch := 0, loc := .SlowLoop } ∨
    GetBytes.afterEncode a s = { s with loc := .AsciiLoop } ∨
    ∃ p : Int, p ≤ a.pEnd - 5 ∧ GetBytes.afterEncode a s = { s with pStop := p, loc := .FastLoop } := by
  have h1 := sizeT_le (a.pEnd - s.pSrc) (by omega)
  unfold GetBytes.afterEncode
  simp only [hfb, Bool.false_eq_true, ↓reduceIte]
  split_ifs
  · exact Or.inl rfl
  · exact Or.inr (Or.inl rfl)
  · exact Or.inr (Or.inr ⟨_, by omega, rfl⟩)
  · exact Or.inr (Or.inr ⟨_, by omega, rfl⟩)
theorem GBState.put_out (a : GBArgs) (s : GBState) (b : Nat) (E : List Nat)
    (tgt : s.pTarget = E.length) (out : s.bytes.take E.length = E)
    (len : s.bytes.length = a.byteCount) (h : E.length < a.byteCount) :
    ∃ B, s.put a b = { s with bytes := B, pTarget := (E ++ [b % 256]).length } ∧
      B.take (E ++ [b % 256]).length = E ++ [b % 256] ∧ B.length = a.byteCount := by
  refine ⟨s.bytes.set s.pTarget (b % 256), ?_, ?_, ?_⟩
  · rw [GBState.put_ok a s b (by omega), tgt]; simp
  · rw [tgt, List.length_append, List.length_singleton, take_set_succ _ _ _ (by omega), out]
  · simp [len]

theorem utf8_length_pos (cp : Nat) : 1 ≤ (utf8 cp).length := by
  unfold utf8; split_ifs <;> simp

theorem GetBytes.encodeBytes_eq (a : GBArgs) (s : GBState) (cp : Nat) (E : List Nat)
    (hch : s.ch = (cp : Int)) (hloc : ∀ r, s.loc ≠ .Return r) (hcp : cp < 0x200000)
    (tgt : s.pTarget = E.length) (out : s.bytes.take E.length = E)
    (len : s.bytes.length = a.byteCount) (hroom : E.length + (utf8 cp).length ≤ a.byteCount) :
    ∃ B, GetBytes.encodeBytes a s = { s with bytes := B, pTarget := (E ++ utf8 cp).length } ∧
      B.take (E ++ utf8 cp).length = E ++ utf8 cp ∧ B.length = a.byteCount := by
  have hc : s.ch.toNat = cp := by rw [hch]; simp
  unfold GetBytes.encodeBytes
  simp only [hc]
  by_cases h1 : cp < 0x80
  · have hu : utf8 cp = [cp] := by simp [utf8, h1]
    rw [hu] at hroom ⊢
    rw [if_pos (by omega)]
    obtain ⟨B, e, o, l⟩ := GBState.put_out a s cp E tgt out len (by simpa using hroom)
    rw [show cp % 256 = cp by omega] at e o
    exact ⟨B, e, o, l⟩
  rw [if_neg (by omega)]
  by_cases h2 : cp < 0x800
  · have hu : utf8 cp = [0xC0 + cp / 64, 0x80 + cp % 64] := by simp [utf8, h1, h2]
    rw [hu] at hroom ⊢
    simp only [List.length_cons, List.length_nil] at hroom
    rw [if_pos (by omega)]
    obtain ⟨B1, e1, o1, l1⟩ := GBState.put_out a s (0xC0 ||| (cp >>> 6)) E tgt out len (by omega)
    rw [byte2_first cp h2] at e1 o1
    rw [e1, GBState.andThen_ok]
    obtain ⟨B2, e2, o2, l2⟩ := GBState.put_out a
      { s with bytes := B1, pTarget := (E ++ [0xC0 + cp / 64]).length } (0x80 ||| (cp &&& 0x3F))
      (E ++ [0xC0 + cp / 64]) rfl o1 l1 (by simp; omega)
    rw [byte_last cp] at e2 o2
    rw [e2]
    simp only [List.append_assoc, List.singleton_append] at o2 ⊢
    exact ⟨B2, rfl, o2, l2⟩
    exact hloc
  rw [if_neg (by omega)]
  by_cases h3 : cp < 0x10000
  · have hu : utf8 cp = [0xE0 + cp / 4096, 0x80 + cp / 64 % 64, 0x80 + cp % 64] := by
      simp [utf8, h1, h2, h3]
    rw [hu] at hroom ⊢
    simp only [List.length_cons, List.length_nil] at hroom
    rw [if_pos (by omega)]
    obtain ⟨B1, e1, o1, l1⟩ := GBState.put_out a s (0xE0 ||| (cp >>> 12)) E tgt out len (by omega)
    rw [byte3_first cp h3] at e1 o1
    rw [e1, GBState.andThen_ok]
    obtain ⟨B2, e2, o2, l2⟩ := GBState.put_out a
      { s with bytes := B1, pTarget := (E ++ [0xE0 + cp / 4096]).length }
      (0x80 ||| ((cp >>> 6) &&& 0x3F)) (E ++ [0xE0 + cp / 4096]) rfl o1 l1 (by simp; omega)
    rw [byte_mid6 cp] at e2 o2
    rw [e2, GBState.andThen_ok]
    obtain ⟨B3, e3, o3, l3⟩ := GBState.put_out a
      { s with bytes := B2, pTarget := (E ++ [0xE0 + cp / 4096] ++ [0x80 + cp / 64 % 64]).length }
      (0x80 ||| (cp &&& 0x3F)) (E ++ [0xE0 + cp / 4096] ++ [0x80 + cp / 64 % 64]) rfl o2 l2
      (by simp; omega)
    rw [byte_last cp] at e3 o3
    rw [e3]
    simp only [List.append_assoc, List.singleton_append] at o3 ⊢
    exact ⟨B3, rfl, o3, l3⟩
    exact hloc
    exact hloc
  have hu : utf8 cp
      = [0xF0 + cp / 262144, 0x80 + cp / 4096 % 64, 0x80 + cp / 64 % 64, 0x80 + cp % 64] := by
    simp [utf8, h1, h2, h3]
  rw [hu] at hroom ⊢
  simp only [List.length_cons, List.length_nil] at hroom
  rw [if_neg (by omega)]
  obtain ⟨B0, e0, o0, l0⟩ := GBState.put_out a s (0xF0 ||| (cp >>> 18)) E tgt out len (by omega)
  rw [byte4_first cp hcp] at e0 o0
  rw [e0, GBState.andThen_ok]
  obtain ⟨B1, e1, o1, l1⟩ := GBState.put_out a
    { s with bytes := B0, pTarget := (E ++ [0xF0 + cp / 262144]).length }
    (0x80 ||| ((cp >>> 12) &&& 0x3F)) (E ++ [0xF0 + cp / 262144]) rfl o0 l0 (by simp; omega)
  rw [byte_mid12 cp] at e1 o1
  rw [e1, GBState.andThen_ok]
  obtain ⟨B2, e2, o2, l2⟩ := GBState.put_out a
    { s with bytes := B1,
             pTarget := (E ++ [0xF0 + cp / 262144] ++ [0x80 + cp / 4096 % 64]).length }
    (0x80 ||| ((cp >>> 6) &&& 0x3F)) (E ++ [0xF0 + cp / 262144] ++ [0x80 + cp / 4096 % 64]) rfl
    o1 l1 (by simp; omega)
  rw [byte_mid6 cp] at e2 o2
  rw [e2, GBState.andThen_ok]
  obtain ⟨B3, e3, o3, l3⟩ := GBState.put_out a
    { s with bytes := B2,
             pTarget := (E ++ [0xF0 + cp / 262144] ++ [0x80 + cp / 4096 % 64]
               ++ [0x80 + cp / 64 % 64]).length }
    (0x80 ||| (cp &&& 0x3F))
    (E ++ [0xF0 + cp / 262144] ++ [0x80 + cp / 4096 % 64] ++ [0x80 + cp / 64 % 64]) rfl o2 l2
    (by simp; omega)
  rw [byte_last cp] at e3 o3
  rw [e3]
  simp only [List.append_assoc, List.singleton_append] at o3 ⊢
  exact ⟨B3, rfl, o3, l3⟩
  exact hloc
  exact hloc
  exact hloc
theorem GetBytes.Inv.frame {a : GBArgs} {s : GBState} {i k : Nat} {E : List Nat}
    (h : GetBytes.Inv a s i k E) (s' : GBState) (k' : Nat) (h1 : s'.pSrc = ((i + k' : Nat) : Int))
    (h2 : s'.pTarget = s.pTarget) (h3 : s'.bytes = s.bytes)
    (h4 : s'.fallbackUsed = s.fallbackUsed) (h5 : s'.errnoResult = s.errnoResult)
    (h6 : s'.oob = s.oob) (h7 : s'.asserted = s.asserted) : GetBytes.Inv a s' i k' E :=
  ⟨h1, h2 ▸ h.tgt, h3 ▸ h.out, h3 ▸ h.len, h.total, h.room, h.wf, h4 ▸ h.fb, h5 ▸ h.err,
    h6 ▸ h.inBounds, h7 ▸ h.assertsHold⟩

theorem GBState.assert_true (s : GBState) : s.assert true = s := rfl

theorem InRange_iff (c : Nat) (b e : Nat) :
    InRange (c : Int) (b : Int) (e : Int) = true ↔ b ≤ c ∧ c ≤ e := by
  simp [InRange]

theorem GetBytes.EncodeChar_eq (a : GBArgs) (s : GBState) (cp : Nat) (E : List Nat)
    (hch : s.ch = (cp : Int)) (hloc : ∀ r, s.loc ≠ .Return r) (hcp : cp < 0x200000)
    (hns : ¬ (0xD800 ≤ cp ∧ cp ≤ 0xDFFF))
    (tgt : s.pTarget = E.length) (out : s.bytes.take E.length = E)
    (len : s.bytes.length = a.byteCount) (hroom : E.length + (utf8 cp).length ≤ a.byteCount) :
    ∃ B, GetBytes.EncodeChar a s
        = GetBytes.afterEncode a { s with bytes := B, pTarget := (E ++ utf8 cp).length } ∧
      B.take (E ++ utf8 cp).length = E ++ utf8 cp ∧ B.length = a.byteCount := by
  obtain ⟨B, eB, oB, lB⟩ := GetBytes.encodeBytes_eq a s cp E hch hloc hcp tgt out len hroom
  refine ⟨B, ?_, oB, lB⟩
  have h1 : ¬ (InRange s.ch HIGH_SURROGATE_START LOW_SURROGATE_END = true) := by
    rw [hch]
    simp only [InRange, HIGH_SURROGATE_START, LOW_SURROGATE_END, Bool.and_eq_true,
      decide_eq_true_eq]
    omega
  have h2 : ¬ ((s.pTarget : Int) > a.byteCount -
      (if s.ch > 0x7F then (if s.ch > 0x7FF then (if s.ch > 0xFFFF then 4 else 3) else 2)
        else 1)) := by
    rw [hch]
    unfold utf8 at hroom
    split_ifs at hroom ⊢ <;> simp at hroom <;> omega
  unfold GetBytes.EncodeChar
  rw [if_neg h1]
  simp only []
  rw [if_neg h2, eB, GBState.andThen_ok]
  exact hloc
theorem GetBytes.step_of_loc (a : GBArgs) (s : GBState) :
    (s.loc = .SlowLoop → GetBytes.step a s = GetBytes.SlowLoop a s) ∧
    (s.loc = .ProcessChar → GetBytes.step a s = GetBytes.ProcessChar s) ∧
    (s.loc = .EncodeChar → GetBytes.step a s = GetBytes.EncodeChar a s) ∧
    (s.loc = .AsciiLoop → GetBytes.step a s = GetBytes.AsciiLoop a s) ∧
    (s.loc = .FastLoop → GetBytes.step a s = GetBytes.FastLoop a s) ∧
    (s.loc = .FastLoop4 → GetBytes.step a s = GetBytes.FastLoop4 a s) ∧
    (s.loc = .LongCode → GetBytes.step a s = GetBytes.LongCode a s) ∧
    (s.loc = .Done → GetBytes.step a s = GetBytes.Done a s) := by
  unfold GetBytes.step
  refine ⟨?_, ?_, ?_, ?_, ?_, ?_, ?_, ?_⟩ <;> intro h <;> rw [h]

/-- From `EncodeChar` with a scalar value pending, the loops go on to a
`Final` state once every later loop head does. -/
theorem GetBytes.good_encode {a : GBArgs} {m : Nat} (ih : GetBytes.Below a m) (s : GBState)
    (i k cp : Nat) (E : List Nat) (hinv : GetBytes.Inv a s i k E) (hloc : s.loc = .EncodeChar)
    (hch : s.ch = (cp : Int)) (hk : i + k ≤ a.chars.length) (hm : a.chars.length - (i + k) < m)
    (hns : ¬ (0xD800 ≤ cp ∧ cp ≤ 0xDFFF)) (hcp : cp < 0x200000)
    (henc : utf8Of (a.chars.drop i) = utf8 cp ++ utf8Of (a.chars.drop (i + k)))
    (hwf : wellFormed (a.chars.drop (i + k)) = true) : GetBytes.Good a s := by
  have hroom : E.length + (utf8 cp).length ≤ a.byteCount := by
    have := hinv.room
    rw [hinv.total, henc] at this
    simp only [List.length_append] at this
    omega
  obtain ⟨B, eB, oB, lB⟩ := GetBytes.EncodeChar_eq a s cp E hch (by simp [hloc]) hcp hns
    hinv.tgt hinv.out hinv.len hroom
  apply GetBytes.Good.of_step (by simp [hloc])
  rw [(GetBytes.step_of_loc a s).2.2.1 hloc, eB]
  have hinv' : GetBytes.Inv a { s with bytes := B, pTarget := (E ++ utf8 cp).length } (i + k) 0
      (E ++ utf8 cp) :=
    ⟨hinv.src, rfl, oB, lB, by rw [hinv.total, henc, List.append_assoc], hinv.room, hwf, hinv.fb,
      hinv.err, hinv.inBounds, hinv.assertsHold⟩
  have hend : s.pSrc ≤ a.pEnd := by
    rw [hinv.src]; unfold GBArgs.pEnd; omega
  rcases GetBytes.afterEncode_cases a _ hinv'.fb hend with e | e | ⟨p, hp, e⟩
  · rw [e]
    exact ih _ (i + k) (E ++ utf8 cp) (hinv'.frame _ 0 hinv'.src rfl rfl rfl rfl rfl rfl) hm
      (Or.inl ⟨rfl, rfl⟩)
  · rw [e]
    exact ih _ (i + k) (E ++ utf8 cp) (hinv'.frame _ 0 hinv'.src rfl rfl rfl rfl rfl rfl) hm
      (Or.inr (Or.inl rfl))
  · rw [e]
    exact ih _ (i + k) (E ++ utf8 cp) (hinv'.frame _ 0 hinv'.src rfl rfl rfl rfl rfl rfl) hm
      (Or.inr (Or.inr (Or.inl ⟨rfl, hp⟩)))
theorem isHigh_iff (c : Nat) : isHigh c = true ↔ 0xD800 ≤ c ∧ c ≤ 0xDBFF := by
  simp [isHigh]

theorem isLow_iff (c : Nat) : isLow c = true ↔ 0xDC00 ≤ c ∧ c ≤ 0xDFFF := by
  simp [isLow]

theorem isHigh_false_iff (c : Nat) : isHigh c = false ↔ ¬ (0xD800 ≤ c ∧ c ≤ 0xDBFF) := by
  rw [← isHigh_iff]; simp

theorem isLow_false_iff (c : Nat) : isLow c = false ↔ ¬ (0xDC00 ≤ c ∧ c ≤ 0xDFFF) := by
  rw [← isLow_iff]; simp

/-- From the head of the slow loop with a high surrogate pending and its low
surrogate next in the source. -/
theorem GetBytes.good_pending_high {a : GBArgs} {m : Nat} (ih : GetBytes.Below a m)
    (s : GBState) (i c d : Nat) (r : List Nat) (E : List Nat) (hinv : GetBytes.Inv a s i 1 E)
    (hloc : s.loc = .SlowLoop) (hch : s.ch = (c : Int)) (hd : a.chars.drop i = c :: d :: r)
    (hh : isHigh c = true) (hm : a.chars.length - i ≤ m) : GetBytes.Good a s := by
  obtain ⟨hi, _, hd1⟩ := drop_cons_facts hd
  obtain ⟨hi1, _, hd2⟩ := drop_cons_facts hd1
  have hwf := hinv.wf
  rw [hd] at hwf
  obtain ⟨d', r', hr, hdl, hwr, hu⟩ := wellFormed_cons_of_high hwf hh
  injection hr with hr1 hr2
  subst hr1 hr2
  rw [isHigh_iff] at hh
  rw [isLow_iff] at hdl
  have hsrc := hinv.src
  have h1 : ¬ (s.pSrc ≥ a.pEnd) := by rw [hsrc]; unfold GBArgs.pEnd; omega
  have h2 : s.ch > 0 := by rw [hch]; omega
  have ha : (decide (s.ch ≥ 0xD800) && decide (s.ch ≤ 0xDBFF)) = true := by
    rw [hch]; simp; omega
  have hun : a.unit s.pSrc = d := GBArgs.unit_of_drop hd1 _ hsrc
  have hn : s.noteLoad a s.pSrc = s := GBState.noteLoad_of_drop s hd1 _ hsrc
  have hr : InRange (d : Int) LOW_SURROGATE_START LOW_SURROGATE_END = true := by
    simp only [InRange, LOW_SURROGATE_START, LOW_SURROGATE_END, Bool.and_eq_true,
      decide_eq_true_eq]
    omega
  apply GetBytes.Good.of_step (by simp [hloc])
  rw [(GetBytes.step_of_loc a s).1 hloc]
  unfold GetBytes.SlowLoop
  rw [if_neg h1, if_pos h2]
  simp only [ha, GBState.assert_true, hun, hn, hr, ↓reduceIte]
  refine GetBytes.good_encode ih _ i 2 (pairCodePoint c d) E
    (hinv.frame _ 2 ?_ rfl rfl rfl rfl rfl rfl) rfl ?_ (by omega) (by omega) ?_ ?_ ?_ ?_
  · show s.pSrc + 1 = _
    rw [hsrc]; push_cast; ring
  · show (d : Int) + s.ch * 1024 + pairOffset = _
    rw [hch]; unfold pairOffset pairCodePoint LOW_SURROGATE_START HIGH_SURROGATE_START
    omega
  · unfold pairCodePoint; omega
  · unfold pairCodePoint; omega
  · rw [hd, hu, show i + 2 = i + 1 + 1 from rfl, hd2]
  · rw [show i + 2 = i + 1 + 1 from rfl, hd2]; exact hwr

/-- From the label `ProcessChar` with the unit at `i` pending. -/
theorem GetBytes.good_process {a : GBArgs} {m : Nat} (ih : GetBytes.Below a m)
    (s : GBState) (i c : Nat) (r : List Nat) (E : List Nat) (hinv : GetBytes.Inv a s i 1 E)
    (hloc : s.loc = .ProcessChar) (hch : s.ch = (c : Int)) (hd : a.chars.drop i = c :: r)
    (hm : a.chars.length - i ≤ m) : GetBytes.Good a s := by
  obtain ⟨hi, _, hd1⟩ := drop_cons_facts hd
  have hwf := hinv.wf
  rw [hd] at hwf
  apply GetBytes.Good.of_step (by simp [hloc])
  rw [(GetBytes.step_of_loc a s).2.1 hloc]
  unfold GetBytes.ProcessChar
  cases hh : isHigh c
  · obtain ⟨hc16, hlow, hwr, hu⟩ := wellFormed_cons_of_not_high hwf hh
    rw [isHigh_false_iff] at hh
    rw [isLow_false_iff] at hlow
    have h1 : ¬ (InRange s.ch HIGH_SURROGATE_START HIGH_SURROGATE_END = true) := by
      rw [hch]
      simp only [InRange, HIGH_SURROGATE_START, HIGH_SURROGATE_END, Bool.and_eq_true,
        decide_eq_true_eq]
      omega
    rw [if_neg h1]
    exact GetBytes.good_encode ih _ i 1 c E (hinv.frame _ 1 hinv.src rfl rfl rfl rfl rfl rfl) rfl
      hch (by omega) (by omega) (by omega) (by omega) (by rw [hd, hu, hd1])
      (by rw [hd1]; exact hwr)
  · obtain ⟨d, r', hr, hdl, hwr, hu⟩ := wellFormed_cons_of_high hwf hh
    subst hr
    have h1 : InRange s.ch HIGH_SURROGATE_START HIGH_SURROGATE_END = true := by
      rw [isHigh_iff] at hh
      rw [hch]
      simp only [InRange, HIGH_SURROGATE_START, HIGH_SURROGATE_END, Bool.and_eq_true,
        decide_eq_true_eq]
      omega
    rw [if_pos h1]
    exact GetBytes.good_pending_high ih _ i c d r' E
      (hinv.frame _ 1 hinv.src rfl rfl rfl rfl rfl rfl) rfl hch hd hh hm
theorem utf8Of_nil : utf8Of [] = [] := by
  simp [utf8Of, codePoints]

/-- Storing an ASCII unit that was read from the source keeps the invariant. -/
theorem GetBytes.Inv.put_ascii {a : GBArgs} {s : GBState} {i c : Nat} {r E : List Nat}
    (hinv : GetBytes.Inv a s i 1 E) (hd : a.chars.drop i = c :: r) (hc : c < 0x80) :
    ∃ B, s.put a c = { s with bytes := B, pTarget := (E ++ [c]).length } ∧
      GetBytes.Inv a { s with bytes := B, pTarget := (E ++ [c]).length } (i + 1) 0 (E ++ [c]) := by
  obtain ⟨hi, _, hd1⟩ := drop_cons_facts hd
  have hwf := hinv.wf
  rw [hd] at hwf
  have hh : isHigh c = false := by rw [isHigh_false_iff]; omega
  obtain ⟨_, _, hwr, hu⟩ := wellFormed_cons_of_not_high hwf hh
  have hu8 : utf8 c = [c] := by simp [utf8, hc]
  have htot : utf8Of a.chars = (E ++ [c]) ++ utf8Of (a.chars.drop (i + 1)) := by
    rw [hinv.total, hd, hu, hu8, hd1, List.append_assoc]
  have hroom : E.length < a.byteCount := by
    have := hinv.room
    rw [htot] at this
    simp only [List.length_append, List.length_singleton] at this
    omega
  obtain ⟨B, e, o, l⟩ := GBState.put_out a s c E hinv.tgt hinv.out hinv.len hroom
  rw [show c % 256 = c by omega] at e o
  exact ⟨B, e, hinv.src, rfl, o, l, htot, hinv.room, by rw [hd1]; exact hwr, hinv.fb, hinv.err,
    hinv.inBounds, hinv.assertsHold⟩

/-- From the code after the outer loop, with the whole source encoded. -/
theorem GetBytes.good_done {a : GBArgs} (s : GBState) (i : Nat) (E : List Nat)
    (hinv : GetBytes.Inv a s i 0 E) (hloc : s.loc = .Done) (hnil : a.chars.drop i = []) :
    GetBytes.Good a s := by
  have hle : a.chars.length ≤ i := List.drop_eq_nil_iff.mp hnil
  have h1 : ¬ (s.pSrc < a.pEnd) := by rw [hinv.src]; unfold GBArgs.pEnd; omega
  have htot : utf8Of a.chars = E := by rw [hinv.total, hnil, utf8Of_nil, List.append_nil]
  apply GetBytes.Good.of_step (by simp [hloc])
  rw [(GetBytes.step_of_loc a s).2.2.2.2.2.2.2 hloc]
  unfold GetBytes.Done
  rw [if_neg h1]
  apply GetBytes.Good.of_final
  refine ⟨?_, ?_, hinv.len, hinv.err, hinv.inBounds, hinv.assertsHold⟩
  · show Loc.Return s.pTarget = _
    rw [hinv.tgt, htot]
  · show s.bytes.take _ = _
    rw [htot]; exact hinv.out

/-- From the head of the slow loop with nothing pending. -/
theorem GetBytes.good_top {a : GBArgs} {m : Nat} (ih : GetBytes.Below a m)
    (s : GBState) (i : Nat) (E : List Nat) (hinv : GetBytes.Inv a s i 0 E)
    (hloc : s.loc = .SlowLoop) (hch : s.ch = 0) (hm : a.chars.length - i ≤ m) :
    GetBytes.Good a s := by
  have hsrc := hinv.src
  have hfb : ¬ (s.fallbackUsed = true) := by rw [hinv.fb]; simp
  apply GetBytes.Good.of_step (by simp [hloc])
  rw [(GetBytes.step_of_loc a s).1 hloc]
  unfold GetBytes.SlowLoop
  cases hd : a.chars.drop i with
  | nil =>
    have hle : a.chars.length ≤ i := List.drop_eq_nil_iff.mp hd
    have h1 : s.pSrc ≥ a.pEnd := by rw [hsrc]; unfold GBArgs.pEnd; omega
    rw [if_pos h1, if_pos hch, if_neg hfb]
    simp only [Nat.cast_zero, gt_iff_lt, lt_self_iff_false, ↓reduceIte]
    exact GetBytes.good_done _ i E (hinv.frame _ 0 hsrc rfl rfl rfl rfl rfl rfl) rfl hd
  | cons c r =>
    obtain ⟨hi, _, hd1⟩ := drop_cons_facts hd
    have h1 : ¬ (s.pSrc ≥ a.pEnd) := by rw [hsrc]; unfold GBArgs.pEnd; omega
    have h2 : ¬ (s.ch > 0) := by rw [hch]; omega
    have hun : a.unit s.pSrc = c := GBArgs.unit_of_drop hd _ hsrc
    have hn : s.noteLoad a s.pSrc = s := GBState.noteLoad_of_drop s hd _ hsrc
    rw [if_neg h1, if_neg h2, if_neg hfb]
    unfold GBState.next
    rw [hn, hun]
    refine GetBytes.good_process ih _ i c r E (hinv.frame _ 1 ?_ rfl rfl rfl rfl rfl rfl) rfl rfl
      hd hm
    show s.pSrc + 1 = _
    rw [hsrc]; push_cast; ring

/-- From the head of the short loop over trailing ASCII units. -/
theorem GetBytes.good_ascii {a : GBArgs} {m : Nat} (ih : GetBytes.Below a m)
    (s : GBState) (i : Nat) (E : List Nat) (hinv : GetBytes.Inv a s i 0 E)
    (hloc : s.loc = .AsciiLoop) (hm : a.chars.length - i ≤ m) : GetBytes.Good a s := by
  have hsrc := hinv.src
  apply GetBytes.Good.of_step (by simp [hloc])
  rw [(GetBytes.step_of_loc a s).2.2.2.1 hloc]
  unfold GetBytes.AsciiLoop
  cases hd : a.chars.drop i with
  | nil =>
    have hle : a.chars.length ≤ i := List.drop_eq_nil_iff.mp hd
    have h1 : ¬ (s.pSrc < a.pEnd) := by rw [hsrc]; unfold GBArgs.pEnd; omega
    rw [if_neg h1]
    exact GetBytes.good_done _ i E (hinv.frame _ 0 hsrc rfl rfl rfl rfl rfl rfl) rfl hd
  | cons c r =>
    obtain ⟨hi, _, hd1⟩ := drop_cons_facts hd
    have h1 : s.pSrc < a.pEnd := by rw [hsrc]; unfold GBArgs.pEnd; omega
    have hun : a.unit s.pSrc = c := GBArgs.unit_of_drop hd _ hsrc
    have hn : s.noteLoad a s.pSrc = s := GBState.noteLoad_of_drop s hd _ hsrc
    have hinv1 : GetBytes.Inv a { s with ch := (c : Int), pSrc := s.pSrc + 1 } i 1 E :=
      hinv.frame _ 1 (by show s.pSrc + 1 = _; rw [hsrc]; push_cast; ring) rfl rfl rfl rfl rfl rfl
    rw [if_pos h1]
    unfold GBState.next
    rw [hn, hun]
    dsimp only
    by_cases hc : c < 0x80
    · rw [if_neg (by omega), Int.toNat_ofNat]
      obtain ⟨B, e, hinv2⟩ := hinv1.put_ascii hd hc
      rw [e, GBState.andThen_ok _ _ (by simp [hloc])]
      exact ih _ (i + 1) (E ++ [c]) (hinv2.frame _ 0 hinv2.src rfl rfl rfl rfl rfl rfl)
        (by omega) (Or.inr (Or.inl rfl))
    · rw [if_pos (by omega)]
      exact GetBytes.good_process ih _ i c r E (hinv1.frame _ 1 hinv1.src rfl rfl rfl rfl rfl rfl)
        rfl rfl hd hm
theorem GBState.putStop_out (a : GBArgs) (s : GBState) (b : Nat) (E : List Nat)
    (tgt : s.pTarget = E.length) (out : s.bytes.take E.length = E)
    (len : s.bytes.length = a.byteCount) (h : E.length < a.byteCount) :
    ∃ B, ENSURE_BUFFER_INC a { s.store a 0 b with pStop := s.pStop - 1 }
        = { s with bytes := B, pTarget := (E ++ [b % 256]).length, pStop := s.pStop - 1 } ∧
      B.take (E ++ [b % 256]).length = E ++ [b % 256] ∧ B.length = a.byteCount := by
  refine ⟨s.bytes.set s.pTarget (b % 256), ?_, ?_, ?_⟩
  · rw [GBState.store, if_pos (show s.pTarget + 0 < a.byteCount by omega), ENSURE_BUFFER_INC]
    dsimp only
    rw [if_neg (show ¬ (s.pTarget + 1 > a.byteCount) by omega), tgt]
    simp
  · rw [tgt, List.length_append, List.length_singleton, take_set_succ _ _ _ (by omega), out]
  · simp [len]

theorem GetBytes.long_last (a : GBArgs) (s : GBState) (c chd : Nat) (E : List Nat)
    (hloc : ∀ r, s.loc ≠ .Return r)
    (tgt : s.pTarget = E.length) (out : s.bytes.take E.length = E)
    (len : s.bytes.length = a.byteCount) (h : E.length + 2 ≤ a.byteCount) :
    ∃ B, ((ENSURE_BUFFER_INC a { s.store a 0 chd with pStop := s.pStop - 1 }).andThen fun s =>
          (s.put a (0x80 ||| (c &&& 0x3F))).andThen fun s => { s with loc := .FastLoop })
        = { s with bytes := B, pTarget := (E ++ [chd % 256, 0x80 + c % 64]).length,
                   pStop := s.pStop - 1, loc := .FastLoop } ∧
      B.take (E ++ [chd % 256, 0x80 + c % 64]).length = E ++ [chd % 256, 0x80 + c % 64] ∧
      B.length = a.byteCount := by
  obtain ⟨B1, e1, o1, l1⟩ := GBState.putStop_out a s chd E tgt out len (by omega)
  rw [e1, GBState.andThen_ok]
  obtain ⟨B2, e2, o2, l2⟩ := GBState.put_out a
    { s with bytes := B1, pTarget := (E ++ [chd % 256]).length, pStop := s.pStop - 1 }
    (0x80 ||| (c &&& 0x3F)) (E ++ [chd % 256]) rfl o1 l1 (by simp; omega)
  rw [byte_last c] at e2 o2
  rw [e2, GBState.andThen_ok]
  simp only [List.append_assoc, List.singleton_append] at o2 ⊢
  exact ⟨B2, rfl, o2, l2⟩
  exact hloc
  exact hloc

theorem GetBytes.long_mid (a : GBArgs) (s : GBState) (c chd : Nat) (E : List Nat)
    (hloc : ∀ r, s.loc ≠ .Return r)
    (tgt : s.pTarget = E.length) (out : s.bytes.take E.length = E)
    (len : s.bytes.length = a.byteCount) (h : E.length + 3 ≤ a.byteCount) :
    ∃ B, ((ENSURE_BUFFER_INC a { s.store a 0 chd with pStop := s.pStop - 1 }).andThen fun s =>
          (ENSURE_BUFFER_INC a
            { s.store a 0 (0x80 ||| ((c >>> 6) &&& 0x3F)) with pStop := s.pStop - 1 }).andThen
          fun s => (s.put a (0x80 ||| (c &&& 0x3F))).andThen fun s => { s with loc := .FastLoop })
        = { s with bytes := B,
                   pTarget := (E ++ [chd % 256, 0x80 + c / 64 % 64, 0x80 + c % 64]).length,
                   pStop := s.pStop - 1 - 1, loc := .FastLoop } ∧
      B.take (E ++ [chd % 256, 0x80 + c / 64 % 64, 0x80 + c % 64]).length
        = E ++ [chd % 256, 0x80 + c / 64 % 64, 0x80 + c % 64] ∧
      B.length = a.byteCount := by
  obtain ⟨B1, e1, o1, l1⟩ := GBState.putStop_out a s chd E tgt out len (by omega)
  rw [e1, GBState.andThen_ok]
  obtain ⟨B2, e2, o2, l2⟩ := GetBytes.long_last a
    { s with bytes := B1, pTarget := (E ++ [chd % 256]).length, pStop := s.pStop - 1 }
    c (0x80 ||| ((c >>> 6) &&& 0x3F)) (E ++ [chd % 256]) hloc rfl o1 l1 (by simp; omega)
  rw [byte_mid6 c] at e2 o2
  rw [e2]
  simp only [List.append_assoc, List.singleton_append] at o2 ⊢
  exact ⟨B2, rfl, o2, l2⟩
  exact hloc
/-- From the label `LongCode` of the fast loop with the unit at `i` pending. -/
theorem GetBytes.good_long {a : GBArgs} {m : Nat} (ih : GetBytes.Below a m)
    (s : GBState) (i c : Nat) (r : List Nat) (E : List Nat) (hinv : GetBytes.Inv a s i 1 E)
    (hloc : s.loc = .LongCode) (hch : s.ch = (c : Int)) (hd : a.chars.drop i = c :: r)
    (hc : 0x80 ≤ c) (hstop : s.pStop ≤ a.pEnd - 5) (hm : a.chars.length - i ≤ m) :
    GetBytes.Good a s := by
  obtain ⟨hi, _, hd1⟩ := drop_cons_facts hd
  have hwf := hinv.wf
  rw [hd] at hwf
  have hct : s.ch.toNat = c := by rw [hch]; simp
  have hl : ∀ r, s.loc ≠ .Return r := by simp [hloc]
  have hsrc := hinv.src
  apply GetBytes.Good.of_step hl
  rw [(GetBytes.step_of_loc a s).2.2.2.2.2.2.1 hloc]
  unfold GetBytes.LongCode
  simp only [hct]
  cases hh : isHigh c
  · obtain ⟨hc16, hlow, hwr, hu⟩ := wellFormed_cons_of_not_high hwf hh
    rw [isHigh_false_iff] at hh
    rw [isLow_false_iff] at hlow
    have htot : utf8Of a.chars = (E ++ utf8 c) ++ utf8Of (a.chars.drop (i + 1)) := by
      rw [hinv.total, hd, hu, hd1, List.append_assoc]
    have hroom : E.length + (utf8 c).length ≤ a.byteCount := by
      have := hinv.room
      rw [htot] at this
      simp only [List.length_append] at this
      omega
    by_cases h2 : c < 0x800
    · have hu8 : utf8 c = [0xC0 + c / 64, 0x80 + c % 64] := by
        simp [utf8, h2]; omega
      rw [hu8] at hroom htot
      rw [if_pos (by omega)]
      obtain ⟨B, e, o, l⟩ := GetBytes.long_last a s c (0xC0 ||| (c >>> 6)) E hl hinv.tgt hinv.out
        hinv.len (by simpa using hroom)
      rw [byte2_first c h2] at e o
      rw [e]
      exact ih _ (i + 1) _ ⟨hsrc, rfl, o, l, htot, hinv.room, by rw [hd1]; exact hwr, hinv.fb,
        hinv.err, hinv.inBounds, hinv.assertsHold⟩ (by omega)
        (Or.inr (Or.inr (Or.inl ⟨rfl, by show s.pStop - 1 ≤ _; omega⟩)))
    · have hu8 : utf8 c = [0xE0 + c / 4096, 0x80 + c / 64 % 64, 0x80 + c % 64] := by
        simp [utf8, h2, hc16]; omega
      rw [hu8] at hroom htot
      have hr : ¬ ((!InRange s.ch HIGH_SURROGATE_START LOW_SURROGATE_END) = true) → False := by
        rw [hch]
        simp only [InRange, HIGH_SURROGATE_START, LOW_SURROGATE_END, Bool.not_eq_true',
          Bool.and_eq_false_imp, decide_eq_true_eq, decide_eq_false_iff_not]
        omega
      rw [if_neg (by omega), if_pos (by_contra hr)]
      obtain ⟨B, e, o, l⟩ := GetBytes.long_mid a s c (0xE0 ||| (c >>> 12)) E hl hinv.tgt hinv.out
        hinv.len (by simpa using hroom)
      rw [byte3_first c hc16] at e o
      rw [e]
      exact ih _ (i + 1) _ ⟨hsrc, rfl, o, l, htot, hinv.room, by rw [hd1]; exact hwr, hinv.fb,
        hinv.err, hinv.inBounds, hinv.assertsHold⟩ (by omega)
        (Or.inr (Or.inr (Or.inl ⟨rfl, by show s.pStop - 1 - 1 ≤ _; omega⟩)))
  · obtain ⟨d, r', hr, hdl, hwr, hu⟩ := wellFormed_cons_of_high hwf hh
    subst hr
    obtain ⟨hi1, _, hd2⟩ := drop_cons_facts hd1
    rw [isHigh_iff] at hh
    rw [isLow_iff] at hdl
    have hun : a.unit s.pSrc = d := GBArgs.unit_of_drop hd1 _ hsrc
    have hn : s.noteLoad a s.pSrc = s := GBState.noteLoad_of_drop s hd1 _ hsrc
    have hr1 : ¬ ((!InRange s.ch HIGH_SURROGATE_START LOW_SURROGATE_END) = true) := by
      rw [hch]
      simp [InRange, HIGH_SURROGATE_START, LOW_SURROGATE_END]
      omega
    have hr2 : ¬ ((!InRange (d : Int) LOW_SURROGATE_START LOW_SURROGATE_END) = true) := by
      simp [InRange, LOW_SURROGATE_START, LOW_SURROGATE_END]
      omega
    have hp : (d : Int) + s.ch * 1024 + pairOffset = ((pairCodePoint c d : Nat) : Int) := by
      rw [hch]; unfold pairOffset pairCodePoint LOW_SURROGATE_START HIGH_SURROGATE_START
      omega
    rw [if_neg (by omega), if_neg hr1, if_neg (by rw [hch]; unfold HIGH_SURROGATE_END; omega)]
    simp only [hun, hn, hp, Int.toNat_ofNat]
    rw [if_neg hr2]
    have hcp : pairCodePoint c d < 0x200000 := by unfold pairCodePoint; omega
    have hge : 0x10000 ≤ pairCodePoint c d := by unfold pairCodePoint; omega
    generalize pairCodePoint c d = cp at hu hp hcp hge ⊢
    have hu8 : utf8 cp
        = [0xF0 + cp / 262144, 0x80 + cp / 4096 % 64, 0x80 + cp / 64 % 64, 0x80 + cp % 64] := by
      unfold utf8
      rw [if_neg (by omega), if_neg (by omega), if_neg (by omega)]
    have htot : utf8Of a.chars = (E ++ utf8 cp) ++ utf8Of (a.chars.drop (i + 2)) := by
      rw [hinv.total, hd, hu, show i + 2 = i + 1 + 1 from rfl, hd2, List.append_assoc]
    have hroom : E.length + 4 ≤ a.byteCount := by
      have := hinv.room
      rw [htot, hu8] at this
      simp only [List.length_append, List.length_cons, List.length_nil] at this
      omega
    rw [hu8] at htot
    obtain ⟨B0, e0, o0, l0⟩ := GBState.put_out a { s with ch := (cp : Int), pSrc := s.pSrc + 1 }
      (0xF0 ||| (cp >>> 18)) E hinv.tgt hinv.out hinv.len (by omega)
    rw [byte4_first cp hcp] at e0 o0
    rw [e0, GBState.andThen_ok]
    dsimp only
    simp only [Int.toNat_ofNat]
    obtain ⟨B, e, o, l⟩ := GetBytes.long_mid a
      { s with ch := (cp : Int), pSrc := s.pSrc + 1, bytes := B0,
               pTarget := (E ++ [0xF0 + cp / 262144]).length }
      cp (0x80 ||| ((cp >>> 12) &&& 0x3F)) (E ++ [0xF0 + cp / 262144]) hl rfl o0 l0
      (by simp; omega)
    rw [byte_mid12 cp] at e o
    rw [e]
    simp only [List.append_assoc, List.singleton_append] at o ⊢
    exact ih _ (i + 2)
      (E ++ [0xF0 + cp / 262144, 0x80 + cp / 4096 % 64, 0x80 + cp / 64 % 64, 0x80 + cp % 64])
      ⟨by show s.pSrc + 1 = _; rw [hsrc]; push_cast; ring, rfl, o, l, htot, hinv.room,
        by rw [show i + 2 = i + 1 + 1 from rfl, hd2]; exact hwr, hinv.fb,
        hinv.err, hinv.inBounds, hinv.assertsHold⟩ (by omega)
      (Or.inr (Or.inr (Or.inl ⟨rfl, by show s.pStop - 1 - 1 ≤ _; omega⟩)))
    exact hl
theorem GetBytes.Inv.target_le {a : GBArgs} {s : GBState} {i k : Nat} {E : List Nat}
    (hinv : GetBytes.Inv a s i k E) : s.pTarget ≤ a.byteCount := by
  have := hinv.room
  rw [hinv.total, List.length_append] at this
  rw [hinv.tgt]; omega

/-- The rest of the body of the fast loop after its first store: the unit
that aligns `pSrc`, then the loop that takes four units at a time. -/
theorem GetBytes.good_fast_tail {a : GBArgs} {m : Nat} (ih : GetBytes.Below a m)
    (t : GBState) (i : Nat) (E : List Nat) (hinv : GetBytes.Inv a t i 0 E)
    (hl : ∀ r, t.loc ≠ .Return r) (hstop : t.pStop ≤ a.pEnd - 5) (hi : i < a.chars.length)
    (hm : a.chars.length - i < m) :
    GetBytes.Good a
      (if sizeT (a.addr + 2 * t.pSrc) &&& 0x2 ≠ 0 then
        (let s := t.next a
         if s.ch > 0x7F then { s with loc := .LongCode }
         else (s.put a s.ch.toNat).andThen fun s => { s with loc := .FastLoop4 })
      else { t with loc := .FastLoop4 }) := by
  have hsrc := hinv.src
  split_ifs with hal
  · cases hd : a.chars.drop i with
    | nil =>
      have := List.drop_eq_nil_iff.mp hd
      omega
    | cons c r =>
      have hun : a.unit t.pSrc = c := GBArgs.unit_of_drop hd _ hsrc
      have hn : t.noteLoad a t.pSrc = t := GBState.noteLoad_of_drop t hd _ hsrc
      have hinv1 : GetBytes.Inv a { t with ch := (c : Int), pSrc := t.pSrc + 1 } i 1 E :=
        hinv.frame _ 1 (by show t.pSrc + 1 = _; rw [hsrc]; push_cast; ring) rfl rfl rfl rfl rfl rfl
      unfold GBState.next
      rw [hn, hun]
      dsimp only
      by_cases hc : c < 0x80
      · rw [if_neg (by omega), Int.toNat_ofNat]
        obtain ⟨B, e, hinv2⟩ := hinv1.put_ascii hd hc
        rw [e, GBState.andThen_ok _ _ (by exact hl)]
        exact ih _ (i + 1) (E ++ [c]) (hinv2.frame _ 0 hinv2.src rfl rfl rfl rfl rfl rfl)
          (by omega) (Or.inr (Or.inr (Or.inr ⟨rfl, hstop⟩)))
      · rw [if_pos (by omega)]
        exact GetBytes.good_long ih _ i c r E (hinv1.frame _ 1 hinv1.src rfl rfl rfl rfl rfl rfl)
          rfl rfl hd (by omega) hstop (by omega)
  · exact ih _ i E (hinv.frame _ 0 hsrc rfl rfl rfl rfl rfl rfl) hm
      (Or.inr (Or.inr (Or.inr ⟨rfl, hstop⟩)))

/-- From the head of the fast loop. -/
theorem GetBytes.good_fast {a : GBArgs} {m : Nat} (ih : GetBytes.Below a m)
    (s : GBState) (i : Nat) (E : List Nat) (hinv : GetBytes.Inv a s i 0 E)
    (hloc : s.loc = .FastLoop) (hstop : s.pStop ≤ a.pEnd - 5) (hm : a.chars.length - i ≤ m) :
    GetBytes.Good a s := by
  have hsrc := hinv.src
  have hl : ∀ r, s.loc ≠ .Return r := by simp [hloc]
  apply GetBytes.Good.of_step hl
  rw [(GetBytes.step_of_loc a s).2.2.2.2.1 hloc]
  unfold GetBytes.FastLoop
  by_cases h1 : s.pSrc < s.pStop
  · have hlen : i + 5 < a.chars.length := by
      have := hstop
      unfold GBArgs.pEnd at this
      omega
    cases hd : a.chars.drop i with
    | nil =>
      have := List.drop_eq_nil_iff.mp hd
      omega
    | cons c r =>
      have hun : a.unit s.pSrc = c := GBArgs.unit_of_drop hd _ hsrc
      have hn : s.noteLoad a s.pSrc = s := GBState.noteLoad_of_drop s hd _ hsrc
      have hinv1 : GetBytes.Inv a { s with ch := (c : Int), pSrc := s.pSrc + 1 } i 1 E :=
        hinv.frame _ 1 (by show s.pSrc + 1 = _; rw [hsrc]; push_cast; ring) rfl rfl rfl rfl rfl rfl
      rw [if_pos h1]
      simp only [GBState.next, hn, hun]
      by_cases hc : c < 0x80
      · rw [if_neg (by omega), Int.toNat_ofNat]
        obtain ⟨B, e, hinv2⟩ := hinv1.put_ascii hd hc
        rw [e, GBState.andThen_ok _ _ (by exact hl)]
        exact GetBytes.good_fast_tail ih _ (i + 1) (E ++ [c]) hinv2 hl hstop (by omega) (by omega)
      · rw [if_pos (by omega)]
        exact GetBytes.good_long ih _ i c r E (hinv1.frame _ 1 hinv1.src rfl rfl rfl rfl rfl rfl)
          rfl rfl hd (by omega) hstop hm
  · rw [if_neg h1]
    unfold GetBytes.afterFastLoop
    rw [decide_eq_true hinv.target_le, GBState.assert_true]
    exact GetBytes.good_top ih _ i E (hinv.frame _ 0 hsrc rfl rfl rfl rfl rfl rfl) rfl rfl hm
theorem wellFormed_units_lt : ∀ (n : Nat) (l : List Nat), l.length ≤ n → wellFormed l = true →
    ∀ x ∈ l, x < 0x10000 := by
  intro n
  induction n with
  | zero =>
    intro l hl _ x hx
    have : l = [] := List.length_eq_zero.mp (by omega)
    subst this
    cases hx
  | succ n ih =>
    intro l hl hwf x hx
    cases l with
    | nil => cases hx
    | cons c r =>
      cases hh : isHigh c
      · obtain ⟨hc, _, hwr, _⟩ := wellFormed_cons_of_not_high hwf hh
        rcases List.mem_cons.mp hx with h | h
        · rw [h]; exact hc
        · exact ih r (by simpa using hl) hwr x h
      · obtain ⟨d, r', hr, hdl, hwr, _⟩ := wellFormed_cons_of_high hwf hh
        subst hr
        rw [isHigh_iff] at hh
        rw [isLow_iff] at hdl
        rcases List.mem_cons.mp hx with h | h
        · rw [h]; omega
        · rcases List.mem_cons.mp h with h | h
          · rw [h]; omega
          · exact ih r' (by simp at hl; omega) hwr x h

theorem drop_four {l : List Nat} {i : Nat} (h : i + 4 ≤ l.length) :
    ∃ c0 c1 c2 c3 r, l.drop i = c0 :: c1 :: c2 :: c3 :: r := by
  rw [List.drop_eq_getElem_cons (show i < l.length by omega),
    List.drop_eq_getElem_cons (show i + 1 < l.length by omega),
    List.drop_eq_getElem_cons (show i + 1 + 1 < l.length by omega),
    List.drop_eq_getElem_cons (show i + 1 + 1 + 1 < l.length by omega)]
  exact ⟨_, _, _, _, _, rfl⟩

theorem GBState.store_ok (a : GBArgs) (s : GBState) (k b : Nat) (h : s.pTarget + k < a.byteCount) :
    s.store a k b = { s with bytes := s.bytes.set (s.pTarget + k) (b % 256) } := by
  rw [GBState.store, if_pos h]

theorem take_set_four (l : List Nat) (n b0 b1 b2 b3 : Nat) (hlen : n + 4 ≤ l.length) :
    ((((l.set (n + 0) b0).set (n + 1) b1).set (n + 2) b2).set (n + 3) b3).take (n + 4)
      = l.take n ++ [b0, b1, b2, b3] := by
  have h3 := take_set_succ (((l.set n b0).set (n + 1) b1).set (n + 2) b2) (n + 3) b3
    (by simp; omega)
  have h2 := take_set_succ ((l.set n b0).set (n + 1) b1) (n + 2) b2 (by simp; omega)
  have h1 := take_set_succ (l.set n b0) (n + 1) b1 (by simp; omega)
  have h0 := take_set_succ l n b0 (by omega)
  show List.take (n + 3 + 1) ((((l.set n b0).set (n + 1) b1).set (n + 2) b2).set (n + 3) b3) = _
  rw [h3, h2, h1, h0]
  simp
theorem wellFormed_cons_ascii {c : Nat} {r : List Nat} (h : wellFormed (c :: r) = true)
    (hc : c < 0x80) : wellFormed r = true ∧ utf8Of (c :: r) = c :: utf8Of r := by
  have hh : isHigh c = false := by rw [isHigh_false_iff]; omega
  obtain ⟨_, _, hwr, hu⟩ := wellFormed_cons_of_not_high h hh
  have hu8 : utf8 c = [c] := by simp [utf8, hc]
  exact ⟨hwr, by rw [hu, hu8]; rfl⟩

/-- From the head of the loop that takes four units at a time. -/
theorem GetBytes.good_fast4 {a : GBArgs} {m : Nat} (ih : GetBytes.Below a m)
    (s : GBState) (i : Nat) (E : List Nat) (hinv : GetBytes.Inv a s i 0 E)
    (hloc : s.loc = .FastLoop4) (hstop : s.pStop ≤ a.pEnd - 5) (hm : a.chars.length - i ≤ m) :
    GetBytes.Good a s := by
  have hsrc := hinv.src
  have hl : ∀ r, s.loc ≠ .Return r := by simp [hloc]
  apply GetBytes.Good.of_step hl
  rw [(GetBytes.step_of_loc a s).2.2.2.2.2.1 hloc]
  unfold GetBytes.FastLoop4
  by_cases h1 : s.pSrc < s.pStop
  · have hlen : i + 5 < a.chars.length := by
      have := hstop
      unfold GBArgs.pEnd at this
      omega
    obtain ⟨c0, c1, c2, c3, r, hd⟩ := drop_four (show i + 4 ≤ a.chars.length by omega)
    obtain ⟨_, _, hd1⟩ := drop_cons_facts hd
    obtain ⟨_, _, hd2⟩ := drop_cons_facts hd1
    obtain ⟨_, _, hd3⟩ := drop_cons_facts hd2
    obtain ⟨_, _, hd4⟩ := drop_cons_facts hd3
    have hwf := hinv.wf
    rw [hd] at hwf
    have hlt := wellFormed_units_lt _ _ (Nat.le_refl _) hwf
    have l0 : c0 < 65536 := hlt c0 (by simp)
    have l1 : c1 < 65536 := hlt c1 (by simp)
    have l2 : c2 < 65536 := hlt c2 (by simp)
    have l3 : c3 < 65536 := hlt c3 (by simp)
    have hu0 : a.unit s.pSrc = c0 := GBArgs.unit_of_drop hd _ hsrc
    have hu1 : a.unit (s.pSrc + 1) = c1 :=
      GBArgs.unit_of_drop hd1 _ (by rw [hsrc]; push_cast; ring)
    have hu2 : a.unit (s.pSrc + 2) = c2 :=
      GBArgs.unit_of_drop hd2 _ (by rw [hsrc]; push_cast; ring)
    have hu3 : a.unit (s.pSrc + 2 + 1) = c3 :=
      GBArgs.unit_of_drop hd3 _ (by rw [hsrc]; push_cast; ring)
    have hn0 : s.noteLoad a s.pSrc = s := GBState.noteLoad_of_drop s hd _ hsrc
    have hn1 : s.noteLoad a (s.pSrc + 1) = s :=
      GBState.noteLoad_of_drop s hd1 _ (by rw [hsrc]; push_cast; ring)
    have hn2 : s.noteLoad a (s.pSrc + 2) = s :=
      GBState.noteLoad_of_drop s hd2 _ (by rw [hsrc]; push_cast; ring)
    have hn3 : s.noteLoad a (s.pSrc + 3) = s :=
      GBState.noteLoad_of_drop s hd3 _ (by rw [hsrc]; push_cast; ring)
    have hinv1 : GetBytes.Inv a { s with ch := (c0 : Int), pSrc := s.pSrc + 1 } i 1 E :=
      hinv.frame _ 1 (by show s.pSrc + 1 = _; rw [hsrc]; push_cast; ring) rfl rfl rfl rfl rfl rfl
    have hw : (c0 + 65536 * c1) % 65536 = c0 := by omega
    rw [if_pos h1]
    simp only [GBArgs.load32, hu0, hu1, hu2, hu3, hn0, hn1, hn2, hn3, hw]
    by_cases hall : c0 < 128 ∧ c1 < 128 ∧ c2 < 128 ∧ c3 < 128
    · have hmask := (mask_test c0 c1 c2 c3 l0 l1 l2 l3).mpr hall
      rw [if_neg (by rw [hmask]; simp)]
      obtain ⟨w1, e1⟩ := wellFormed_cons_ascii hwf hall.1
      obtain ⟨w2, e2⟩ := wellFormed_cons_ascii w1 hall.2.1
      obtain ⟨w3, e3⟩ := wellFormed_cons_ascii w2 hall.2.2.1
      obtain ⟨w4, e4⟩ := wellFormed_cons_ascii w3 hall.2.2.2
      have htot : utf8Of a.chars
          = (E ++ [c0, c1, c2, c3]) ++ utf8Of (a.chars.drop (i + 4)) := by
        rw [hinv.total, hd, e1, e2, e3, e4, show i + 4 = i + 1 + 1 + 1 + 1 from rfl, hd4]
        simp
      have hroom : E.length + 4 ≤ a.byteCount := by
        have := hinv.room
        rw [htot] at this
        simp only [List.length_append, List.length_cons, List.length_nil] at this
        omega
      have htgt := hinv.tgt
      have hb0 : (c0 + 65536 * c1) % 256 = c0 := by omega
      have hb1 : ((c0 + 65536 * c1) >>> 16) % 256 = c1 := by
        rw [Nat.shiftRight_eq_div_pow]
        show (c0 + 65536 * c1) / 65536 % 256 = c1
        omega
      have hb2 : (c2 + 65536 * c3) % 256 = c2 := by omega
      have hb3 : ((c2 + 65536 * c3) >>> 16) % 256 = c3 := by
        rw [Nat.shiftRight_eq_div_pow]
        show (c2 + 65536 * c3) / 65536 % 256 = c3
        omega
      have p0 : s.pTarget + 0 < a.byteCount := by omega
      have p1 : s.pTarget + 1 < a.byteCount := by omega
      have p2 : s.pTarget + 2 < a.byteCount := by omega
      have p3 : s.pTarget + 3 < a.byteCount := by omega
      rw [if_neg (show ¬ (s.pTarget + 4 > a.byteCount) by omega)]
      simp only [GBState.store, p0, p1, p2, p3, ↓reduceIte, hb0, hb1, hb2, hb3]
      refine ih _ (i + 4) (E ++ [c0, c1, c2, c3]) ⟨?_, ?_, ?_, ?_, htot, hinv.room, ?_, hinv.fb,
        hinv.err, hinv.inBounds, hinv.assertsHold⟩ (by omega) (Or.inr (Or.inr (Or.inr ⟨rfl, hstop⟩)))
      · show s.pSrc + 4 = _
        rw [hsrc]; push_cast; ring
      · show s.pTarget + 4 = _
        rw [htgt]; simp
      · show List.take _ ((((s.bytes.set (s.pTarget + 0) c0).set (s.pTarget + 1) c1).set
          (s.pTarget + 2) c2).set (s.pTarget + 3) c3) = _
        rw [htgt, show (E ++ [c0, c1, c2, c3]).length = E.length + 4 by simp,
          take_set_four s.bytes E.length c0 c1 c2 c3 (by rw [hinv.len]; omega), hinv.out]
      · show (List.set _ _ _).length = _
        simp [hinv.len]
      · rw [show i + 4 = i + 1 + 1 + 1 + 1 from rfl, hd4]; exact w4
    · have hmask : ((c0 + 65536 * c1) ||| (c2 + 65536 * c3)) &&& 0xFF80FF80 ≠ 0 :=
        fun h => hall ((mask_test c0 c1 c2 c3 l0 l1 l2 l3).mp h)
      rw [if_pos hmask]
      by_cases hc : c0 < 0x80
      · rw [if_neg (by omega), Int.toNat_ofNat]
        obtain ⟨B, e, hinv2⟩ := hinv1.put_ascii hd hc
        rw [e, GBState.andThen_ok _ _ (by exact hl)]
        exact ih _ (i + 1) (E ++ [c0]) (hinv2.frame _ 0 hinv2.src rfl rfl rfl rfl rfl rfl)
          (by omega) (Or.inr (Or.inr (Or.inl ⟨rfl, hstop⟩)))
      · rw [if_pos (by omega)]
        exact GetBytes.good_long ih _ i c0 _ E (hinv1.frame _ 1 hinv1.src rfl rfl rfl rfl rfl rfl)
          rfl rfl hd (by omega) hstop hm
  · rw [if_neg h1]
    exact GetBytes.good_fast ih _ i E (hinv.frame _ 0 hsrc rfl rfl rfl rfl rfl rfl) rfl hstop hm
/-- Every loop head leads to a `Final` state, however many units are left. -/
theorem GetBytes.below_all (a : GBArgs) : ∀ m, GetBytes.Below a m := by
  intro m
  induction m with
  | zero =>
    intro s i E _ h _
    omega
  | succ m ih =>
    intro s i E hinv hm hat
    have hm' : a.chars.length - i ≤ m := by omega
    rcases hat with ⟨hl, hc⟩ | hl | ⟨hl, hs⟩ | ⟨hl, hs⟩
    · exact GetBytes.good_top ih s i E hinv hl hc hm'
    · exact GetBytes.good_ascii ih s i E hinv hl hm'
    · exact GetBytes.good_fast ih s i E hinv hl hs hm'
    · exact GetBytes.good_fast4 ih s i E hinv hl hs hm'

/-- On entry the invariant holds with nothing encoded. -/
theorem GetBytes.entry_inv (addr : Nat) (source destination : List Nat)
    (hwf : wellFormed source = true) (hroom : (utf8Of source).length ≤ destination.length) :
    GetBytes.Inv { chars := source, byteCount := destination.length, addr := addr }
      (GetBytes.entry initialEncoder destination) 0 0 [] :=
  ⟨rfl, rfl, rfl, rfl, rfl, hroom, hwf, rfl, rfl, rfl, rfl⟩

/-- C17: for every well-formed UTF-16 source of length at least 1, at every
source address and for every destination at least as long as the UTF-8
encoding of the source, `minipal_convert_utf16_to_utf8` returns (with enough
fuel for its loops, so the loops end) the length of that encoding, and the
destination then starts with the standard UTF-8 encoding of the code points
of the source; its length is unchanged. -/
theorem convert_well_formed (addr : Nat) (source destination : List Nat)
    (hlen : 1 ≤ source.length) (hwf : wellFormed source = true)
    (hroom : (utf8Of source).length ≤ destination.length) :
    ∃ N out, (∀ fuel, N ≤ fuel →
        minipal_convert_utf16_to_utf8 fuel addr source destination
          = some ((utf8Of source).length, out)) ∧
      out.take (utf8Of source).length = utf8Of source ∧ out.length = destination.length := by
  obtain ⟨n, s', hr, hf⟩ := GetBytes.below_all
    { chars := source, byteCount := destination.length, addr := addr } (source.length + 1)
    (GetBytes.entry initialEncoder destination) 0 []
    (GetBytes.entry_inv addr source destination hwf hroom) (by show source.length - 0 < _; omega)
    (Or.inl ⟨rfl, rfl⟩)
  obtain ⟨h1, h2, h3, h4, _, _⟩ := hf
  refine ⟨n, s'.bytes, ?_, h2, h3⟩
  intro fuel hfu
  obtain ⟨k, rfl⟩ := Nat.exists_eq_add_of_le hfu
  unfold minipal_convert_utf16_to_utf8
  rw [if_neg (by omega), GetBytes.run_add_fuel _ n _ _ hr k]
  simp [h4, GBState.ret, h1]

/-- C17, witness: `A`, `é`, the euro sign and a surrogate pair (U+1F600), from
an address that is not a multiple of four, into a buffer of exactly ten
bytes. -/
theorem convert_well_formed_witness :
    ∃ N out, (∀ fuel, N ≤ fuel →
        minipal_convert_utf16_to_utf8 fuel 2 [0x41, 0xE9, 0x20AC, 0xD83D, 0xDE00]
          (List.replicate 10 0) = some (10, out)) ∧
      out.take 10 = [0x41, 0xC3, 0xA9, 0xE2, 0x82, 0xAC, 0xF0, 0x9F, 0x98, 0x80] ∧
      out.length = 10 :=
  convert_well_formed 2 [0x41, 0xE9, 0x20AC, 0xD83D, 0xDE00] (List.replicate 10 0)
    (by decide) (by decide) (by decide)

/-! ## The layout of the ARM64 save buffer -/

/-- C21 (ARM64 save layout). For every register state, `ryujit_setjmp(buf)`
leaves `sp` in `buf[0]`, `x19`..`x28` in `buf[1]`..`buf[10]`, the frame pointer
`x29` in `buf[11]` and the return address `x30` in `buf[12]`; every word of
memory other than these thirteen is as before, so nothing is written at
index 13 or beyond; it returns 0 (`x0` is 0 on exit), leaves `sp` and
`x19`..`x30` unchanged and continues at the return address. -/
theorem save_layout (m : Arm64) :
    (ryujit_setjmp m).mem (bufWord (m.x 0) 0) = m.sp ∧
    (∀ i, 1 ≤ i → i ≤ 12 → (ryujit_setjmp m).mem (bufWord (m.x 0) i) = m.x (18 + i)) ∧
    (∀ a, (∀ i, i < 13 → a ≠ bufWord (m.x 0) i) → (ryujit_setjmp m).mem a = m.mem a) ∧
    (∀ j, 13 ≤ j → j < 2 ^ 61 →
      (ryujit_setjmp m).mem (bufWord (m.x 0) j) = m.mem (bufWord (m.x 0) j)) ∧
    (ryujit_setjmp m).x 0 = 0 ∧ (ryujit_setjmp m).returned = 0 ∧
    (ryujit_setjmp m).sp = m.sp ∧
    (∀ i, 19 ≤ i → i ≤ 30 → (ryujit_setjmp m).x i = m.x i) ∧
    (ryujit_setjmp m).pc = m.x 30 := by
  have hother : ∀ a, (∀ i, i < 13 → a ≠ bufWord (m.x 0) i) →
      (ryujit_setjmp m).mem a = m.mem a := by
    intro a h
    have h0 := h 0 (by decide)
    have h1 := h 1 (by decide)
    have h2 := h 2 (by decide)
    have h3 := h 3 (by decide)
    have h4 := h 4 (by decide)
    have h5 := h 5 (by decide)
    have h6 := h 6 (by decide)
    have h7 := h 7 (by decide)
    have h8 := h 8 (by decide)
    have h9 := h 9 (by decide)
    have h10 := h 10 (by decide)
    have h11 := h 11 (by decide)
    have h12 := h 12 (by decide)
    unfold bufWord at h0 h1 h2 h3 h4 h5 h6 h7 h8 h9 h10 h11 h12
    rw [setjmp_mem]
    show (if a = _ then _ else _) = _
    rw [if_neg (show ¬ (a = (m.x 0 + 88 + 8) % 2 ^ 64) from fun e => h12 (by rw [e])),
      if_neg (show ¬ (a = (m.x 0 + 88) % 2 ^ 64) from fun e => h11 (by rw [e])),
      if_neg (show ¬ (a = (m.x 0 + 72 + 8) % 2 ^ 64) from fun e => h10 (by rw [e])),
      if_neg (show ¬ (a = (m.x 0 + 72) % 2 ^ 64) from fun e => h9 (by rw [e])),
      if_neg (show ¬ (a = (m.x 0 + 56 + 8) % 2 ^ 64) from fun e => h8 (by rw [e])),
      if_neg (show ¬ (a = (m.x 0 + 56) % 2 ^ 64) from fun e => h7 (by rw [e])),
      if_neg (show ¬ (a = (m.x 0 + 40 + 8) % 2 ^ 64) from fun e => h6 (by rw [e])),
      if_neg (show ¬ (a = (m.x 0 + 40) % 2 ^ 64) from fun e => h5 (by rw [e])),
      if_neg (show ¬ (a = (m.x 0 + 24 + 8) % 2 ^ 64) from fun e => h4 (by rw [e])),
      if_neg (show ¬ (a = (m.x 0 + 24) % 2 ^ 64) from fun e => h3 (by rw [e])),
      if_neg (show ¬ (a = (m.x 0 + 8 + 8) % 2 ^ 64) from fun e => h2 (by rw [e])),
      if_neg (show ¬ (a = (m.x 0 + 8) % 2 ^ 64) from fun e => h1 (by rw [e])),
      if_neg (show ¬ (a = (m.x 0 + 0) % 2 ^ 64) from fun e => h0 (by rw [e]))]
  refine ⟨setjmp_buf_0 m, ?_, hother, ?_, rfl, rfl, rfl, ?_, rfl⟩
  · intro i h1 h2
    interval_cases i
    · exact setjmp_buf_1 m
    · exact setjmp_buf_2 m
    · exact setjmp_buf_3 m
    · exact setjmp_buf_4 m
    · exact setjmp_buf_5 m
    · exact setjmp_buf_6 m
    · exact setjmp_buf_7 m
    · exact setjmp_buf_8 m
    · exact setjmp_buf_9 m
    · exact setjmp_buf_10 m
    · exact setjmp_buf_11 m
    · exact setjmp_buf_12 m
  · intro j h1 h2
    apply hother
    intro i hi
    unfold bufWord
    omega
  · intro i h1 h2
    show (if i = 0 then 0 else if i = 2 then m.sp else m.x i) = m.x i
    rw [if_neg (by omega), if_neg (by omega)]

/-! ## UTF-8 conversion: an unpaired surrogate that is dropped -/

/-- C22 (failing input): for the source of a lone low surrogate `0xDC00`
followed by a lone high surrogate `0xD800`, the claim asks for two U+FFFD,
six bytes; with a destination of six bytes `minipal_convert_utf16_to_utf8`
returns 3 and stores one U+FFFD.  The same happens for two high surrogates
in a row.  The first fallback leaves `bFallingBack` set (the early return of
`InternalGetNextChar` does not clear it), so at the end of the input the
pending high surrogate takes the branch for leftovers of the fallback buffer,
finds that buffer empty and leaves the loop without a fallback.  Two low
surrogates, and a high surrogate with no fallback before it, are replaced as
the claim says. -/
theorem later_high_surrogate_at_end_dropped :
    utf8Of (replaceUnpaired [0xDC00, 0xD800]) = [0xEF, 0xBF, 0xBD, 0xEF, 0xBF, 0xBD] ∧
    minipal_convert_utf16_to_utf8 100 0 [0xDC00, 0xD800] [0, 0, 0, 0, 0, 0]
      = some (3, [0xEF, 0xBF, 0xBD, 0, 0, 0]) ∧
    utf8Of (replaceUnpaired [0xD800, 0xD800]) = [0xEF, 0xBF, 0xBD, 0xEF, 0xBF, 0xBD] ∧
    minipal_convert_utf16_to_utf8 100 0 [0xD800, 0xD800] [0, 0, 0, 0, 0, 0]
      = some (3, [0xEF, 0xBF, 0xBD, 0, 0, 0]) ∧
    minipal_convert_utf16_to_utf8 100 0 [0xDC00, 0xDC00] [0, 0, 0, 0, 0, 0]
      = some (6, [0xEF, 0xBF, 0xBD, 0xEF, 0xBF, 0xBD]) ∧
    minipal_convert_utf16_to_utf8 100 0 [0xD800] [0, 0, 0] = some (3, [0xEF, 0xBF, 0xBD]) := by
  decide

/-! ## The host allocator -/

/-- C25 (the host allocator never requests a wrapped size). For every element
size `sizeof(T) ≥ 1` and every count `n`: when `n` exceeds
`SIZE_MAX / sizeof(T)`, `allocate(n)` ends in the fatal escape without calling
`ryujit_host_alloc`; otherwise `n * sizeof(T)` does not exceed `SIZE_MAX` and
`ryujit_host_alloc` is called once, with exactly `n * sizeof(T)`, and a null
result ends in the fatal escape.  So every size requested from the host is
the unwrapped product, and a pointer returned to the caller is never null.
The guard rejects exactly the counts whose product exceeds `SIZE_MAX`. -/
theorem allocate_never_wraps (sizeofT : Nat) (ryujit_host_alloc : Nat → Nat) (n : Nat)
    (hT : 1 ≤ sizeofT) :
    (n > SIZE_MAX / sizeofT ↔ n * sizeofT > SIZE_MAX) ∧
    (n > SIZE_MAX / sizeofT →
      RyujitHostAllocator.allocate sizeofT ryujit_host_alloc n
        = { calls := [.panic "attempted to allocate an invalid amount of bytes"], ret := none }) ∧
    (n ≤ SIZE_MAX / sizeofT →
      n * sizeofT ≤ SIZE_MAX ∧
      (ryujit_host_alloc (n * sizeofT) ≠ 0 →
        RyujitHostAllocator.allocate sizeofT ryujit_host_alloc n
          = { calls := [.alloc (n * sizeofT)],
              ret := some (ryujit_host_alloc (n * sizeofT)) }) ∧
      (ryujit_host_alloc (n * sizeofT) = 0 →
        RyujitHostAllocator.allocate sizeofT ryujit_host_alloc n
          = { calls := [.alloc (n * sizeofT), .panic "failed to allocate host memory"],
              ret := none })) ∧
    (∀ size, HostCall.alloc size ∈ (RyujitHostAllocator.allocate sizeofT ryujit_host_alloc n).calls →
      size = n * sizeofT ∧ n * sizeofT ≤ SIZE_MAX) ∧
    (∀ p, (RyujitHostAllocator.allocate sizeofT ryujit_host_alloc n).ret = some p → p ≠ 0) := by
  refine ⟨Nat.div_lt_iff_lt_mul (by omega), ?_⟩
  by_cases h : n > SIZE_MAX / sizeofT
  · have e : RyujitHostAllocator.allocate sizeofT ryujit_host_alloc n
        = { calls := [.panic "attempted to allocate an invalid amount of bytes"], ret := none } := by
      unfold RyujitHostAllocator.allocate
      rw [if_pos h]
    refine ⟨fun _ => e, fun h' => absurd h (by omega), ?_, ?_⟩
    · intro size hs
      rw [e] at hs
      simp at hs
    · intro p hp
      rw [e] at hp
      cases hp
  · have hle : n ≤ SIZE_MAX / sizeofT := by omega
    have hprod : n * sizeofT ≤ SIZE_MAX :=
      le_trans (Nat.mul_le_mul_right sizeofT hle) (Nat.div_mul_le_self SIZE_MAX sizeofT)
    have hmod : (n * sizeofT) % 2 ^ 64 = n * sizeofT := by
      apply Nat.mod_eq_of_lt
      unfold SIZE_MAX at hprod
      omega
    have e1 : ryujit_host_alloc (n * sizeofT) ≠ 0 →
        RyujitHostAllocator.allocate sizeofT ryujit_host_alloc n
          = { calls := [.alloc (n * sizeofT)],
              ret := some (ryujit_host_alloc (n * sizeofT)) } := by
      intro hp
      unfold RyujitHostAllocator.allocate
      rw [if_neg h]
      simp only [hmod]
      rw [if_pos hp]
    have e2 : ryujit_host_alloc (n * sizeofT) = 0 →
        RyujitHostAllocator.allocate sizeofT ryujit_host_alloc n
          = { calls := [.alloc (n * sizeofT), .panic "failed to allocate host memory"],
              ret := none } := by
      intro hp
      unfold RyujitHostAllocator.allocate
      rw [if_neg h]
      simp only [hmod]
      rw [if_neg (by rw [hp]; simp)]
    refine ⟨fun h' => absurd h' h, fun _ => ⟨hprod, e1, e2⟩, ?_, ?_⟩
    · intro size hs
      by_cases hp : ryujit_host_alloc (n * sizeofT) = 0
      · rw [e2 hp] at hs
        simp at hs
        exact ⟨hs, hprod⟩
      · rw [e1 hp] at hs
        simp at hs
        exact ⟨hs, hprod⟩
    · intro p hp'
      by_cases hp : ryujit_host_alloc (n * sizeofT) = 0
      · rw [e2 hp] at hp'
        cases hp'
      · rw [e1 hp] at hp'
        injection hp' with hp'
        rw [← hp']
        exact hp

/-- C25 for 8-byte elements and a host that hands out the address 4096 for
requests up to a megabyte and null above: `2 ^ 61` elements would wrap to a
request of 0 bytes, and the call escapes before the host is asked. -/
theorem allocate_never_wraps_witness :
    RyujitHostAllocator.allocate 8 (fun size => if size ≤ 1048576 then 4096 else 0) (2 ^ 61)
      = { calls := [.panic "attempted to allocate an invalid amount of bytes"], ret := none } ∧
    RyujitHostAllocator.allocate 8 (fun size => if size ≤ 1048576 then 4096 else 0) 3
      = { calls := [.alloc 24], ret := some 4096 } ∧
    RyujitHostAllocator.allocate 8 (fun size => if size ≤ 1048576 then 4096 else 0) 1000000
      = { calls := [.alloc 8000000, .panic "failed to allocate host memory"], ret := none } :=
  ⟨(allocate_never_wraps 8 (fun size => if size ≤ 1048576 then 4096 else 0) (2 ^ 61)
      (by decide)).2.1 (by decide),
    ((allocate_never_wraps 8 (fun size => if size ≤ 1048576 then 4096 else 0) 3
      (by decide)).2.2.1 (by decide)).2.1 (by decide),
    ((allocate_never_wraps 8 (fun size => if size ≤ 1048576 then 4096 else 0) 1000000
      (by decide)).2.2.1 (by decide)).2.2 (by decide)⟩

/-! ## The length of a UTF-16 string -/

theorem u16_strlen_loop_spec : ∀ (pre : List Nat) (buf : List Nat) (str len extra : Nat)
    (rest : List Nat), buf.drop str = pre ++ 0 :: rest → (∀ u ∈ pre, u ≠ 0) →
    len + pre.length < 2 ^ 64 →
    u16_strlen.loop (pre.length + 1 + extra) buf str len = some (.returned (len + pre.length)) := by
  intro pre
  induction pre with
  | nil =>
    intro buf str len extra rest hd _ _
    have h0 : buf[str]? = some 0 := by
      rw [← List.head?_drop, hd]; rfl
    show u16_strlen.loop (0 + 1 + extra) buf str len = _
    rw [show 0 + 1 + extra = extra + 1 by omega, u16_strlen.loop, h0]
    simp
  | cons c pre ih =>
    intro buf str len extra rest hd hnz hlen
    have hc : buf[str]? = some c := by
      rw [← List.head?_drop, hd]; rfl
    have hd1 : buf.drop (str + 1) = pre ++ 0 :: rest := by
      rw [← List.drop_drop, hd]  
      rfl
    have hcz : c ≠ 0 := hnz c (by simp)
    simp only [List.length_cons] at hlen ⊢
    rw [show pre.length + 1 + 1 + extra = (pre.length + 1 + extra) + 1 by omega, u16_strlen.loop, hc]
    simp only [hcz, ne_eq, not_false_eq_true, if_true]
    rw [show (len + 1) % 2 ^ 64 = len + 1 from Nat.mod_eq_of_lt (by omega),
      ih buf (str + 1) (len + 1) extra rest hd1 (fun u hu => hnz u (by simp [hu])) (by omega)]
    congr 2
    omega

theorem first_zero_split : ∀ (buf : List Nat), 0 ∈ buf →
    ∃ pre rest, buf = pre ++ 0 :: rest ∧ ∀ u ∈ pre, u ≠ 0 := by
  intro buf
  induction buf with
  | nil => intro h; cases h
  | cons c t ih =>
    intro h
    by_cases hc : c = 0
    · exact ⟨[], t, by rw [hc]; rfl, fun u hu => by cases hu⟩
    · rcases List.mem_cons.mp h with h | h
      · exact absurd h.symm hc
      · obtain ⟨pre, rest, e, hnz⟩ := ih h
        refine ⟨c :: pre, rest, by rw [e]; rfl, ?_⟩
        intro u hu
        rcases List.mem_cons.mp hu with hu | hu
        · rw [hu]; exact hc
        · exact hnz u hu

/-- C26 (`u16_strlen` returns the index of the first terminator). For every
buffer of 16-bit units that contains a zero unit (and, being in memory, has
at most `2 ^ 64` units) there is an index `i` with `buffer[i] = 0` and every
unit below `i` nonzero, and `u16_strlen` ends, with enough fuel for its loop,
by returning `i`, without reading outside the buffer; `i` is 0 when the buffer
starts with a zero unit. -/
theorem u16_strlen_first_zero (buf : List Nat) (h0 : 0 ∈ buf) (hlen : buf.length ≤ 2 ^ 64) :
    ∃ i, buf[i]? = some 0 ∧ (∀ j, j < i → ∃ u, buf[j]? = some u ∧ u ≠ 0) ∧
      (buf.head? = some 0 → i = 0) ∧
      ∃ N, ∀ fuel, N ≤ fuel → u16_strlen fuel buf = some (.returned i) := by
  obtain ⟨pre, rest, e, hnz⟩ := first_zero_split buf h0
  have hl : pre.length < 2 ^ 64 := by
    have : buf.length = pre.length + (rest.length + 1) := by rw [e]; simp
    omega
  refine ⟨pre.length, ?_, ?_, ?_, pre.length + 1, ?_⟩
  · rw [e, List.getElem?_append_right (Nat.le_refl _), Nat.sub_self]; simp
  · intro j hj
    refine ⟨pre[j], ?_, hnz _ (List.getElem_mem _)⟩
    rw [e, List.getElem?_append_left hj, List.getElem?_eq_getElem hj]
  · intro hh
    cases pre with
    | nil => rfl
    | cons c p =>
      rw [e] at hh
      simp at hh
      exact absurd hh (hnz c (by simp))
  · intro fuel hfu
    obtain ⟨k, rfl⟩ := Nat.exists_eq_add_of_le hfu
    have := u16_strlen_loop_spec pre buf 0 0 k rest (by rw [List.drop_zero]; exact e) hnz
      (by omega)
    rw [Nat.zero_add] at this
    exact this

/-- C26 for the string `hi` followed by its terminator and two more units. -/
theorem u16_strlen_first_zero_witness :
    ∃ i, [0x68, 0x69, 0, 0x21, 0][i]? = some 0 ∧
      (∀ j, j < i → ∃ u, [0x68, 0x69, 0, 0x21, 0][j]? = some u ∧ u ≠ 0) ∧
      (([0x68, 0x69, 0, 0x21, 0] : List Nat).head? = some 0 → i = 0) ∧
      ∃ N, ∀ fuel, N ≤ fuel → u16_strlen fuel [0x68, 0x69, 0, 0x21, 0] = some (.returned i) :=
  u16_strlen_first_zero [0x68, 0x69, 0, 0x21, 0] (by decide) (by decide)

/-! ## Every run of GetBytes: safety of each step and termination -/

/-! ### Every run of `GetBytes`: bounds and termination -/

@[simp] theorem GBState.assert_loc (s : GBState) (c : Bool) : (s.assert c).loc = s.loc := by
  unfold GBState.assert; split <;> rfl

@[simp] theorem GBState.assert_bytes (s : GBState) (c : Bool) : (s.assert c).bytes = s.bytes := by
  unfold GBState.assert; split <;> rfl

@[simp] theorem GBState.assert_pSrc (s : GBState) (c : Bool) : (s.assert c).pSrc = s.pSrc := by
  unfold GBState.assert; split <;> rfl

@[simp] theorem GBState.assert_pTarget (s : GBState) (c : Bool) :
    (s.assert c).pTarget = s.pTarget := by
  unfold GBState.assert; split <;> rfl

@[simp] theorem GBState.assert_pStop (s : GBState) (c : Bool) : (s.assert c).pStop = s.pStop := by
  unfold GBState.assert; split <;> rfl

@[simp] theorem GBState.assert_ch (s : GBState) (c : Bool) : (s.assert c).ch = s.ch := by
  unfold GBState.assert; split <;> rfl

@[simp] theorem GBState.assert_fallbackUsed (s : GBState) (c : Bool) :
    (s.assert c).fallbackUsed = s.fallbackUsed := by
  unfold GBState.assert; split <;> rfl

@[simp] theorem GBState.assert_encoder (s : GBState) (c : Bool) :
    (s.assert c).encoder = s.encoder := by
  unfold GBState.assert; split <;> rfl

@[simp] theorem GBState.assert_errnoResult (s : GBState) (c : Bool) :
    (s.assert c).errnoResult = s.errnoResult := by
  unfold GBState.assert; split <;> rfl

@[simp] theorem GBState.assert_oob (s : GBState) (c : Bool) : (s.assert c).oob = s.oob := by
  unfold GBState.assert; split <;> rfl

theorem and_fc00 (c : Nat) (h : c < 65536) : c &&& 0xFC00 = 1024 * (c / 1024) := by
  have h1 := and_blocks 10 (c / 1024) (c % 1024) 0x3F 0 (Nat.mod_lt _ (by decide)) (by decide)
  have h2 : c / 1024 &&& 0x3F = c / 1024 :=
    Nat.and_pow_two_sub_one_of_lt_two_pow (show c / 1024 < 2 ^ 6 by omega)
  have h3 : 2 ^ 10 * (c / 1024) + c % 1024 = c := by omega
  rw [h3, h2] at h1
  simpa using h1

theorem IsHighSurrogate_iff (c : Nat) (h : c < 65536) :
    IsHighSurrogate c = true ↔ 0xD800 ≤ c ∧ c ≤ 0xDBFF := by
  unfold IsHighSurrogate
  rw [and_fc00 c h, beq_iff_eq]
  omega

theorem IsLowSurrogate_iff (c : Nat) (h : c < 65536) :
    IsLowSurrogate c = true ↔ 0xDC00 ≤ c ∧ c ≤ 0xDFFF := by
  unfold IsLowSurrogate
  rw [and_fc00 c h, beq_iff_eq]
  omega

theorem GBArgs.unit_lt {a : GBArgs} (hv : a.Valid) (i : Int) : a.unit i < 65536 := by
  unfold GBArgs.unit
  split
  · next h =>
    have hi : i.toNat < a.chars.length := by
      have := h.2
      unfold GBArgs.pEnd at this
      omega
    rw [List.getD_eq_getElem _ _ hi]
    exact hv.1 _ (List.getElem_mem _)
  · decide

theorem GBState.noteLoad_ok (a : GBArgs) (s : GBState) (i : Int) (h0 : 0 ≤ i) (h1 : i < a.pEnd) :
    s.noteLoad a i = s := by
  unfold GBState.noteLoad
  rw [if_pos ⟨h0, h1⟩]

theorem wrapInt_range (x : Int) : -2147483648 ≤ wrapInt x ∧ wrapInt x < 2147483648 := by
  unfold wrapInt; omega

/-- A call of `InternalGetNextChar` on a buffer that is used up, or at its
last unit: it returns 0 and the buffer is used up. -/
theorem GetNextChar_used_up (s : GBState) (h0 : -2147483648 ≤ s.encoder.fallbackCount)
    (h1 : s.encoder.fallbackCount ≤ 0) :
    ∃ e', EncoderReplacementFallbackBuffer_InternalGetNextChar s = (0, { s with encoder := e' }) ∧
      e'.fallbackCount < 0 ∧ -2147483648 ≤ e'.fallbackCount ∧ s.encoder.Keeps e' := by
  unfold EncoderReplacementFallbackBuffer_InternalGetNextChar
  dsimp only
  by_cases hw : wrapInt (s.encoder.fallbackCount - 1) < 0
  · rw [if_pos hw]
    exact ⟨_, rfl, hw, (wrapInt_range _).1, rfl, rfl, rfl⟩
  · have hmax : wrapInt (s.encoder.fallbackCount - 1) = INT_MAX := by
      unfold wrapInt INT_MAX at *
      omega
    rw [if_neg hw, if_pos hmax]
    exact ⟨_, rfl, show (-1 : Int) < 0 by decide, show (-2147483648 : Int) ≤ -1 by decide,
      rfl, rfl, rfl⟩

/-- A call of `InternalGetNextChar` on a freshly filled buffer: it returns the
replacement unit U+FFFD, read from inside the replacement string. -/
theorem GetNextChar_fresh (s : GBState) (h1 : s.encoder.fallbackCount = 1)
    (h2 : s.encoder.fallbackIndex = -1) (h3 : s.encoder.strDefault = [0xFFFD, 0xFFFD, 0])
    (h4 : s.encoder.strDefaultLength = 2) :
    ∃ e', EncoderReplacementFallbackBuffer_InternalGetNextChar s
        = (0xFFFD, { s with encoder := e' }) ∧
      e'.fallbackCount = 0 ∧ e'.fallbackIndex = 0 ∧ s.encoder.Keeps e' := by
  unfold EncoderReplacementFallbackBuffer_InternalGetNextChar
  dsimp only
  rw [h1, h2, h3, h4]
  simp [wrapInt, INT_MAX, GBState.assert]
  exact ⟨h3.symm, h4.symm, rfl⟩

/-- The call of `InternalFallback` for a lone surrogate: the replacement buffer
is freshly filled, nothing else that matters changes and the look-ahead load,
when there is one, is inside the source. -/
theorem InternalFallback_fills (a : GBArgs) (s : GBState) (c : Nat)
    (hlen : s.encoder.strDefaultLength = 2) (hend : s.encoder.charEnd = a.pEnd)
    (hsrc : 0 ≤ s.pSrc)
    (hnext : IsHighSurrogate c = true → s.pSrc < a.pEnd → IsLowSurrogate (a.unit s.pSrc) = false) :
    s.SameVars (EncoderReplacementFallbackBuffer_InternalFallback a s c).2 ∧
      (EncoderReplacementFallbackBuffer_InternalFallback a s c).2.encoder.fallbackCount = 1 ∧
      (EncoderReplacementFallbackBuffer_InternalFallback a s c).2.encoder.fallbackIndex = -1 ∧
      s.encoder.Keeps (EncoderReplacementFallbackBuffer_InternalFallback a s c).2.encoder := by
  have plain : ∀ t : GBState, t.encoder.strDefaultLength = 2 →
      let r := EncoderReplacementFallbackBuffer_Fallback (recursionAssert t)
      let t' : GBState := { r.2 with encoder := { r.2.encoder with bFallingBack := r.1 } }
      t.SameVars t' ∧ t'.encoder.fallbackCount = 1 ∧ t'.encoder.fallbackIndex = -1 ∧
        t.encoder.Keeps t'.encoder := by
    intro t ht
    unfold EncoderReplacementFallbackBuffer_Fallback recursionAssert
    by_cases hb : t.encoder.bFallingBack = true
    · simp [hb, GBState.SameVars, EncoderBuffer.Keeps, ht]
    · simp [hb, GBState.SameVars, EncoderBuffer.Keeps, ht]
  unfold EncoderReplacementFallbackBuffer_InternalFallback
  dsimp only
  have p := plain (s.assert (decide (s.encoder.charStart ≠ none))) (by simpa using hlen)
  simp only [GBState.assert_encoder, GBState.assert_pSrc]
  have pv : s.SameVars (s.assert (decide (s.encoder.charStart ≠ none))) := by
    simp [GBState.SameVars]
  have comb : ∀ t t' : GBState, s.SameVars t → t.encoder = s.encoder →
      (t.SameVars t' ∧ t'.encoder.fallbackCount = 1 ∧ t'.encoder.fallbackIndex = -1 ∧
        t.encoder.Keeps t'.encoder) →
      (s.SameVars t' ∧ t'.encoder.fallbackCount = 1 ∧ t'.encoder.fallbackIndex = -1 ∧
        s.encoder.Keeps t'.encoder) := by
    intro t t' h1 h2 h3
    rw [h2] at h3
    obtain ⟨a1, a2, a3, a4, a5, a6, a7, a8⟩ := h1
    obtain ⟨⟨b1, b2, b3, b4, b5, b6, b7, b8⟩, c1, c2, c3⟩ := h3
    exact ⟨⟨b1.trans a1, b2.trans a2, b3.trans a3, b4.trans a4, b5.trans a5, b6.trans a6,
      b7.trans a7, b8.trans a8⟩, c1, c2, c3⟩
  by_cases hh : IsHighSurrogate c = true
  · rw [if_pos hh]
    by_cases he : s.pSrc ≥ s.encoder.charEnd
    · rw [if_pos he]
      exact comb _ _ pv (by simp) p
    · rw [if_neg he]
      have hlt : s.pSrc < a.pEnd := by rw [hend] at he; omega
      rw [GBState.noteLoad_ok a _ s.pSrc hsrc hlt, if_neg (by rw [hnext hh hlt]; simp)]
      exact comb _ _ pv (by simp) p
  · rw [if_neg hh]
    exact comb _ _ pv (by simp) p

theorem GetBytes.progress_done (a : GBArgs) (s : GBState) (h : GetBytes.Safe a s)
    (hloc : s.loc = .Done) : GetBytes.Progress a s (GetBytes.step a s) := by
  have hat := h.at_loc
  simp only [GetBytes.SafeAt, hloc] at hat
  rw [(GetBytes.step_of_loc a s).2.2.2.2.2.2.2 hloc]
  unfold GetBytes.Done
  split_ifs
  · exact ⟨⟨h.len, h.inBounds, by simp [GetBytes.SafeAt]⟩, by simp [GetBytes.measure, hloc]⟩
  · exact ⟨⟨h.len, h.inBounds, by simp [GetBytes.SafeAt, hat]⟩, by simp [GetBytes.measure, hloc]⟩

theorem GetBytes.progress_process (a : GBArgs) (s : GBState) (h : GetBytes.Safe a s)
    (hloc : s.loc = .ProcessChar) : GetBytes.Progress a s (GetBytes.step a s) := by
  have hat := h.at_loc
  simp only [GetBytes.SafeAt, hloc] at hat
  obtain ⟨henc, h0, h1, h2, hph⟩ := hat
  rw [(GetBytes.step_of_loc a s).2.1 hloc]
  unfold GetBytes.ProcessChar
  by_cases hr : InRange s.ch HIGH_SURROGATE_START HIGH_SURROGATE_END = true
  · rw [if_pos hr]
    simp only [InRange, HIGH_SURROGATE_START, HIGH_SURROGATE_END, Bool.and_eq_true,
      decide_eq_true_eq] at hr
    rcases hph with ⟨c1, c2, c3, c4⟩ | ⟨c1, c2, c3⟩
    · omega
    · refine ⟨⟨h.len, h.inBounds, ?_⟩, ?_⟩
      · simp only [GetBytes.SafeAt]
        exact ⟨henc, h0, h1, h2, Or.inr ⟨c1, Or.inr hr⟩⟩
      · have hne : s.ch ≠ 0 := by omega
        simp only [GetBytes.measure, hloc, if_pos c1, if_neg hne]
        omega
  · rw [if_neg hr]
    simp only [InRange, HIGH_SURROGATE_START, HIGH_SURROGATE_END, Bool.and_eq_true,
      decide_eq_true_eq] at hr
    refine ⟨⟨h.len, h.inBounds, ?_⟩, ?_⟩
    · simp only [GetBytes.SafeAt]
      refine ⟨henc, h0, h1, h2, ?_⟩
      rcases hph with c | ⟨c1, c2, c3⟩
      · exact Or.inl c
      · exact Or.inr ⟨c1, c2, by omega, fun x y => absurd ⟨x, y⟩ hr⟩
    · simp only [GetBytes.measure, hloc]
      split_ifs <;> omega

theorem GetBytes.progress_ascii (a : GBArgs) (hv : a.Valid) (s : GBState)
    (h : GetBytes.Safe a s) (hloc : s.loc = .AsciiLoop) :
    GetBytes.Progress a s (GetBytes.step a s) := by
  have hat := h.at_loc
  simp only [GetBytes.SafeAt, hloc] at hat
  obtain ⟨henc, h0, h1, hc, hroom⟩ := hat
  have hl : ∀ r, s.loc ≠ .Return r := by simp [hloc]
  rw [(GetBytes.step_of_loc a s).2.2.2.1 hloc]
  unfold GetBytes.AsciiLoop
  by_cases hlt : s.pSrc < a.pEnd
  · have hu := GBArgs.unit_lt hv s.pSrc
    rw [if_pos hlt]
    unfold GBState.next
    rw [GBState.noteLoad_ok a s s.pSrc h0 hlt]
    dsimp only
    by_cases hch : (a.unit s.pSrc : Int) > 0x7F
    · rw [if_pos hch]
      refine ⟨⟨h.len, h.inBounds, ?_⟩, ?_⟩
      · simp only [GetBytes.SafeAt]
        exact ⟨henc, by omega, by omega, by omega, Or.inr ⟨hc, by omega, by omega⟩⟩
      · simp only [GetBytes.measure, hloc, if_pos hc]
        omega
    · rw [if_neg hch, GBState.put_ok a _ _ (by show s.pTarget < a.byteCount; omega),
        GBState.andThen_ok _ _ (by exact hl)]
      refine ⟨⟨by simp [h.len], h.inBounds, ?_⟩, ?_⟩
      · simp only [GetBytes.SafeAt]
        refine ⟨henc, by omega, by omega, hc, ?_⟩
        push_cast
        omega
      · simp only [GetBytes.measure, hloc]
        omega
  · rw [if_neg hlt]
    refine ⟨⟨h.len, h.inBounds, ?_⟩, ?_⟩
    · simp only [GetBytes.SafeAt]
      omega
    · simp only [GetBytes.measure, hloc]
      omega

theorem GetBytes.EncOk.of_eq {a : GBArgs} {s s' : GBState} (h : GetBytes.EncOk a s)
    (he : s'.encoder = s.encoder) (hf : s'.fallbackUsed = s.fallbackUsed) :
    GetBytes.EncOk a s' := by
  unfold GetBytes.EncOk at h ⊢
  rw [he, hf]
  exact h

/-- The rest of the body of the fast loop after its first store, for every
source: the unit that aligns `pSrc`, then the loop that takes four units. -/
theorem GetBytes.progress_fast_tail (a : GBArgs) (hv : a.Valid) (t : GBState)
    (hlen : t.bytes.length = a.byteCount) (hoob : t.oob = false) (henc : GetBytes.EncOk a t)
    (hl : ∀ r, t.loc ≠ .Return r) (h0 : 0 ≤ t.pSrc) (h1 : t.pSrc ≤ t.pStop)
    (hc : t.encoder.fallbackCount < 0) (hstop : t.pStop ≤ a.pEnd - 5)
    (hroom : t.pStop - t.pSrc + 5 ≤ (a.byteCount : Int) - t.pTarget) :
    GetBytes.Safe a
      (if sizeT (a.addr + 2 * t.pSrc) &&& 0x2 ≠ 0 then
        (let s := t.next a
         if s.ch > 0x7F then { s with loc := .LongCode }
         else (s.put a s.ch.toNat).andThen fun s => { s with loc := .FastLoop4 })
      else { t with loc := .FastLoop4 }) ∧
    GetBytes.measure a
      (if sizeT (a.addr + 2 * t.pSrc) &&& 0x2 ≠ 0 then
        (let s := t.next a
         if s.ch > 0x7F then { s with loc := .LongCode }
         else (s.put a s.ch.toNat).andThen fun s => { s with loc := .FastLoop4 })
      else { t with loc := .FastLoop4 }) ≤ 12 * (a.pEnd - t.pSrc).toNat + 8 := by
  have hlt : t.pSrc < a.pEnd := by omega
  split_ifs with hal
  · have hu := GBArgs.unit_lt hv t.pSrc
    unfold GBState.next
    rw [GBState.noteLoad_ok a t t.pSrc h0 hlt]
    dsimp only
    by_cases hch : (a.unit t.pSrc : Int) > 0x7F
    · rw [if_pos hch]
      refine ⟨⟨hlen, hoob, ?_⟩, ?_⟩
      · simp only [GetBytes.SafeAt]
        exact ⟨henc, by omega, by omega, hc, hstop, by omega⟩
      · simp only [GetBytes.measure]
        omega
    · rw [if_neg hch, GBState.put_ok a _ _ (by show t.pTarget < a.byteCount; omega),
        GBState.andThen_ok _ _ (by exact hl)]
      refine ⟨⟨by simp [hlen], hoob, ?_⟩, ?_⟩
      · simp only [GetBytes.SafeAt]
        refine ⟨henc, by omega, by omega, by omega, hc, hstop, ?_⟩
        push_cast
        omega
      · simp only [GetBytes.measure]
        omega
  · refine ⟨⟨hlen, hoob, ?_⟩, ?_⟩
    · simp only [GetBytes.SafeAt]
      exact ⟨henc, h0, by omega, by omega, hc, hstop, hroom⟩
    · simp only [GetBytes.measure]
      omega

theorem GetBytes.progress_fast (a : GBArgs) (hv : a.Valid) (s : GBState)
    (h : GetBytes.Safe a s) (hloc : s.loc = .FastLoop) :
    GetBytes.Progress a s (GetBytes.step a s) := by
  have hat := h.at_loc
  simp only [GetBytes.SafeAt, hloc] at hat
  obtain ⟨henc, h0, h1, h2, hc, hstop, hroom⟩ := hat
  have hl : ∀ r, s.loc ≠ .Return r := by simp [hloc]
  rw [(GetBytes.step_of_loc a s).2.2.2.2.1 hloc]
  unfold GetBytes.FastLoop
  by_cases hlt : s.pSrc < s.pStop
  · have hu := GBArgs.unit_lt hv s.pSrc
    rw [if_pos hlt]
    simp only [GBState.next, GBState.noteLoad_ok a s s.pSrc h0 (by omega)]
    by_cases hch : (a.unit s.pSrc : Int) > 0x7F
    · rw [if_pos hch]
      refine ⟨⟨h.len, h.inBounds, ?_⟩, ?_⟩
      · simp only [GetBytes.SafeAt]
        exact ⟨henc, by omega, by omega, hc, hstop, by omega⟩
      · simp only [GetBytes.measure, hloc]
        omega
    · rw [if_neg hch, GBState.put_ok a _ _ (by show s.pTarget < a.byteCount; omega),
        GBState.andThen_ok _ _ (by exact hl)]
      have ht := GetBytes.progress_fast_tail a hv
        { s with ch := (a.unit s.pSrc : Int), pSrc := s.pSrc + 1,
                 bytes := s.bytes.set s.pTarget ((a.unit s.pSrc : Int).toNat % 256),
                 pTarget := s.pTarget + 1 }
        (by simp [h.len]) h.inBounds henc hl (by show 0 ≤ s.pSrc + 1; omega)
        (by show s.pSrc + 1 ≤ s.pStop; omega) hc hstop
        (by show s.pStop - (s.pSrc + 1) + 5 ≤ (a.byteCount : Int) - ((s.pTarget + 1 : Nat) : Int)
            push_cast; omega)
      refine ⟨ht.1, lt_of_le_of_lt ht.2 ?_⟩
      simp only [GetBytes.measure, hloc]
      omega
  · rw [if_neg hlt]
    unfold GetBytes.afterFastLoop
    refine ⟨⟨by simp [h.len], by simp [h.inBounds], ?_⟩, ?_⟩
    · simp only [GetBytes.SafeAt, GBState.assert_pSrc, GBState.assert_pTarget,
        GBState.assert_encoder, GBState.assert_fallbackUsed]
      exact ⟨henc.of_eq (by simp) (by simp), h0, h1, h2, Or.inr ⟨hc, Or.inl trivial⟩⟩
    · simp only [GetBytes.measure, hloc, GBState.assert_pSrc, GBState.assert_encoder, if_pos hc]
      simp

theorem GetBytes.progress_fast4 (a : GBArgs) (s : GBState)
    (h : GetBytes.Safe a s) (hloc : s.loc = .FastLoop4) :
    GetBytes.Progress a s (GetBytes.step a s) := by
  have hat := h.at_loc
  simp only [GetBytes.SafeAt, hloc] at hat
  obtain ⟨henc, h0, h1, h2, hc, hstop, hroom⟩ := hat
  have hl : ∀ r, s.loc ≠ .Return r := by simp [hloc]
  rw [(GetBytes.step_of_loc a s).2.2.2.2.2.1 hloc]
  unfold GetBytes.FastLoop4
  by_cases hlt : s.pSrc < s.pStop
  · have hn0 : s.noteLoad a s.pSrc = s := GBState.noteLoad_ok a s _ (by omega) (by omega)
    have hn1 : s.noteLoad a (s.pSrc + 1) = s := GBState.noteLoad_ok a s _ (by omega) (by omega)
    have hn2 : s.noteLoad a (s.pSrc + 2) = s := GBState.noteLoad_ok a s _ (by omega) (by omega)
    have hn3 : s.noteLoad a (s.pSrc + 3) = s := GBState.noteLoad_ok a s _ (by omega) (by omega)
    rw [if_pos hlt]
    simp only [hn0, hn1, hn2, hn3]
    by_cases hmask : (a.load32 s.pSrc ||| a.load32 (s.pSrc + 2)) &&& 0xFF80FF80 ≠ 0
    · rw [if_pos hmask]
      by_cases hch : ((a.load32 s.pSrc % 65536 : Nat) : Int) > 0x7F
      · rw [if_pos hch]
        refine ⟨⟨h.len, h.inBounds, ?_⟩, ?_⟩
        · simp only [GetBytes.SafeAt]
          exact ⟨henc, by omega, by omega, hc, hstop, by omega⟩
        · simp only [GetBytes.measure, hloc]
          omega
      · rw [if_neg hch, GBState.put_ok a _ _ (by show s.pTarget < a.byteCount; omega),
          GBState.andThen_ok _ _ (by exact hl)]
        refine ⟨⟨by simp [h.len], h.inBounds, ?_⟩, ?_⟩
        · simp only [GetBytes.SafeAt]
          refine ⟨henc, by omega, by omega, by omega, hc, hstop, ?_⟩
          push_cast
          omega
        · simp only [GetBytes.measure, hloc]
          omega
    · rw [if_neg hmask]
      by_cases hfull : s.pTarget + 4 > a.byteCount
      · rw [if_pos hfull]
        exact ⟨⟨h.len, h.inBounds, by simp [GetBytes.SafeAt]⟩, by simp [GetBytes.measure, hloc]⟩
      · have p0 : s.pTarget + 0 < a.byteCount := by omega
        have p1 : s.pTarget + 1 < a.byteCount := by omega
        have p2 : s.pTarget + 2 < a.byteCount := by omega
        have p3 : s.pTarget + 3 < a.byteCount := by omega
        rw [if_neg hfull]
        simp only [GBState.store, p0, p1, p2, p3, ↓reduceIte]
        refine ⟨⟨by simp [h.len], h.inBounds, ?_⟩, ?_⟩
        · simp only [GetBytes.SafeAt]
          refine ⟨henc, by omega, by omega, by omega, hc, hstop, ?_⟩
          push_cast
          omega
        · simp only [GetBytes.measure, hloc]
          omega
  · rw [if_neg hlt]
    refine ⟨⟨h.len, h.inBounds, ?_⟩, ?_⟩
    · simp only [GetBytes.SafeAt]
      exact ⟨henc, h0, h1, h2, hc, hstop, hroom⟩
    · simp only [GetBytes.measure, hloc]
      omega

theorem take_target (a : GBArgs) (s : GBState) (hlen : s.bytes.length = a.byteCount)
    (h : s.pTarget ≤ a.byteCount) :
    s.pTarget = (s.bytes.take s.pTarget).length ∧
      s.bytes.take (s.bytes.take s.pTarget).length = s.bytes.take s.pTarget := by
  have e : (s.bytes.take s.pTarget).length = s.pTarget := by
    rw [List.length_take]; omega
  exact ⟨e.symm, by rw [e]⟩

theorem GetBytes.long_last_len (a : GBArgs) (s : GBState) (c chd : Nat)
    (hloc : ∀ r, s.loc ≠ .Return r) (len : s.bytes.length = a.byteCount)
    (h : s.pTarget + 2 ≤ a.byteCount) :
    ∃ B, ((ENSURE_BUFFER_INC a { s.store a 0 chd with pStop := s.pStop - 1 }).andThen fun s =>
          (s.put a (0x80 ||| (c &&& 0x3F))).andThen fun s => { s with loc := .FastLoop })
        = { s with bytes := B, pTarget := s.pTarget + 2, pStop := s.pStop - 1, loc := .FastLoop } ∧
      B.length = a.byteCount := by
  obtain ⟨t1, t2⟩ := take_target a s len (by omega)
  obtain ⟨B, e, _, l⟩ := GetBytes.long_last a s c chd (s.bytes.take s.pTarget) hloc t1 t2 len
    (by rw [← t1]; exact h)
  refine ⟨B, ?_, l⟩
  rw [e]
  simp only [List.length_append, ← t1, List.length_cons, List.length_nil]

theorem GetBytes.long_mid_len (a : GBArgs) (s : GBState) (c chd : Nat)
    (hloc : ∀ r, s.loc ≠ .Return r) (len : s.bytes.length = a.byteCount)
    (h : s.pTarget + 3 ≤ a.byteCount) :
    ∃ B, ((ENSURE_BUFFER_INC a { s.store a 0 chd with pStop := s.pStop - 1 }).andThen fun s =>
          (ENSURE_BUFFER_INC a
            { s.store a 0 (0x80 ||| ((c >>> 6) &&& 0x3F)) with pStop := s.pStop - 1 }).andThen
          fun s => (s.put a (0x80 ||| (c &&& 0x3F))).andThen fun s => { s with loc := .FastLoop })
        = { s with bytes := B, pTarget := s.pTarget + 3, pStop := s.pStop - 1 - 1,
                   loc := .FastLoop } ∧
      B.length = a.byteCount := by
  obtain ⟨t1, t2⟩ := take_target a s len (by omega)
  obtain ⟨B, e, _, l⟩ := GetBytes.long_mid a s c chd (s.bytes.take s.pTarget) hloc t1 t2 len
    (by rw [← t1]; exact h)
  refine ⟨B, ?_, l⟩
  rw [e]
  simp only [List.length_append, ← t1, List.length_cons, List.length_nil]

theorem GetBytes.progress_long (a : GBArgs) (s : GBState)
    (h : GetBytes.Safe a s) (hloc : s.loc = .LongCode) :
    GetBytes.Progress a s (GetBytes.step a s) := by
  have hat := h.at_loc
  simp only [GetBytes.SafeAt, hloc] at hat
  obtain ⟨henc, h1, h2, hc, hstop, hroom⟩ := hat
  have hl : ∀ r, s.loc ≠ .Return r := by simp [hloc]
  have hback : ∀ t : GBState, t.bytes = s.bytes → t.oob = false → t.encoder = s.encoder →
      t.fallbackUsed = s.fallbackUsed → t.pTarget = s.pTarget → t.pSrc = s.pSrc - 1 →
      GetBytes.Progress a s (GetBytes.afterFastLoop a t) := by
    intro t e1 e2 e3 e4 e5 e6
    unfold GetBytes.afterFastLoop
    refine ⟨⟨by simp [e1, h.len], by simp [e2], ?_⟩, ?_⟩
    · simp only [GetBytes.SafeAt, GBState.assert_pSrc, GBState.assert_pTarget,
        GBState.assert_encoder, GBState.assert_fallbackUsed]
      refine ⟨henc.of_eq (by simp [e3]) (by simp [e4]), by omega, by omega, by omega,
        Or.inr ⟨by rw [e3]; exact hc, Or.inl trivial⟩⟩
    · simp only [GetBytes.measure, hloc, GBState.assert_pSrc, GBState.assert_encoder, e3,
        if_pos hc, e6]
      simp
      omega
  rw [(GetBytes.step_of_loc a s).2.2.2.2.2.2.1 hloc]
  unfold GetBytes.LongCode
  dsimp only
  by_cases c1 : s.ch ≤ 0x7FF
  · rw [if_pos c1]
    obtain ⟨B, e, l⟩ := GetBytes.long_last_len a s s.ch.toNat (0xC0 ||| (s.ch.toNat >>> 6)) hl h.len
      (by omega)
    rw [e]
    refine ⟨⟨l, h.inBounds, ?_⟩, ?_⟩
    · simp only [GetBytes.SafeAt]
      refine ⟨henc, by omega, by omega, by omega, hc, by omega, ?_⟩
      push_cast
      omega
    · simp only [GetBytes.measure, hloc]
      omega
  rw [if_neg c1]
  by_cases c2 : (!InRange s.ch HIGH_SURROGATE_START LOW_SURROGATE_END) = true
  · rw [if_pos c2]
    obtain ⟨B, e, l⟩ := GetBytes.long_mid_len a s s.ch.toNat (0xE0 ||| (s.ch.toNat >>> 12)) hl h.len
      (by omega)
    rw [e]
    refine ⟨⟨l, h.inBounds, ?_⟩, ?_⟩
    · simp only [GetBytes.SafeAt]
      refine ⟨henc, by omega, by omega, by omega, hc, by omega, ?_⟩
      push_cast
      omega
    · simp only [GetBytes.measure, hloc]
      omega
  rw [if_neg c2]
  by_cases c3 : s.ch > HIGH_SURROGATE_END
  · rw [if_pos c3]
    exact hback _ rfl h.inBounds rfl rfl rfl rfl
  rw [if_neg c3, GBState.noteLoad_ok a s s.pSrc (by omega) (by omega)]
  by_cases c4 : (!InRange (a.unit s.pSrc : Int) LOW_SURROGATE_START LOW_SURROGATE_END) = true
  · rw [if_pos c4]
    exact hback _ rfl h.inBounds rfl rfl rfl (by show s.pSrc + 1 - 2 = s.pSrc - 1; omega)
  rw [if_neg c4, GBState.put_ok a _ _ (by show s.pTarget < a.byteCount; omega),
    GBState.andThen_ok _ _ (by exact hl)]
  dsimp only
  obtain ⟨B, e, l⟩ := GetBytes.long_mid_len a
    { s with pSrc := s.pSrc + 1, ch := (a.unit s.pSrc : Int) + s.ch * 1024 + pairOffset,
             bytes := s.bytes.set s.pTarget
               ((0xF0 ||| (((a.unit s.pSrc : Int) + s.ch * 1024 + pairOffset).toNat >>> 18)) % 256),
             pTarget := s.pTarget + 1 }
    ((a.unit s.pSrc : Int) + s.ch * 1024 + pairOffset).toNat
    (0x80 ||| (((((a.unit s.pSrc : Int) + s.ch * 1024 + pairOffset).toNat) >>> 12) &&& 0x3F))
    hl (by simp [h.len]) (by show s.pTarget + 1 + 3 ≤ a.byteCount; omega)
  rw [e]
  refine ⟨⟨l, h.inBounds, ?_⟩, ?_⟩
  · simp only [GetBytes.SafeAt]
    refine ⟨henc, by omega, by omega, by omega, hc, by omega, ?_⟩
    push_cast
    omega
  · simp only [GetBytes.measure, hloc]
    omega

theorem GetBytes.EncOk.of_keeps {a : GBArgs} {s s' : GBState} (h : GetBytes.EncOk a s)
    (hk : s.encoder.Keeps s'.encoder) (hr : -2147483648 ≤ s'.encoder.fallbackCount)
    (hf : s'.fallbackUsed = s.fallbackUsed) : GetBytes.EncOk a s' := by
  unfold GetBytes.EncOk at h ⊢
  obtain ⟨k1, k2, k3⟩ := hk
  rw [k1, k2, k3, hf]
  exact ⟨h.1, h.2.1, hr, h.2.2.2⟩

theorem GetBytes.progress_slow_fresh (a : GBArgs) (s : GBState)
    (h : GetBytes.Safe a s) (hloc : s.loc = .SlowLoop) (henc : GetBytes.EncOk a s)
    (h0 : 0 ≤ s.pSrc) (h1 : s.pSrc ≤ a.pEnd) (h2 : s.pTarget ≤ a.byteCount)
    (c1 : s.ch = 0) (c2 : s.fallbackUsed = true) (c3 : s.encoder.fallbackCount = 1)
    (c4 : s.encoder.fallbackIndex = -1) :
    GetBytes.Progress a s (GetBytes.SlowLoop a s) := by
  unfold GetBytes.SlowLoop
  obtain ⟨e', eg, g1, g2, gk⟩ := GetNextChar_fresh s c3 c4 henc.1 henc.2.1
  have key : GetBytes.Progress a s
      { s with encoder := e', ch := ((0xFFFD : Nat) : Int), loc := .ProcessChar } := by
    refine ⟨⟨h.len, h.inBounds, ?_⟩, ?_⟩
    · simp only [GetBytes.SafeAt]
      exact ⟨henc.of_keeps gk (by rw [g1]; decide) rfl, h0, h1, h2,
        Or.inl ⟨by norm_num, c2, g1, g2⟩⟩
    · simp only [GetBytes.measure, hloc, g1, c3]
      simp
  by_cases hge : s.pSrc ≥ a.pEnd
  · rw [if_pos hge, if_pos c1, if_pos c2, eg]
    dsimp only
    rw [if_pos (by norm_num)]
    exact key
  · rw [if_neg hge, if_neg (by rw [c1]; decide), if_pos c2, eg]
    dsimp only
    rw [if_pos (by norm_num)]
    exact key

theorem GetBytes.progress_slow_used_up (a : GBArgs) (hv : a.Valid) (s : GBState)
    (h : GetBytes.Safe a s) (hloc : s.loc = .SlowLoop) (henc : GetBytes.EncOk a s)
    (h0 : 0 ≤ s.pSrc) (h1 : s.pSrc ≤ a.pEnd) (h2 : s.pTarget ≤ a.byteCount)
    (c1 : s.encoder.fallbackCount < 0) (c5 : s.ch = 0 ∨ (0xD800 ≤ s.ch ∧ s.ch ≤ 0xDBFF)) :
    GetBytes.Progress a s (GetBytes.SlowLoop a s) := by
  unfold GetBytes.SlowLoop
  have hne : s.ch ≠ 0 → 0xD800 ≤ s.ch ∧ s.ch ≤ 0xDBFF := by
    intro hz
    rcases c5 with c5 | c5
    · exact absurd c5 hz
    · exact c5
  by_cases hge : s.pSrc ≥ a.pEnd
  · rw [if_pos hge]
    by_cases hz : s.ch = 0
    · rw [if_pos hz]
      by_cases hf : s.fallbackUsed = true
      · obtain ⟨e', eg, g1, g2, gk⟩ := GetNextChar_used_up s henc.2.2.1 (by omega)
        rw [if_pos hf, eg]
        refine ⟨⟨h.len, h.inBounds, ?_⟩, ?_⟩
        · simp only [GetBytes.SafeAt]
          simpa using h2
        · simp [GetBytes.measure, hloc, c1, hz]
      · rw [if_neg hf]
        refine ⟨⟨h.len, h.inBounds, ?_⟩, ?_⟩
        · simp only [GetBytes.SafeAt]
          simpa using h2
        · simp [GetBytes.measure, hloc, c1, hz]
    · obtain ⟨d1, d2⟩ := hne hz
      rw [if_neg hz]
      by_cases hb : (s.fallbackUsed && s.encoder.bFallingBack) = true
      · obtain ⟨e', eg, g1, g2, gk⟩ := GetNextChar_used_up
          (s.assert (decide (s.ch ≥ 0xD800) && decide (s.ch ≤ 0xDBFF)))
          (by simpa using henc.2.2.1) (by simp; omega)
        rw [if_pos hb]
        dsimp only
        rw [eg]
        refine ⟨⟨by simp [InRange, LOW_SURROGATE_START, h.len],
          by simp [InRange, LOW_SURROGATE_START, h.inBounds], ?_⟩, ?_⟩
        · simp [InRange, LOW_SURROGATE_START, GetBytes.SafeAt, h2]
        · simp [InRange, LOW_SURROGATE_START, GetBytes.measure, hloc, c1, hz]
      · rw [if_neg hb, if_pos (by omega)]
        refine ⟨⟨h.len, h.inBounds, ?_⟩, ?_⟩
        · simp only [GetBytes.SafeAt]
          exact ⟨henc, h0, h1, h2, Or.inr ⟨c1, by omega, by omega, fun _ _ x => by omega⟩⟩
        · simp only [GetBytes.measure, hloc, if_pos c1, if_neg hz]
          omega
  · have hlt : s.pSrc < a.pEnd := by omega
    have hu := GBArgs.unit_lt hv s.pSrc
    rw [if_neg hge]
    by_cases hz : s.ch = 0
    · have read : ∀ t : GBState, t.bytes = s.bytes → t.oob = false → t.pSrc = s.pSrc →
          t.pTarget = s.pTarget → t.fallbackUsed = s.fallbackUsed →
          s.encoder.Keeps t.encoder → -2147483648 ≤ t.encoder.fallbackCount →
          t.encoder.fallbackCount < 0 →
          GetBytes.Progress a s { t.next a with loc := .ProcessChar } := by
        intro t e1 e2 e3 e4 e5 e6 e7 e8
        unfold GBState.next
        rw [GBState.noteLoad_ok a t t.pSrc (by omega) (by omega)]
        refine ⟨⟨by rw [← h.len, ← e1], e2, ?_⟩, ?_⟩
        · simp only [GetBytes.SafeAt]
          exact ⟨henc.of_keeps e6 e7 e5, by omega, by omega, by omega,
            Or.inr ⟨e8, by omega, by rw [e3]; omega⟩⟩
        · simp only [GetBytes.measure, hloc, if_pos c1, if_pos hz, if_pos e8, e3]
          omega
      rw [if_neg (by omega)]
      by_cases hf : s.fallbackUsed = true
      · obtain ⟨e', eg, g1, g2, gk⟩ := GetNextChar_used_up s henc.2.2.1 (by omega)
        rw [if_pos hf, eg]
        dsimp only
        rw [if_neg (by norm_num)]
        exact read _ rfl h.inBounds rfl rfl rfl gk g2 g1
      · rw [if_neg hf]
        exact read s rfl h.inBounds rfl rfl rfl ⟨rfl, rfl, rfl⟩ henc.2.2.1 c1
    · obtain ⟨d1, d2⟩ := hne hz
      rw [if_pos (by omega)]
      dsimp only
      simp only [GBState.assert_pSrc, GBState.assert_ch]
      rw [GBState.noteLoad_ok a _ s.pSrc h0 hlt]
      by_cases hr : InRange (a.unit s.pSrc : Int) LOW_SURROGATE_START LOW_SURROGATE_END = true
      · rw [if_pos hr]
        simp only [InRange, LOW_SURROGATE_START, LOW_SURROGATE_END, Bool.and_eq_true,
          decide_eq_true_eq] at hr
        refine ⟨⟨by simp [h.len], by simp [h.inBounds], ?_⟩, ?_⟩
        · simp only [GetBytes.SafeAt, GBState.assert_pTarget, GBState.assert_encoder,
            GBState.assert_pSrc, GBState.assert_ch]
          refine ⟨henc.of_eq (by simp) (by simp), by omega, by omega, h2, Or.inr ⟨c1, ?_, ?_, ?_⟩⟩
          · unfold pairOffset LOW_SURROGATE_START HIGH_SURROGATE_START; omega
          · unfold pairOffset LOW_SURROGATE_START HIGH_SURROGATE_START; omega
          · intro x y
            unfold pairOffset LOW_SURROGATE_START HIGH_SURROGATE_START at y
            omega
        · simp only [GetBytes.measure, hloc, if_pos c1, if_neg hz, GBState.assert_encoder,
            GBState.assert_pSrc]
          omega
      · rw [if_neg hr]
        simp only [InRange, LOW_SURROGATE_START, LOW_SURROGATE_END, Bool.and_eq_true,
          decide_eq_true_eq] at hr
        refine ⟨⟨by simp [h.len], by simp [h.inBounds], ?_⟩, ?_⟩
        · simp only [GetBytes.SafeAt, GBState.assert_pTarget, GBState.assert_encoder,
            GBState.assert_pSrc, GBState.assert_ch]
          refine ⟨henc.of_eq (by simp) (by simp), h0, h1, h2,
            Or.inr ⟨c1, by omega, by omega, fun _ _ _ x => hr ?_⟩⟩
          omega
        · simp only [GetBytes.measure, hloc, if_pos c1, if_neg hz, GBState.assert_encoder,
            GBState.assert_pSrc]
          omega

theorem GetBytes.progress_slow (a : GBArgs) (hv : a.Valid) (s : GBState)
    (h : GetBytes.Safe a s) (hloc : s.loc = .SlowLoop) :
    GetBytes.Progress a s (GetBytes.step a s) := by
  have hat := h.at_loc
  simp only [GetBytes.SafeAt, hloc] at hat
  obtain ⟨henc, h0, h1, h2, hph⟩ := hat
  rw [(GetBytes.step_of_loc a s).1 hloc]
  rcases hph with ⟨c1, c2, c3, c4⟩ | ⟨c1, c5⟩
  · exact GetBytes.progress_slow_fresh a s h hloc henc h0 h1 h2 c1 c2 c3 c4
  · exact GetBytes.progress_slow_used_up a hv s h hloc henc h0 h1 h2 c1 c5

theorem sizeT_eq (x : Int) (h0 : 0 ≤ x) (h1 : x < 2 ^ 64) : (sizeT x : Int) = x := by
  unfold sizeT
  omega

/-- The choice between the loops at the end of the slow loop's body. -/
theorem GetBytes.progress_heads (a : GBArgs) (hv : a.Valid) (u : GBState)
    (hlen : u.bytes.length = a.byteCount) (hoob : u.oob = false) (henc : GetBytes.EncOk a u)
    (h0 : 0 ≤ u.pSrc) (h1 : u.pSrc ≤ a.pEnd) (h2 : u.pTarget ≤ a.byteCount)
    (hc : u.encoder.fallbackCount < 0) :
    GetBytes.Safe a
      (let availableChars := sizeT (a.pEnd - u.pSrc)
       let availableBytes := sizeT ((a.byteCount : Int) - u.pTarget)
       if availableChars ≤ 13 then
         if availableBytes < availableChars then { u with ch := 0, loc := .SlowLoop }
         else { u with loc := .AsciiLoop }
       else
         let availableChars := if availableBytes < availableChars then availableBytes
                               else availableChars
         { u with pStop := u.pSrc + availableChars - 5, loc := .FastLoop }) ∧
    GetBytes.measure a
      (let availableChars := sizeT (a.pEnd - u.pSrc)
       let availableBytes := sizeT ((a.byteCount : Int) - u.pTarget)
       if availableChars ≤ 13 then
         if availableBytes < availableChars then { u with ch := 0, loc := .SlowLoop }
         else { u with loc := .AsciiLoop }
       else
         let availableChars := if availableBytes < availableChars then availableBytes
                               else availableChars
         { u with pStop := u.pSrc + availableChars - 5, loc := .FastLoop })
      ≤ 12 * (a.pEnd - u.pSrc).toNat + 7 := by
  have hp : a.pEnd < 2 ^ 64 := by
    have := hv.2.1
    unfold GBArgs.pEnd
    omega
  have hb : (a.byteCount : Int) < 2 ^ 64 := by
    have := hv.2.2
    omega
  have e1 := sizeT_eq (a.pEnd - u.pSrc) (by omega) (by omega)
  have e2 := sizeT_eq ((a.byteCount : Int) - u.pTarget) (by omega) (by omega)
  dsimp only
  split_ifs with x1 x2 x3
  · refine ⟨⟨hlen, hoob, ?_⟩, ?_⟩
    · simp only [GetBytes.SafeAt]
      exact ⟨henc, h0, h1, h2, Or.inr ⟨hc, Or.inl trivial⟩⟩
    · simp only [GetBytes.measure, if_pos hc]
      simp
  · refine ⟨⟨hlen, hoob, ?_⟩, ?_⟩
    · simp only [GetBytes.SafeAt]
      exact ⟨henc, h0, h1, hc, by omega⟩
    · simp only [GetBytes.measure]
      omega
  · refine ⟨⟨hlen, hoob, ?_⟩, ?_⟩
    · simp only [GetBytes.SafeAt]
      exact ⟨henc, h0, h1, h2, hc, by omega, by omega⟩
    · simp only [GetBytes.measure]
      omega
  · refine ⟨⟨hlen, hoob, ?_⟩, ?_⟩
    · simp only [GetBytes.SafeAt]
      exact ⟨henc, h0, h1, h2, hc, by omega, by omega⟩
    · simp only [GetBytes.measure]
      omega

/-- The end of the slow loop's body after the stores, for every source. -/
theorem GetBytes.progress_afterEncode (a : GBArgs) (hv : a.Valid) (t : GBState)
    (hlen : t.bytes.length = a.byteCount) (hoob : t.oob = false) (henc : GetBytes.EncOk a t)
    (h0 : 0 ≤ t.pSrc) (h1 : t.pSrc ≤ a.pEnd) (h2 : t.pTarget ≤ a.byteCount)
    (hc : t.encoder.fallbackCount ≤ 0) (hfu : t.fallbackUsed = false → t.encoder.fallbackCount < 0) :
    GetBytes.Safe a (GetBytes.afterEncode a t) ∧
      GetBytes.measure a (GetBytes.afterEncode a t) ≤ 12 * (a.pEnd - t.pSrc).toNat + 7 := by
  unfold GetBytes.afterEncode
  by_cases hf : t.fallbackUsed = true
  · obtain ⟨e', eg, g1, g2, gk⟩ := GetNextChar_used_up t henc.2.2.1 hc
    rw [if_pos hf, eg]
    dsimp only
    rw [if_neg (by simp)]
    refine GetBytes.progress_heads a hv { ({ t with encoder := e' } : GBState) with ch := 0 }
      hlen hoob ?_ h0 h1 h2 g1
    exact henc.of_keeps gk g2 rfl
  · rw [if_neg hf]
    dsimp only
    rw [if_neg (by simp)]
    exact GetBytes.progress_heads a hv t hlen hoob henc h0 h1 h2 (hfu (by simpa using hf))

theorem MovePrevious_frame (s : GBState) :
    (EncoderReplacementFallbackBuffer_MovePrevious s).2.bytes = s.bytes ∧
      (EncoderReplacementFallbackBuffer_MovePrevious s).2.oob = s.oob ∧
      (EncoderReplacementFallbackBuffer_MovePrevious s).2.pTarget = s.pTarget ∧
      (EncoderReplacementFallbackBuffer_MovePrevious s).2.ch = s.ch := by
  unfold EncoderReplacementFallbackBuffer_MovePrevious
  split_ifs <;> exact ⟨rfl, rfl, rfl, rfl⟩

/-- The branch of `EncodeChar` taken when the destination has no room for the
character: whatever is stepped back, the loops end. -/
theorem GetBytes.progress_no_room (a : GBArgs) (s : GBState) (h : GetBytes.Safe a s)
    (hm : 1 < GetBytes.measure a s) (h2 : s.pTarget ≤ a.byteCount) (u : GBState)
    (e1 : u.bytes = s.bytes) (e2 : u.oob = s.oob) (e3 : u.pTarget = s.pTarget) :
    GetBytes.Progress a s
      (let s1 := u.assert (decide (u.pSrc ≥ 0) || decide (u.pTarget = 0))
       if s1.pTarget = 0 then
         { s1 with errnoResult := MINIPAL_ERROR_INSUFFICIENT_BUFFER, loc := .Return 0 }
       else { s1 with ch := 0, loc := .Done }) := by
  dsimp only
  split_ifs with x
  · refine ⟨⟨?_, ?_, ?_⟩, ?_⟩
    · simp only [GBState.assert_bytes, e1]
      exact h.len
    · simp only [GBState.assert_oob, e2]
      exact h.inBounds
    · simp only [GetBytes.SafeAt]
      omega
    · exact Nat.lt_trans Nat.zero_lt_one hm
  · refine ⟨⟨?_, ?_, ?_⟩, ?_⟩
    · simp only [GBState.assert_bytes, e1]
      exact h.len
    · simp only [GBState.assert_oob, e2]
      exact h.inBounds
    · simp only [GetBytes.SafeAt, GBState.assert_pTarget, e3]
      exact h2
    · simp only [GetBytes.measure]
      exact hm

/-- The surrogate branch of `EncodeChar`, for every source: the replacement
buffer is filled and the slow loop reads it next. -/
theorem GetBytes.progress_encode_surrogate (a : GBArgs) (hv : a.Valid) (s : GBState)
    (h : GetBytes.Safe a s) (hloc : s.loc = .EncodeChar) (henc : GetBytes.EncOk a s)
    (h0 : 0 ≤ s.pSrc) (h1 : s.pSrc ≤ a.pEnd) (h2 : s.pTarget ≤ a.byteCount)
    (c1 : s.encoder.fallbackCount < 0) (lo : 0xD800 ≤ s.ch) (hi : s.ch ≤ 0xDFFF)
    (c4 : 0xD800 ≤ s.ch → s.ch ≤ 0xDBFF → s.pSrc < a.pEnd →
      ¬ (0xDC00 ≤ a.unit s.pSrc ∧ a.unit s.pSrc ≤ 0xDFFF))
    (t : GBState) (tb : t.bytes = s.bytes)
    (tob : t.oob = s.oob) (ts : t.pSrc = s.pSrc) (tt : t.pTarget = s.pTarget)
    (tu : t.fallbackUsed = true)
    (k1 : t.encoder.strDefault = s.encoder.strDefault)
    (k2 : t.encoder.strDefaultLength = s.encoder.strDefaultLength)
    (k3 : t.encoder.charEnd = a.pEnd) :
    GetBytes.Progress a s
      { (EncoderReplacementFallbackBuffer_InternalFallback a t (s.ch % 65536).toNat).2 with
        ch := 0, loc := .SlowLoop } := by
  have hc : (s.ch % 65536).toNat < 65536 := by omega
  have hnext : IsHighSurrogate (s.ch % 65536).toNat = true → t.pSrc < a.pEnd →
      IsLowSurrogate (a.unit t.pSrc) = false := by
    intro x y
    rw [IsHighSurrogate_iff _ hc] at x
    rw [ts] at y ⊢
    have z := c4 (by omega) (by omega) y
    rw [← Bool.not_eq_true, IsLowSurrogate_iff _ (GBArgs.unit_lt hv _)]
    exact z
  obtain ⟨sv, f1, f2, fk⟩ := InternalFallback_fills a t (s.ch % 65536).toNat
    (by rw [k2]; exact henc.2.1) k3 (by rw [ts]; exact h0) hnext
  obtain ⟨v1, v2, v3, v4, v5, v6, v7, v8⟩ := sv
  obtain ⟨g1, g2, g3⟩ := fk
  refine ⟨⟨?_, ?_, ?_⟩, ?_⟩
  · show (EncoderReplacementFallbackBuffer_InternalFallback a t (s.ch % 65536).toNat).2.bytes.length
      = a.byteCount
    rw [v2, tb]
    exact h.len
  · show (EncoderReplacementFallbackBuffer_InternalFallback a t (s.ch % 65536).toNat).2.oob = false
    rw [v8, tob]
    exact h.inBounds
  · simp only [GetBytes.SafeAt]
    refine ⟨⟨?_, ?_, ?_, ?_⟩, ?_, ?_, ?_, Or.inl ⟨trivial, ?_, f1, f2⟩⟩
    · show (EncoderReplacementFallbackBuffer_InternalFallback a t _).2.encoder.strDefault = _
      rw [g1, k1]
      exact henc.1
    · show (EncoderReplacementFallbackBuffer_InternalFallback a t _).2.encoder.strDefaultLength = _
      rw [g2, k2]
      exact henc.2.1
    · show -2147483648 ≤ (EncoderReplacementFallbackBuffer_InternalFallback a t _).2.encoder.fallbackCount
      rw [f1]
      decide
    · intro _
      show (EncoderReplacementFallbackBuffer_InternalFallback a t _).2.encoder.charEnd = _
      rw [g3, k3]
    · rw [v3, ts]
      exact h0
    · rw [v3, ts]
      exact h1
    · rw [v4, tt]
      exact h2
    · rw [v7]
      exact tu
  · simp only [GetBytes.measure, hloc, if_pos c1, f1, v3, ts]
    rw [if_neg (by decide)]
    omega

/-- One step from `EncodeChar`, for every source. -/
theorem GetBytes.progress_encode (a : GBArgs) (hv : a.Valid) (s : GBState)
    (h : GetBytes.Safe a s) (hloc : s.loc = .EncodeChar) :
    GetBytes.Progress a s (GetBytes.step a s) := by
  have hat := h.at_loc
  simp only [GetBytes.SafeAt, hloc] at hat
  obtain ⟨henc, h0, h1, h2, hph⟩ := hat
  rw [(GetBytes.step_of_loc a s).2.2.1 hloc]
  have hm : 1 < GetBytes.measure a s := by
    simp only [GetBytes.measure, hloc]
    split_ifs <;> omega
  have hch : 0 ≤ s.ch ∧ s.ch < 0x110000 := by
    rcases hph with ⟨c1, _⟩ | ⟨_, c2, c3, _⟩
    · rw [c1]
      decide
    · exact ⟨c2, c3⟩
  by_cases hr : InRange s.ch HIGH_SURROGATE_START LOW_SURROGATE_END = true
  · have hr' := hr
    simp only [InRange, HIGH_SURROGATE_START, LOW_SURROGATE_END, Bool.and_eq_true,
      decide_eq_true_eq] at hr'
    unfold GetBytes.EncodeChar
    rw [if_pos hr]
    rcases hph with ⟨c1, _⟩ | ⟨c1, c2, c3, c4⟩
    · omega
    · by_cases hf : s.fallbackUsed = true
      · rw [if_pos hf]
        exact GetBytes.progress_encode_surrogate a hv s h hloc henc h0 h1 h2 c1 hr'.1 hr'.2 c4
          s rfl rfl rfl rfl hf rfl rfl (henc.2.2.2 hf)
      · rw [if_neg hf]
        exact GetBytes.progress_encode_surrogate a hv s h hloc henc h0 h1 h2 c1 hr'.1 hr'.2 c4
          _ rfl rfl rfl rfl rfl rfl rfl rfl
  · have hr' := hr
    simp only [InRange, HIGH_SURROGATE_START, LOW_SURROGATE_END, Bool.and_eq_true,
      decide_eq_true_eq] at hr'
    have hcp : s.ch = ((s.ch.toNat : Nat) : Int) := by omega
    by_cases hroom : s.pTarget + (utf8 s.ch.toNat).length ≤ a.byteCount
    · have hE : (s.bytes.take s.pTarget).length = s.pTarget := by
        rw [List.length_take, h.len]
        omega
      obtain ⟨B, eB, _, lB⟩ := GetBytes.EncodeChar_eq a s s.ch.toNat (s.bytes.take s.pTarget)
        hcp (by rw [hloc]; intro r; exact Loc.noConfusion) (by omega) (by omega) hE.symm
        (by rw [hE]) h.len (by rw [hE]; exact hroom)
      rw [eB]
      have key := GetBytes.progress_afterEncode a hv
        { s with bytes := B, pTarget := (s.bytes.take s.pTarget ++ utf8 s.ch.toNat).length }
        lB h.inBounds (henc.of_eq rfl rfl) h0 h1
        (by
          show (s.bytes.take s.pTarget ++ utf8 s.ch.toNat).length ≤ a.byteCount
          rw [List.length_append, hE]
          exact hroom)
        (by
          show s.encoder.fallbackCount ≤ 0
          rcases hph with ⟨_, _, c3, _⟩ | ⟨c1, _⟩ <;> omega)
        (by
          intro x
          show s.encoder.fallbackCount < 0
          rcases hph with ⟨_, c2, _, _⟩ | ⟨c1, _⟩
          · rw [c2] at x
            exact absurd x (by decide)
          · exact c1)
      refine ⟨key.1, Nat.lt_of_le_of_lt key.2 ?_⟩
      simp only [GetBytes.measure, hloc]
      split_ifs <;> omega
    · have hcond : (s.pTarget : Int) > a.byteCount -
          (if s.ch > 0x7F then (if s.ch > 0x7FF then (if s.ch > 0xFFFF then 4 else 3) else 2)
            else 1) := by
        unfold utf8 at hroom
        split_ifs at hroom ⊢ <;> simp at hroom <;> omega
      unfold GetBytes.EncodeChar
      rw [if_neg hr]
      dsimp only
      rw [if_pos hcond]
      refine GetBytes.progress_no_room a s h hm h2 _ ?_ ?_ ?_
      · split_ifs <;>
          simp [(MovePrevious_frame _).1]
      · split_ifs <;>
          simp [(MovePrevious_frame _).2.1]
      · split_ifs <;>
          simp [(MovePrevious_frame _).2.2.1]

/-- One step from a safe state that has not returned is safe and lowers the
measure. -/
theorem GetBytes.progress_step (a : GBArgs) (hv : a.Valid) (s : GBState)
    (h : GetBytes.Safe a s) (hloc : ∀ r, s.loc ≠ .Return r) :
    GetBytes.Progress a s (GetBytes.step a s) := by
  cases hl : s.loc with
  | SlowLoop => exact GetBytes.progress_slow a hv s h hl
  | ProcessChar => exact GetBytes.progress_process a s h hl
  | EncodeChar => exact GetBytes.progress_encode a hv s h hl
  | AsciiLoop => exact GetBytes.progress_ascii a hv s h hl
  | FastLoop => exact GetBytes.progress_fast a hv s h hl
  | FastLoop4 => exact GetBytes.progress_fast4 a s h hl
  | LongCode => exact GetBytes.progress_long a s h hl
  | Done => exact GetBytes.progress_done a s h hl
  | Return r => exact absurd hl (hloc r)

theorem GetBytes.safe_step (a : GBArgs) (hv : a.Valid) (s : GBState)
    (h : GetBytes.Safe a s) : GetBytes.Safe a (GetBytes.step a s) := by
  by_cases hloc : ∀ r, s.loc ≠ .Return r
  · exact (GetBytes.progress_step a hv s h hloc).1
  · have hr : ∃ r, s.loc = .Return r := by
      by_contra x
      exact hloc fun r e => x ⟨r, e⟩
    obtain ⟨r, hr⟩ := hr
    have e : GetBytes.step a s = s := by
      unfold GetBytes.step
      rw [hr]
    rw [e]
    exact h

theorem GetBytes.safe_after (a : GBArgs) (hv : a.Valid) :
    ∀ (k : Nat) (s : GBState), GetBytes.Safe a s → GetBytes.Safe a (GetBytes.after k a s) := by
  intro k
  induction k with
  | zero => intro s h; exact h
  | succ k ih => intro s h; exact ih _ (GetBytes.safe_step a hv s h)

/-- A run that returns is a finite number of steps. -/
theorem GetBytes.run_is_after (a : GBArgs) : ∀ (n : Nat) (s s' : GBState),
    GetBytes.run n a s = some s' → ∃ k, s' = GetBytes.after k a s := by
  intro n
  induction n with
  | zero => intro s s' h; simp [GetBytes.run] at h
  | succ n ih =>
    intro s s' h
    by_cases hloc : ∀ r, s.loc ≠ .Return r
    · rw [GetBytes.run_step n a s hloc] at h
      obtain ⟨k, e⟩ := ih _ _ h
      exact ⟨k + 1, e⟩
    · have hr : ∃ r, s.loc = .Return r := by
        by_contra x
        exact hloc fun r e => x ⟨r, e⟩
      obtain ⟨r, hr⟩ := hr
      rw [GetBytes.run_final n a s r hr] at h
      exact ⟨0, (Option.some.inj h).symm⟩

/-- Every run from a safe state returns, within as many steps as the measure
says, in a safe state. -/
theorem GetBytes.run_of_safe (a : GBArgs) (hv : a.Valid) : ∀ (n : Nat) (s : GBState),
    GetBytes.Safe a s → GetBytes.measure a s ≤ n →
    ∃ s' r, GetBytes.run (n + 1) a s = some s' ∧ GetBytes.Safe a s' ∧ s'.loc = .Return r := by
  intro n
  induction n with
  | zero =>
    intro s h hm
    by_cases hloc : ∀ r, s.loc ≠ .Return r
    · have p := (GetBytes.progress_step a hv s h hloc).2
      omega
    · have hr : ∃ r, s.loc = .Return r := by
        by_contra x
        exact hloc fun r e => x ⟨r, e⟩
      obtain ⟨r, hr⟩ := hr
      exact ⟨s, r, GetBytes.run_final 0 a s r hr, h, hr⟩
  | succ n ih =>
    intro s h hm
    by_cases hloc : ∀ r, s.loc ≠ .Return r
    · have p := GetBytes.progress_step a hv s h hloc
      obtain ⟨s', r, e, hs, hr⟩ := ih _ p.1 (by have := p.2; omega)
      exact ⟨s', r, by rw [GetBytes.run_step (n + 1) a s hloc]; exact e, hs, hr⟩
    · have hr : ∃ r, s.loc = .Return r := by
        by_contra x
        exact hloc fun r e => x ⟨r, e⟩
      obtain ⟨r, hr⟩ := hr
      exact ⟨s, r, GetBytes.run_final (n + 1) a s r hr, h, hr⟩

theorem GetBytes.entry_safe (addr : Nat) (source destination : List Nat) :
    GetBytes.Safe { chars := source, byteCount := destination.length, addr := addr }
      (GetBytes.entry initialEncoder destination) := by
  refine ⟨rfl, rfl, ?_⟩
  simp only [GetBytes.SafeAt, GetBytes.entry]
  refine ⟨⟨rfl, rfl, show (-2147483648 : Int) ≤ -1 by decide, ?_⟩, Int.le_refl _, ?_,
    Nat.zero_le _, Or.inr ⟨show (-1 : Int) < 0 by decide, Or.inl trivial⟩⟩
  · intro x
    exact absurd x (show ¬ (false = true) by decide)
  · unfold GBArgs.pEnd
    omega

theorem GetBytes.entry_measure (addr : Nat) (source destination : List Nat) :
    GetBytes.measure { chars := source, byteCount := destination.length, addr := addr }
      (GetBytes.entry initialEncoder destination) = 12 * source.length + 5 := by
  simp only [GetBytes.measure, GetBytes.entry, initialEncoder, GBArgs.pEnd]
  simp

/-! ## Conversion stays in bounds -/

/-- C23: for every source of 16-bit units, every source address and every
destination (lengths below `2 ^ 64`), no state that `GetBytes` reaches, after
any number of steps, has made a load outside the source or a store outside the
destination (the flag `oob` is set by each such load and store, the two-unit
and four-unit reads of the fast loop and the look-ahead read for a low
surrogate included, and is never cleared) and the destination keeps its
length; the loops end within `12 * sourceLength + 6` steps, in one of those
states, returning at most `destinationLength`; and
`minipal_convert_utf16_to_utf8` returns a count that is at most
`destinationLength`. -/
theorem conversion_in_bounds (addr : Nat) (source destination : List Nat)
    (hu : ∀ u ∈ source, u < 65536) (hs : source.length < 2 ^ 64)
    (hd : destination.length < 2 ^ 64) :
    (∀ k, (GetBytes.after k { chars := source, byteCount := destination.length, addr := addr }
          (GetBytes.entry initialEncoder destination)).oob = false ∧
        (GetBytes.after k { chars := source, byteCount := destination.length, addr := addr }
          (GetBytes.entry initialEncoder destination)).bytes.length = destination.length) ∧
    (∀ fuel, 12 * source.length + 6 ≤ fuel →
      ∃ s' r k, GetBytes.run fuel { chars := source, byteCount := destination.length, addr := addr }
          (GetBytes.entry initialEncoder destination) = some s' ∧
        s' = GetBytes.after k { chars := source, byteCount := destination.length, addr := addr }
          (GetBytes.entry initialEncoder destination) ∧
        s'.loc = .Return r ∧ r ≤ destination.length ∧ s'.oob = false) ∧
    (∀ fuel, 12 * source.length + 6 ≤ fuel →
      ∃ n out, minipal_convert_utf16_to_utf8 fuel addr source destination = some (n, out) ∧
        n ≤ destination.length ∧ out.length = destination.length) := by
  have hv : GBArgs.Valid { chars := source, byteCount := destination.length, addr := addr } :=
    ⟨hu, hs, hd⟩
  have h0 := GetBytes.entry_safe addr source destination
  have hrun : ∀ fuel, 12 * source.length + 6 ≤ fuel →
      ∃ s' r, GetBytes.run fuel { chars := source, byteCount := destination.length, addr := addr }
          (GetBytes.entry initialEncoder destination) = some s' ∧
        GetBytes.Safe { chars := source, byteCount := destination.length, addr := addr } s' ∧
        s'.loc = .Return r := by
    intro fuel hf
    obtain ⟨s', r, e, hs', hr⟩ := GetBytes.run_of_safe _ hv (12 * source.length + 5) _ h0
      (Nat.le_of_eq (GetBytes.entry_measure addr source destination))
    obtain ⟨j, rfl⟩ := Nat.exists_eq_add_of_le hf
    exact ⟨s', r, GetBytes.run_add_fuel _ _ _ _ e j, hs', hr⟩
  refine ⟨?_, ?_, ?_⟩
  · intro k
    have h := GetBytes.safe_after _ hv k _ h0
    exact ⟨h.inBounds, h.len⟩
  · intro fuel hf
    obtain ⟨s', r, e, hs', hr⟩ := hrun fuel hf
    obtain ⟨k, ek⟩ := GetBytes.run_is_after _ _ _ _ e
    have hat := hs'.at_loc
    simp only [GetBytes.SafeAt, hr] at hat
    exact ⟨s', r, k, e, ek, hr, hat, hs'.inBounds⟩
  · intro fuel hf
    obtain ⟨s', r, e, hs', hr⟩ := hrun fuel hf
    have hat := hs'.at_loc
    simp only [GetBytes.SafeAt, hr] at hat
    unfold minipal_convert_utf16_to_utf8
    by_cases hz : source.length = 0
    · rw [if_pos hz]
      exact ⟨0, destination, rfl, Nat.zero_le _, rfl⟩
    · rw [if_neg hz, e]
      refine ⟨_, _, rfl, ?_, hs'.len⟩
      show (if s'.errnoResult ≠ 0 then 0 else s'.ret) ≤ destination.length
      split_ifs
      · exact Nat.zero_le _
      · unfold GBState.ret
        rw [hr]
        exact hat

/-- C23, witness: an ASCII unit, a lone high surrogate, a surrogate pair and a
lone low surrogate, from an address that is not a multiple of four, into a
destination of three bytes. -/
theorem conversion_in_bounds_witness :
    (∀ k, (GetBytes.after k
          { chars := [0x41, 0xD800, 0xD83D, 0xDE00, 0xDFFF], byteCount := 3, addr := 2 }
          (GetBytes.entry initialEncoder [0, 0, 0])).oob = false ∧
        (GetBytes.after k
          { chars := [0x41, 0xD800, 0xD83D, 0xDE00, 0xDFFF], byteCount := 3, addr := 2 }
          (GetBytes.entry initialEncoder [0, 0, 0])).bytes.length = 3) ∧
    (∀ fuel, 66 ≤ fuel →
      ∃ s' r k, GetBytes.run fuel
          { chars := [0x41, 0xD800, 0xD83D, 0xDE00, 0xDFFF], byteCount := 3, addr := 2 }
          (GetBytes.entry initialEncoder [0, 0, 0]) = some s' ∧
        s' = GetBytes.after k
          { chars := [0x41, 0xD800, 0xD83D, 0xDE00, 0xDFFF], byteCount := 3, addr := 2 }
          (GetBytes.entry initialEncoder [0, 0, 0]) ∧
        s'.loc = .Return r ∧ r ≤ 3 ∧ s'.oob = false) ∧
    (∀ fuel, 66 ≤ fuel →
      ∃ n out, minipal_convert_utf16_to_utf8 fuel 2 [0x41, 0xD800, 0xD83D, 0xDE00, 0xDFFF]
          [0, 0, 0] = some (n, out) ∧
        n ≤ 3 ∧ out.length = 3) :=
  conversion_in_bounds 2 [0x41, 0xD800, 0xD83D, 0xDE00, 0xDFFF] [0, 0, 0]
    (by decide) (by decide) (by decide)

/-! ## A source of lone low surrogates, step by step -/

theorem loneArgs_pEnd (N addr : Nat) : (loneArgs N addr).pEnd = N := by
  simp [loneArgs, GBArgs.pEnd]

theorem loneArgs_unit (N addr : Nat) (i : Int) (h0 : 0 ≤ i) (h1 : i < N) :
    (loneArgs N addr).unit i = 0xDC00 := by
  unfold GBArgs.unit
  rw [if_pos ⟨h0, by rw [loneArgs_pEnd]; exact h1⟩]
  simp only [loneArgs]
  rw [List.getD_eq_getElem?_getD, List.getElem?_replicate]
  rw [if_pos (by omega)]
  rfl

theorem GetNextChar_lone_fresh (l : Loc) (N : Nat) (B : List Nat) (k : Int) (t : Nat)
    (p c n : Int) (b : Bool) :
    EncoderReplacementFallbackBuffer_InternalGetNextChar
        (loneState l B k t p c (fallenBack N 1 (-1) n) b)
      = (0xFFFD, loneState l B k t p c (fallenBack N 0 0 n) b) := by
  simp [EncoderReplacementFallbackBuffer_InternalGetNextChar, loneState, fallenBack, wrapInt,
    INT_MAX, GBState.assert]

theorem GetNextChar_lone_used (l : Loc) (N : Nat) (B : List Nat) (k : Int) (t : Nat)
    (p c n : Int) (b : Bool) (x i : Int) (hx : -1000 ≤ x) (hx0 : x ≤ 0) (hi : 0 ≤ i)
    (hi1 : i ≤ 1000) :
    EncoderReplacementFallbackBuffer_InternalGetNextChar
        (loneState l B k t p c (fallenBack N x i n) b)
      = (0, loneState l B k t p c (fallenBack N (x - 1) (i + 1) n) b) := by
  have e1 : wrapInt (x - 1) = x - 1 := by unfold wrapInt; omega
  have e2 : wrapInt (i + 1) = i + 1 := by unfold wrapInt; omega
  unfold EncoderReplacementFallbackBuffer_InternalGetNextChar
  simp only [loneState, fallenBack, e1, e2]
  rw [if_pos (by omega)]

theorem lone_slow_fresh (N addr : Nat) (B : List Nat) (k : Int) (t : Nat) (p n : Int) (b : Bool)
    (hk : k < N) :
    GetBytes.step (loneArgs N addr) (loneState .SlowLoop B k t p 0 (fallenBack N 1 (-1) n) b)
      = loneState .ProcessChar B k t p 0xFFFD (fallenBack N 0 0 n) b := by
  rw [(GetBytes.step_of_loc _ _).1 rfl]
  unfold GetBytes.SlowLoop
  rw [if_neg (by rw [loneArgs_pEnd]; exact not_le.mpr hk), GetNextChar_lone_fresh]
  simp [loneState]

theorem lone_process (N addr : Nat) (B : List Nat) (k : Int) (t : Nat) (p c : Int)
    (e : EncoderBuffer) (b : Bool) (hc : 0xDC00 ≤ c) :
    GetBytes.step (loneArgs N addr) (loneState .ProcessChar B k t p c e b)
      = loneState .EncodeChar B k t p c e b := by
  rw [(GetBytes.step_of_loc _ _).2.1 rfl]
  unfold GetBytes.ProcessChar
  rw [if_neg]
  · rfl
  · simp only [InRange, HIGH_SURROGATE_START, HIGH_SURROGATE_END, Bool.and_eq_true,
      decide_eq_true_eq, loneState]
    omega

theorem lone_slow_used (N addr : Nat) (B : List Nat) (k : Int) (t : Nat) (p n : Int) (b : Bool)
    (h0 : 0 ≤ k) (hk : k < N) :
    GetBytes.step (loneArgs N addr) (loneState .SlowLoop B k t p 0 (fallenBack N (-1) 1 n) b)
      = loneState .ProcessChar B (k + 1) t p 0xDC00 (fallenBack N (-2) 2 n) b := by
  rw [(GetBytes.step_of_loc _ _).1 rfl]
  unfold GetBytes.SlowLoop
  rw [if_neg (by rw [loneArgs_pEnd]; exact not_le.mpr hk),
    GetNextChar_lone_used _ _ _ _ _ _ _ _ _ _ _ (by decide) (by decide) (by decide) (by decide)]
  have hu := loneArgs_unit N addr k h0 hk
  have hl : (0 ≤ k ∧ k < (loneArgs N addr).pEnd) := ⟨h0, by rw [loneArgs_pEnd]; exact hk⟩
  simp [loneState, GBState.next, GBState.noteLoad, hu, hl]

theorem lone_fast (N addr : Nat) (B : List Nat) (k : Int) (t : Nat) (p : Int)
    (e : EncoderBuffer) (b : Bool) (h0 : 0 ≤ k) (hk : k < N) (hp : k < p) :
    GetBytes.step (loneArgs N addr) (loneState .FastLoop B k t p 0 e b)
      = loneState .LongCode B (k + 1) t p 0xDC00 e b := by
  rw [(GetBytes.step_of_loc _ _).2.2.2.2.1 rfl]
  unfold GetBytes.FastLoop
  have hu := loneArgs_unit N addr k h0 hk
  have hl : (0 ≤ k ∧ k < (loneArgs N addr).pEnd) := ⟨h0, by rw [loneArgs_pEnd]; exact hk⟩
  simp [loneState, GBState.next, GBState.noteLoad, hu, hl, hp]

theorem lone_long (N addr : Nat) (B : List Nat) (k : Int) (t : Nat) (p : Int)
    (e : EncoderBuffer) (b : Bool) (ht : t ≤ 3 * N) :
    GetBytes.step (loneArgs N addr) (loneState .LongCode B (k + 1) t p 0xDC00 e b)
      = loneState .SlowLoop B k t p 0 e b := by
  rw [(GetBytes.step_of_loc _ _).2.2.2.2.2.2.1 rfl]
  unfold GetBytes.LongCode
  have hb : (loneArgs N addr).byteCount = 3 * N := rfl
  simp [loneState, InRange, HIGH_SURROGATE_START, HIGH_SURROGATE_END, LOW_SURROGATE_END,
    GetBytes.afterFastLoop, GBState.assert, hb, ht]

theorem lone_encode_surrogate (N addr : Nat) (B : List Nat) (k : Int) (t : Nat) (p n : Int)
    (b : Bool) (hn0 : 0 ≤ n) (hn : n ≤ 1000) :
    GetBytes.step (loneArgs N addr)
        (loneState .EncodeChar B k t p 0xDC00 (fallenBack N (-2) 2 n) b)
      = loneState .SlowLoop B k t p 0 (fallenBack N 1 (-1) (n + 1))
          (b || !decide (n ≤ 250)) := by
  rw [(GetBytes.step_of_loc _ _).2.2.1 rfl]
  have e1 : wrapInt (n + 1) = n + 1 := by unfold wrapInt; omega
  have hh : IsHighSurrogate 56320 = false := by decide
  by_cases h : n ≤ 250
  · simp [GetBytes.EncodeChar, loneState, fallenBack, InRange, HIGH_SURROGATE_START,
      LOW_SURROGATE_END, EncoderReplacementFallbackBuffer_InternalFallback, hh,
      recursionAssert, EncoderReplacementFallbackBuffer_Fallback, GBState.assert, MAX_RECURSION,
      e1, h]
  · simp [GetBytes.EncodeChar, loneState, fallenBack, InRange, HIGH_SURROGATE_START,
      LOW_SURROGATE_END, EncoderReplacementFallbackBuffer_InternalFallback, hh,
      recursionAssert, EncoderReplacementFallbackBuffer_Fallback, GBState.assert, MAX_RECURSION,
      e1, h]

theorem lone_afterEncode (N addr : Nat) (B : List Nat) (k t : Nat) (p n : Int) (b : Bool)
    (hN : N < 2 ^ 62) (hk : k + 14 ≤ N) (ht : t + (N - k) ≤ 3 * N) :
    GetBytes.afterEncode (loneArgs N addr)
        (loneState .EncodeChar B k t p 0xFFFD (fallenBack N 0 0 n) b)
      = loneState .FastLoop B k t ((N : Int) - 5) 0 (fallenBack N (-1) 1 n) b := by
  have ec : sizeT ((loneArgs N addr).pEnd - (k : Int)) = N - k := by
    rw [loneArgs_pEnd]
    unfold sizeT
    omega
  have eb : sizeT (((loneArgs N addr).byteCount : Int) - (t : Nat)) = 3 * N - t := by
    have hb : (loneArgs N addr).byteCount = 3 * N := rfl
    rw [hb]
    unfold sizeT
    omega
  have g := GetNextChar_lone_used .EncodeChar N B k t p 0xFFFD n b 0 0
    (by decide) (by decide) (by decide) (by decide)
  unfold GetBytes.afterEncode
  have hf : (loneState .EncodeChar B k t p 0xFFFD (fallenBack N 0 0 n) b).fallbackUsed = true :=
    rfl
  rw [if_pos hf, g]
  dsimp only
  rw [if_neg (by simp)]
  have e1 : (loneState Loc.EncodeChar B (↑k) t p 65533 (fallenBack N (0 - 1) (0 + 1) n) b).pSrc
      = (k : Int) := rfl
  have e2 : (loneState Loc.EncodeChar B (↑k) t p 65533 (fallenBack N (0 - 1) (0 + 1) n) b).pTarget
      = t := rfl
  rw [e1, e2, ec, eb, if_neg (by omega), if_neg (by omega)]
  simp only [loneState, GBState.mk.injEq, true_and, and_true]
  refine ⟨by omega, ?_⟩
  simp [fallenBack]

theorem lone_encode_replacement (N addr : Nat) (B : List Nat) (k t : Nat) (p n : Int) (b : Bool)
    (hN : N < 2 ^ 62) (hk : k + 14 ≤ N) (ht : t + 3 + (N - k) ≤ 3 * N)
    (hB : B.length = 3 * N) :
    ∃ B2 : List Nat, B2.length = 3 * N ∧
      GetBytes.step (loneArgs N addr)
          (loneState .EncodeChar B k t p 0xFFFD (fallenBack N 0 0 n) b)
        = loneState .FastLoop B2 k (t + 3) ((N : Int) - 5) 0 (fallenBack N (-1) 1 n) b := by
  rw [(GetBytes.step_of_loc _ _).2.2.1 rfl]
  have hE : (B.take t).length = t := by
    rw [List.length_take, hB]
    omega
  obtain ⟨B2, e, _, l⟩ := GetBytes.EncodeChar_eq (loneArgs N addr)
    (loneState .EncodeChar B k t p 0xFFFD (fallenBack N 0 0 n) b) 0xFFFD (B.take t)
    rfl (fun r => Loc.noConfusion) (by decide) (by decide) hE.symm (by rw [hE]; rfl) hB
    (by
      rw [hE]
      show t + 3 ≤ 3 * N
      omega)
  refine ⟨B2, l, ?_⟩
  rw [e]
  have es : ({ loneState .EncodeChar B k t p 0xFFFD (fallenBack N 0 0 n) b with
      bytes := B2, pTarget := (B.take t ++ utf8 0xFFFD).length } : GBState)
      = loneState .EncodeChar B2 k (t + 3) p 0xFFFD (fallenBack N 0 0 n) b := by
    simp only [loneState, GBState.mk.injEq, true_and, and_true]
    rw [List.length_append, hE]
    rfl
  rw [es]
  exact lone_afterEncode N addr B2 k (t + 3) p n b hN hk ht

theorem GetBytes.after_add (a : GBArgs) : ∀ (m n : Nat) (s : GBState),
    GetBytes.after (m + n) a s = GetBytes.after n a (GetBytes.after m a s) := by
  intro m
  induction m with
  | zero => intro n s; rw [Nat.zero_add]; rfl
  | succ m ih =>
    intro n s
    rw [show m + 1 + n = (m + n) + 1 by omega]
    exact ih n _

/-- One lone low surrogate after the first: eight steps from the slow loop with
the replacement buffer freshly filled to the same place one unit later, the
recursion count one higher and compared with `MAX_RECURSION` on the way. -/
theorem lone_round (N addr : Nat) (B : List Nat) (k t : Nat) (p n : Int) (b : Bool)
    (hN : N < 2 ^ 62) (hk : k + 14 ≤ N) (ht : t + 3 + (N - k) ≤ 3 * N)
    (hB : B.length = 3 * N) (hn0 : 0 ≤ n) (hn : n ≤ 1000) :
    ∃ B2 : List Nat, B2.length = 3 * N ∧
      GetBytes.after 8 (loneArgs N addr)
          (loneState .SlowLoop B k t p 0 (fallenBack N 1 (-1) n) b)
        = loneState .SlowLoop B2 ((k + 1 : Nat) : Int) (t + 3) ((N : Int) - 5) 0
            (fallenBack N 1 (-1) (n + 1)) (b || !decide (n ≤ 250)) := by
  obtain ⟨B2, l, e⟩ := lone_encode_replacement N addr B k t p n b hN hk ht hB
  refine ⟨B2, l, ?_⟩
  simp only [GetBytes.after]
  rw [lone_slow_fresh N addr B k t p n b (by omega),
    lone_process N addr B k t p 0xFFFD _ b (by decide), e,
    lone_fast N addr B2 k (t + 3) _ _ b (by omega) (by omega) (by omega),
    lone_long N addr B2 k (t + 3) _ _ b (by omega),
    lone_slow_used N addr B2 k (t + 3) _ n b (by omega) (by omega),
    lone_process N addr B2 _ (t + 3) _ 0xDC00 _ b (by decide),
    lone_encode_surrogate N addr B2 _ (t + 3) _ n b hn0 hn]
  rw [Nat.cast_succ]

/-- The first unit of the source: three steps from the entry to the slow loop
with the replacement buffer filled; `bFallingBack` was not set yet, so the
recursion count was not looked at. -/
theorem lone_first (N addr : Nat) (B : List Nat) (hN : 1 ≤ N) :
    GetBytes.after 3 (loneArgs N addr) (GetBytes.entry initialEncoder B)
      = loneState .SlowLoop B 1 0 0 0 (fallenBack N 1 (-1) 0) false := by
  have hu := loneArgs_unit N addr 0 (Int.le_refl _) (by omega)
  have hl : (0 : Int) < (loneArgs N addr).pEnd := by rw [loneArgs_pEnd]; omega
  have hp := loneArgs_pEnd N addr
  have hh : IsHighSurrogate 56320 = false := by decide
  have h1 : 0 < N := hN
  have h2 : N ≠ 0 := by omega
  simp [h1, h2, GetBytes.after, GetBytes.step, GetBytes.entry, initialEncoder, GetBytes.SlowLoop,
    GBState.next, GBState.noteLoad, hu, hl, hp, GetBytes.ProcessChar, InRange,
    HIGH_SURROGATE_START, HIGH_SURROGATE_END, LOW_SURROGATE_END, GetBytes.EncodeChar,
    EncoderReplacementFallbackBuffer_InternalInitialize,
    EncoderReplacementFallbackBuffer_InternalFallback, hh, recursionAssert,
    EncoderReplacementFallbackBuffer_Fallback, GBState.assert, loneState, fallenBack]

/-- After the first unit and `m` more, the recursion count is `m` and the
assertion has failed exactly when `m` is 252 or more. -/
theorem lone_rounds (N addr : Nat) (B : List Nat) (hN : N < 2 ^ 62) (hB : B.length = 3 * N) :
    ∀ m : Nat, m + 14 ≤ N → m ≤ 1000 → ∃ (B2 : List Nat) (p : Int), B2.length = 3 * N ∧
      GetBytes.after (3 + 8 * m) (loneArgs N addr) (GetBytes.entry initialEncoder B)
        = loneState .SlowLoop B2 ((m + 1 : Nat) : Int) (3 * m) p 0 (fallenBack N 1 (-1) m)
            (decide (252 ≤ m)) := by
  intro m
  induction m with
  | zero =>
    intro h1 _
    exact ⟨B, 0, hB, lone_first N addr B (by omega)⟩
  | succ m ih =>
    intro h1 h2
    obtain ⟨B1, p, l1, e1⟩ := ih (by omega) (by omega)
    obtain ⟨B2, l2, e2⟩ := lone_round N addr B1 (m + 1) (3 * m) p m (decide (252 ≤ m)) hN
      (by omega) (by omega) l1 (by omega) (by omega)
    refine ⟨B2, (N : Int) - 5, l2, ?_⟩
    rw [show 3 + 8 * (m + 1) = (3 + 8 * m) + 8 by omega, GetBytes.after_add, e1, e2]
    have eb : (decide (252 ≤ m) || !decide ((m : Int) ≤ 250)) = decide (252 ≤ m + 1) := by
      by_cases x : 252 ≤ m
      · simp [x]
        omega
      · by_cases y : m = 251
        · subst y
          decide
        · have z : ¬ (252 ≤ m + 1) := by omega
          have w : (m : Int) ≤ 250 := by omega
          simp [x, z, w]
    rw [eb]
    rfl

/-! ## The recursion count of the replacement fallback -/

/-- C24, failing input: a source of 267 units `0xDC00` (lone low surrogates)
with a destination of 801 bytes, at every source address.  After 2011 steps
of `GetBytes` (252 units replaced) no assertion has failed, `bFallingBack` is
still set and `iRecursionCount` is 251, above `MAX_RECURSION`; eight steps
later, when the 253rd unit has gone to the fallback, an assertion has
evaluated to false: `assert(!self->bFallingBack || self->iRecursionCount++ <=
MAX_RECURSION)` in `EncoderReplacementFallbackBuffer_InternalFallback`. -/
theorem recursion_assert_fails (addr : Nat) :
    (loneArgs 267 addr).chars = List.replicate 267 0xDC00 ∧
    (loneArgs 267 addr).byteCount = 801 ∧
    (GetBytes.after 2011 (loneArgs 267 addr)
      (GetBytes.entry initialEncoder (List.replicate 801 0))).asserted = false ∧
    (GetBytes.after 2011 (loneArgs 267 addr)
      (GetBytes.entry initialEncoder (List.replicate 801 0))).pSrc = 252 ∧
    (GetBytes.after 2011 (loneArgs 267 addr)
      (GetBytes.entry initialEncoder (List.replicate 801 0))).encoder.bFallingBack = true ∧
    (GetBytes.after 2011 (loneArgs 267 addr)
      (GetBytes.entry initialEncoder (List.replicate 801 0))).encoder.iRecursionCount = 251 ∧
    MAX_RECURSION < 251 ∧
    (GetBytes.after 2019 (loneArgs 267 addr)
      (GetBytes.entry initialEncoder (List.replicate 801 0))).pSrc = 253 ∧
    (GetBytes.after 2019 (loneArgs 267 addr)
      (GetBytes.entry initialEncoder (List.replicate 801 0))).oob = false ∧
    (GetBytes.after 2019 (loneArgs 267 addr)
      (GetBytes.entry initialEncoder (List.replicate 801 0))).asserted = true := by
  have hB : (List.replicate 801 0 : List Nat).length = 3 * 267 := List.length_replicate _ _
  obtain ⟨B1, p1, _, e1⟩ := lone_rounds 267 addr (List.replicate 801 0) (by decide) hB 251
    (by decide) (by decide)
  obtain ⟨B2, p2, _, e2⟩ := lone_rounds 267 addr (List.replicate 801 0) (by decide) hB 252
    (by decide) (by decide)
  rw [show 3 + 8 * 251 = 2011 from rfl] at e1
  rw [show 3 + 8 * 252 = 2019 from rfl] at e2
  rw [e1, e2]
  exact ⟨rfl, rfl, rfl, rfl, rfl, rfl, by decide, rfl, rfl, rfl⟩

end Ryujit
